import Mathlib

/-! Verification of the persistent ordered-record store of
`src/app/src/server/db.ts`
(the `JsonDb` class of the llm-list-maker repository).

The TypeScript code is shallowly embedded: each store operation becomes a pure
Lean function on an explicit document value.  JavaScript numbers used as `order`
ranks are modelled as `Int` (all orders handled by the store are integers; the
coercion layer treats any non-finite input as absent, which the raw input model
folds into `Option Int`).  `Array.prototype.sort` (stable since ES2019) is
modelled by a stable insertion sort.  In-place mutation of objects aliased
between `data.items` and filtered arrays is rendered positionally: items are
enumerated with their array index, and index lookup reproduces the aliasing
write-back exactly.
-/

/-- JS whitespace test used by `String.prototype.trim` (restricted to the ASCII
whitespace characters that matter here). -/
def isWsChar (c : Char) : Bool :=
  c == ' ' || c == '\t' || c == '\n' || c == '\r' || c == '\x0b' || c == '\x0c'

/-- Models `String.prototype.trim` on the underlying character list. -/
def jsTrimList (l : List Char) : List Char :=
  ((l.dropWhile isWsChar).reverse.dropWhile isWsChar).reverse

/-- Models `String.prototype.trim`. -/
def jsTrim (s : String) : String :=
  ⟨jsTrimList s.data⟩

/-- Decimal digit character. -/
def digitChar (d : Nat) : Char :=
  if d = 0 then '0' else if d = 1 then '1' else if d = 2 then '2'
  else if d = 3 then '3' else if d = 4 then '4' else if d = 5 then '5'
  else if d = 6 then '6' else if d = 7 then '7' else if d = 8 then '8' else '9'

/-- Decimal digits of a natural number (fuelled division loop). -/
def natDigitsAux : Nat → Nat → List Char → List Char
  | 0, _, acc => acc
  | fuel + 1, n, acc =>
    let acc' := digitChar (n % 10) :: acc
    if n < 10 then acc' else natDigitsAux fuel (n / 10) acc'

/-- Decimal rendering of a natural number, as produced by a JS template literal. -/
def natStr (n : Nat) : String :=
  ⟨natDigitsAux (n + 1) n []⟩

/-- Stable ordered insertion for the insertion sort modelling `Array.sort`. -/
def orderedInsertB (le : α → α → Bool) (a : α) : List α → List α
  | [] => [a]
  | b :: l => if le a b then a :: b :: l else b :: orderedInsertB le a l

/-- Stable insertion sort, modelling `Array.prototype.sort` with a comparator
whose induced weak order is `le`. -/
def insertionSortB (le : α → α → Bool) : List α → List α
  | [] => []
  | a :: l => orderedInsertB le a (insertionSortB le l)

/-- Sortedness with respect to a boolean weak order. -/
def SortedB (le : α → α → Bool) (l : List α) : Prop :=
  List.Pairwise (fun a b => le a b = true) l

/-- Pair each element with its array index, starting at `n`. -/
def enum2 : Nat → List α → List (Nat × α)
  | _, [] => []
  | n, a :: l => (n, a) :: enum2 (n + 1) l

/-- Index of the first element satisfying `p` (our own copy of `findIdx?`,
kept lemma-friendly). -/
def idxFind (p : α → Bool) : List α → Option Nat
  | [] => none
  | a :: l => if p a then some 0 else (idxFind p l).map (· + 1)

/-- Models `Array.prototype.splice(i, 0, a)`: insert `a` at position `i`
(appending when `i` is past the end). -/
def spliceIn (i : Nat) (a : α) : List α → List α
  | [] => [a]
  | b :: l => match i with
    | 0 => a :: b :: l
    | j + 1 => b :: spliceIn j a l

/-- Update the first element satisfying `p` (models mutating the object found
by `Array.prototype.find`). -/
def updateFirst (p : α → Bool) (f : α → α) : List α → List α
  | [] => []
  | a :: l => if p a then f a :: l else a :: updateFirst p f l

/-- Index of the last occurrence of an element (models last-wins semantics of
`new Map(entries)` and of repeated `forEach` assignments). -/
def lastIdxOf [BEq α] (a : α) (l : List α) : Option Nat :=
  (idxFind (fun b => b == a) l.reverse).map (fun k => l.length - 1 - k)

/-- Map with the array index, starting at `n`. -/
def mapIdx2 (f : Nat → α → β) : Nat → List α → List β
  | _, [] => []
  | n, a :: l => f n a :: mapIdx2 f (n + 1) l

/-- Models `Math.max(lo, Math.min(hi, x))`. -/
def clampInt (x lo hi : Int) : Int :=
  max lo (min hi x)

/-! ### Domain records (`src/app/src/lib/domain.ts`) -/

/-- Models `Project` of `domain.ts`. -/
structure Project where
  id : String
  title : String
  description : String
  createdAt : String
  updatedAt : String
  deriving DecidableEq

/-- Models `List` of `domain.ts` (named `ListRec` because `List` is taken in Lean). -/
structure ListRec where
  id : String
  projectId : String
  title : String
  description : String
  order : Int
  createdAt : String
  updatedAt : String
  deriving DecidableEq

/-- Models `Item` of `domain.ts`; `listId = none` is the Loose container. -/
structure Item where
  id : String
  projectId : String
  listId : Option String
  label : String
  description : String
  order : Int
  createdAt : String
  updatedAt : String
  deriving DecidableEq

/-- Models `ProjectBoard` of `domain.ts` — the full document of one project. -/
structure Board where
  project : Project
  lists : List ListRec
  items : List Item
  deriving DecidableEq

/-! ### Dense ordering -/

/-- The integer list `[0, 1, ..., n-1]`. -/
def intsUpTo (n : Nat) : List Int :=
  (List.range n).map (fun k : Nat => (k : Int))

/-- A container's order values, read off in member order: sorted ascending they
must be exactly `0..n-1`, i.e. the list of orders is a permutation of
`[0, 1, ..., n-1]`. -/
def denseOrders (l : List Int) : Prop :=
  l.Perm (intsUpTo l.length)

instance (l : List Int) : Decidable (denseOrders l) :=
  inferInstanceAs (Decidable (l.Perm _))

/-- Order values of the items of one container. -/
def containerOrders (items : List Item) (lid : Option String) : List Int :=
  (items.filter (fun i => i.listId == lid)).map (·.order)

/-! ### Toolkit lemmas -/

theorem orderedInsertB_perm (le : α → α → Bool) (a : α) (l : List α) :
    (orderedInsertB le a l).Perm (a :: l) := by
  induction l with
  | nil => simp [orderedInsertB]
  | cons b t ih =>
    unfold orderedInsertB
    split
    · exact List.Perm.refl _
    · exact ((ih.cons b).trans (List.Perm.swap a b t)).symm.symm

theorem insertionSortB_perm (le : α → α → Bool) (l : List α) :
    (insertionSortB le l).Perm l := by
  induction l with
  | nil => simp [insertionSortB]
  | cons a t ih =>
    exact (orderedInsertB_perm le a _).trans (ih.cons a)

theorem enum2_map_snd (l : List α) : ∀ n, (enum2 n l).map Prod.snd = l := by
  induction l with
  | nil => intro n; rfl
  | cons a t ih => intro n; simp [enum2, ih]

theorem enum2_length (l : List α) : ∀ n, (enum2 n l).length = l.length := by
  induction l with
  | nil => intro n; rfl
  | cons a t ih => intro n; simp [enum2, ih]

theorem enum2_fst_ge (l : List α) :
    ∀ n, ∀ p ∈ enum2 n l, n ≤ p.1 := by
  induction l with
  | nil => intro n p hp; cases hp
  | cons a t ih =>
    intro n p hp
    simp only [enum2, List.mem_cons] at hp
    rcases hp with rfl | hp
    · simp
    · exact Nat.le_of_succ_le (ih (n + 1) p hp)

theorem enum2_fst_nodup (l : List α) :
    ∀ n, ((enum2 n l).map Prod.fst).Nodup := by
  induction l with
  | nil => intro n; simp [enum2]
  | cons a t ih =>
    intro n
    simp only [enum2, List.map_cons, List.nodup_cons]
    refine ⟨?_, ih (n + 1)⟩
    intro hmem
    rcases List.mem_map.1 hmem with ⟨p, hp, hfst⟩
    have := enum2_fst_ge t (n + 1) p hp
    omega

theorem idxFind_eq_some_self (s : List (Nat × α))
    (hnd : (s.map Prod.fst).Nodup) :
    ∀ (j : Nat) (hj : j < s.length),
      idxFind (fun q => q.1 == (s.get ⟨j, hj⟩).1) s = some j := by
  induction s with
  | nil => intro j hj; exact absurd hj (Nat.not_lt_zero j)
  | cons a t ih =>
    simp only [List.map_cons, List.nodup_cons] at hnd
    intro j hj
    match j with
    | 0 => simp [idxFind]
    | j + 1 =>
      have hj' : j < t.length := Nat.lt_of_succ_lt_succ hj
      have hget : ((a :: t).get ⟨j + 1, hj⟩) = t.get ⟨j, hj'⟩ := rfl
      have hne : (a.1 == (t.get ⟨j, hj'⟩).1) = false := by
        rw [beq_eq_false_iff_ne]
        intro he
        apply hnd.1
        rw [he]
        exact List.mem_map.2 ⟨_, List.get_mem _ _ _, rfl⟩
      rw [hget]
      simp only [idxFind, hne, Bool.false_eq_true, if_false]
      rw [ih hnd.2 j hj']
      rfl

theorem idxFind_isSome_of_mem (p : α → Bool) (l : List α) (a : α)
    (ha : a ∈ l) (hpa : p a = true) : (idxFind p l).isSome := by
  induction l with
  | nil => cases ha
  | cons b t ih =>
    unfold idxFind
    by_cases hb : p b = true
    · simp [hb]
    · have hat : a ∈ t := by
        rcases List.mem_cons.1 ha with rfl | h
        · exact absurd hpa hb
        · exact h
      rw [if_neg hb]
      cases h : idxFind p t with
      | none => have := ih hat; rw [h] at this; cases this
      | some k => simp

theorem filter_map_comm (f : α → β) (q : β → Bool) (l : List α) :
    (l.map f).filter q = (l.filter (fun a => q (f a))).map f := by
  induction l with
  | nil => rfl
  | cons a t ih =>
    simp only [List.map_cons, List.filter_cons]
    by_cases h : q (f a) = true
    · simp [h, ih]
    · simp only [h]
      simpa using ih

/-! ### Sortedness -/

theorem orderedInsertB_sorted (le : α → α → Bool)
    (htot : ∀ a b, le a b = true ∨ le b a = true)
    (htrans : ∀ a b c, le a b = true → le b c = true → le a c = true)
    (a : α) (l : List α) (hl : SortedB le l) :
    SortedB le (orderedInsertB le a l) := by
  induction l with
  | nil => simp [orderedInsertB, SortedB]
  | cons b t ih =>
    rcases List.pairwise_cons.1 hl with ⟨hb, ht⟩
    unfold orderedInsertB
    by_cases hab : le a b = true
    · rw [if_pos hab]
      refine List.pairwise_cons.2 ⟨?_, hl⟩
      intro x hx
      rcases List.mem_cons.1 hx with rfl | hx
      · exact hab
      · exact htrans a b x hab (hb x hx)
    · rw [if_neg hab]
      refine List.pairwise_cons.2 ⟨?_, ih ht⟩
      intro x hx
      have hx' : x ∈ a :: t := (orderedInsertB_perm le a t).mem_iff.1 hx
      rcases List.mem_cons.1 hx' with rfl | hx'
      · rcases htot x b with h | h
        · exact absurd h hab
        · exact h
      · exact hb x hx'

theorem insertionSortB_sorted (le : α → α → Bool)
    (htot : ∀ a b, le a b = true ∨ le b a = true)
    (htrans : ∀ a b c, le a b = true → le b c = true → le a c = true)
    (l : List α) : SortedB le (insertionSortB le l) := by
  induction l with
  | nil => simp [insertionSortB, SortedB]
  | cons a t ih =>
    exact orderedInsertB_sorted le htot htrans a _ ih

theorem orderedInsertB_of_le (le : α → α → Bool) (a b : α) (t : List α)
    (h : le a b = true) : orderedInsertB le a (b :: t) = a :: b :: t := by
  unfold orderedInsertB
  rw [if_pos h]

theorem insertionSortB_eq_self (le : α → α → Bool) (l : List α)
    (hl : SortedB le l) : insertionSortB le l = l := by
  induction l with
  | nil => rfl
  | cons a t ih =>
    rcases List.pairwise_cons.1 hl with ⟨ha, ht⟩
    unfold insertionSortB
    rw [ih ht]
    cases t with
    | nil => rfl
    | cons b t' => exact orderedInsertB_of_le le a b t' (ha b (List.mem_cons_self b t'))

/-- Two permuted lists that are both strictly sorted on an integer key are
equal. -/
theorem perm_strictSorted_unique (key : α → Int) (l₁ l₂ : List α)
    (hp : l₁.Perm l₂)
    (h₁ : List.Pairwise (fun a b => key a < key b) l₁)
    (h₂ : List.Pairwise (fun a b => key a < key b) l₂) : l₁ = l₂ := by
  have hanti : IsAntisymm α (fun a b => key a < key b) := by
    constructor
    intro a b hab hba
    exact absurd (lt_trans hab hba) (lt_irrefl _)
  exact @List.eq_of_perm_of_sorted α (fun a b => key a < key b) hanti l₁ l₂ hp h₁ h₂

/-! ### Fold-max lemmas (for `Math.max(-1, ...orders) + 1`) -/

theorem foldrMax_mem (b : Int) (l : List Int) :
    l.foldr max b = b ∨ l.foldr max b ∈ l := by
  induction l with
  | nil => left; rfl
  | cons a t ih =>
    simp only [List.foldr_cons]
    rcases le_total a (t.foldr max b) with h | h
    · rw [max_eq_right h]
      rcases ih with h' | h'
      · left; exact h'
      · right; exact List.mem_cons_of_mem a h'
    · rw [max_eq_left h]
      right; exact List.mem_cons_self a t

theorem le_foldrMax (b : Int) (l : List Int) :
    b ≤ l.foldr max b ∧ ∀ x ∈ l, x ≤ l.foldr max b := by
  induction l with
  | nil => exact ⟨le_refl b, by intro x hx; cases hx⟩
  | cons a t ih =>
    simp only [List.foldr_cons]
    constructor
    · exact le_trans ih.1 (le_max_right _ _)
    · intro x hx
      rcases List.mem_cons.1 hx with rfl | hx
      · exact le_max_left _ _
      · exact le_trans (ih.2 x hx) (le_max_right _ _)

theorem mem_intsUpTo (x : Int) (n : Nat) :
    x ∈ intsUpTo n ↔ 0 ≤ x ∧ x < (n : Int) := by
  unfold intsUpTo
  constructor
  · intro hx
    rcases List.mem_map.1 hx with ⟨k, hk, rfl⟩
    have := List.mem_range.1 hk
    constructor
    · exact Int.natCast_nonneg k
    · exact_mod_cast this
  · rintro ⟨h0, hn⟩
    refine List.mem_map.2 ⟨x.toNat, List.mem_range.2 (by omega), by omega⟩

theorem intsUpTo_succ (n : Nat) :
    intsUpTo (n + 1) = intsUpTo n ++ [(n : Int)] := by
  unfold intsUpTo
  rw [List.range_succ, List.map_append]
  rfl

theorem length_intsUpTo (n : Nat) : (intsUpTo n).length = n := by
  unfold intsUpTo
  simp

theorem denseOrders_foldrMax (l : List Int) (h : denseOrders l) :
    l.foldr max (-1) = (l.length : Int) - 1 := by
  have hperm : l.Perm (intsUpTo l.length) := h
  have hiff : ∀ x, x ∈ l ↔ (0 ≤ x ∧ x < (l.length : Int)) := by
    intro x
    rw [hperm.mem_iff]
    exact mem_intsUpTo x l.length
  rcases Nat.eq_zero_or_pos l.length with h0 | hpos
  · have hl : l = [] := List.length_eq_zero.1 h0
    subst hl; simp
  · have hin : ((l.length : Int) - 1) ∈ l := (hiff _).2 (by omega)
    rcases foldrMax_mem (-1) l with hf | hf
    · have := (le_foldrMax (-1) l).2 _ hin
      rw [hf] at this
      omega
    · have h1 := ((hiff _).1 hf).2
      have h2 := (le_foldrMax (-1) l).2 _ hin
      omega

theorem denseOrders_nil : denseOrders [] := by
  simp [denseOrders, intsUpTo]

theorem denseOrders_append (l : List Int) (h : denseOrders l) :
    denseOrders (l ++ [(l.length : Int)]) := by
  have h' : l.Perm (intsUpTo l.length) := h
  have hlen : (l ++ [(l.length : Int)]).length = l.length + 1 := by simp
  unfold denseOrders
  rw [hlen, intsUpTo_succ]
  exact h'.append (List.Perm.refl _)

/-! ### Splice lemmas -/

theorem spliceIn_perm (i : Nat) (a : α) (l : List α) :
    (spliceIn i a l).Perm (a :: l) := by
  induction l generalizing i with
  | nil => simp [spliceIn]
  | cons b t ih =>
    cases i with
    | zero => simp [spliceIn]
    | succ j =>
      unfold spliceIn
      exact ((ih j).cons b).trans (List.Perm.swap a b t)

theorem idxFind_spliceIn_self (l : List (Nat × α)) (p0 : Nat) (x : α) :
    ∀ i, i ≤ l.length → (∀ q ∈ l, q.1 ≠ p0) →
      idxFind (fun q => q.1 == p0) (spliceIn i (p0, x) l) = some i := by
  induction l with
  | nil =>
    intro i hi _
    have : i = 0 := Nat.le_zero.1 hi
    subst this
    simp [spliceIn, idxFind]
  | cons b t ih =>
    intro i hi hfresh
    cases i with
    | zero => simp [spliceIn, idxFind]
    | succ j =>
      have hb : (b.1 == p0) = false := by
        rw [beq_eq_false_iff_ne]
        exact hfresh b (List.mem_cons_self b t)
      unfold spliceIn
      simp only [idxFind, hb, Bool.false_eq_true, if_false]
      rw [ih j (Nat.lt_succ_iff.1 (Nat.succ_le_iff.1 hi))
        (fun q hq => hfresh q (List.mem_cons_of_mem b hq))]
      rfl

/-! ### updateFirst lemmas -/

theorem updateFirst_map_eq (p : α → Bool) (f : α → α) (g : α → β)
    (hg : ∀ a, g (f a) = g a) (l : List α) :
    (updateFirst p f l).map g = l.map g := by
  induction l with
  | nil => rfl
  | cons a t ih =>
    unfold updateFirst
    by_cases h : p a = true
    · rw [if_pos h]
      simp [hg a]
    · rw [if_neg h]
      simp [ih]

theorem updateFirst_length (p : α → Bool) (f : α → α) (l : List α) :
    (updateFirst p f l).length = l.length := by
  induction l with
  | nil => rfl
  | cons a t ih =>
    unfold updateFirst
    by_cases h : p a = true
    · rw [if_pos h]; rfl
    · rw [if_neg h]; simpa using ih

/-! ### Positional renumbering yields positions `0..n-1` -/

theorem map_idxFind_eq_range (s : List (Nat × α))
    (hnd : (s.map Prod.fst).Nodup) :
    s.map (fun q => (idxFind (fun r => r.1 == q.1) s).getD 0) =
      List.range s.length := by
  apply List.ext_get (by simp)
  intro j h1 h2
  simp only [List.get_eq_getElem, List.getElem_map, List.getElem_range]
  have hj : j < s.length := by simpa using h1
  have := idxFind_eq_some_self s hnd j hj
  simp only [List.get_eq_getElem] at this
  rw [this]
  rfl

/-! ### Store operations (`JsonDb` of db.ts)

Each operation takes the freshly generated UUIDs and the ISO timestamp of the
call as explicit parameters (`crypto.randomUUID()` and `new Date()` are the
only sources of nondeterminism).  The closures run under `mutateProject`, which
loads the document stored at `input.projectId`; a stored document's
`project.id` always equals its file name, so the closures' `input.projectId`
is rendered as `d.project.id`. -/

/-- The `(a, b) => a.order - b.order` comparator on lists. -/
def listLe (a b : ListRec) : Bool :=
  decide (a.order ≤ b.order)

/-- The `(a, b) => a.order - b.order` comparator on enumerated items. -/
def itemOrderLe (p q : Nat × Item) : Bool :=
  decide (p.2.order ≤ q.2.order)

/-- Models `normalizeListOrders`: JS sorts `data.lists` in place by order and then
assigns each list its index, so the array ends up sorted and densely
renumbered. -/
def normalizeListOrders (lists : List ListRec) : List ListRec :=
  mapIdx2 (fun idx l => { l with order := (idx : Int) }) 0
    (insertionSortB listLe lists)

/-- Models `normalizeItemOrders`: `data.items.filter(i => i.listId === listId)` makes
a copy holding aliases, `.sort` orders the copy, and `.forEach` writes each
member's index back through the alias.  Rendered positionally: a member at
array index `i` receives the position of `i` in the sorted member-index
list. -/
def assignIdxOrders (upd : Nat → Item → Item)
    (sorted es : List (Nat × Item)) : List Item :=
  es.map (fun p =>
    match idxFind (fun q => q.1 == p.1) sorted with
    | some k => upd k p.2
    | none => p.2)

def normalizeItemOrders (items : List Item) (lid : Option String) : List Item :=
  assignIdxOrders (fun k it => { it with order := (k : Int) })
    (insertionSortB itemOrderLe
      ((enum2 0 items).filter (fun p => p.2.listId == lid)))
    (enum2 0 items)

/-- Models `createProject`: validates the trimmed title and writes a fresh document
with no lists and no items. -/
def createProjectBoard (pid title description now : String) :
    Except String Board :=
  if jsTrim title = "" then .error "Project title is required"
  else
    let proj : Project :=
      { id := pid, title := jsTrim title, description := jsTrim description,
        createdAt := now, updatedAt := now }
    .ok { project := proj, lists := [], items := [] }

/-- Models `updateProject`: trims present patch fields, rejects an empty title, then
assigns the patch and stamps `updatedAt`. -/
def updateProject (d : Board) (ptitle pdescription : Option String)
    (now : String) : Except String (Board × Project) :=
  let tt := ptitle.map jsTrim
  let td := pdescription.map jsTrim
  if tt = some "" then .error "Project title is required"
  else
    let proj : Project :=
      { d.project with
          title := tt.getD d.project.title,
          description := td.getD d.project.description,
          updatedAt := now }
    .ok ({ project := proj, lists := d.lists, items := d.items }, proj)

/-- Models `createList`: validates the trimmed title, appends a list with
`order = Math.max(-1, ...orders) + 1`. -/
def createList (d : Board) (title description newId now : String) :
    Except String (Board × ListRec) :=
  if jsTrim title = "" then .error "List title is required"
  else
    let order := ((d.lists.map (·.order)).foldr max (-1)) + 1
    let list : ListRec :=
      { id := newId, projectId := d.project.id, title := jsTrim title,
        description := jsTrim description, order := order, createdAt := now,
        updatedAt := now }
    .ok
      ({ project := { d.project with updatedAt := now },
         lists := d.lists ++ [list], items := d.items }, list)

/-- Models `updateList`: finds the list by id, trims present patch fields, rejects an
empty title, assigns the patch and stamps timestamps. -/
def updateList (d : Board) (listId : String) (ptitle pdescription : Option String)
    (now : String) : Except String (Board × ListRec) :=
  match d.lists.find? (fun l => l.id == listId) with
  | none => .error "List not found"
  | some l =>
    let tt := ptitle.map jsTrim
    let td := pdescription.map jsTrim
    if tt = some "" then .error "List title is required"
    else
      let upd := fun (x : ListRec) =>
        { x with
            title := tt.getD x.title,
            description := td.getD x.description,
            updatedAt := now }
      .ok
        ({ project := { d.project with updatedAt := now },
           lists := updateFirst (fun x => x.id == listId) upd d.lists,
           items := d.items }, upd l)

/-- Models `deleteList`: moves the list's items to Loose, removes the list, then
normalizes the list container and the Loose container. -/
def deleteList (d : Board) (listId : String) (now : String) :
    Except String Board :=
  match d.lists.find? (fun l => l.id == listId) with
  | none => .error "List not found"
  | some _ =>
    let items1 := d.items.map (fun it =>
      if it.listId == some listId then { it with listId := none, updatedAt := now }
      else it)
    let lists1 := d.lists.filter (fun l => !(l.id == listId))
    .ok
      { project := { d.project with updatedAt := now },
        lists := normalizeListOrders lists1,
        items := normalizeItemOrders items1 none }

/-- Candidate titles tried by `duplicateList`: first `base (copy)`, then
`base (copy 2)`, `base (copy 3)`, ... -/
def copyCandidate (base : String) (k : Nat) : String :=
  if k = 0 then base ++ " (copy)" else base ++ " (copy " ++ natStr (k + 1) ++ ")"

def pickCopyTitleAux (base : String) (titles : List String) :
    Nat → Nat → String
  | 0, k => copyCandidate base k
  | fuel + 1, k =>
    let c := copyCandidate base k
    if titles.contains c.toLower then pickCopyTitleAux base titles fuel (k + 1)
    else c

/-- The `while (existingTitles.has(...))` search of `duplicateList`; the
candidates are pairwise distinct, so the loop always terminates within
`titles.length + 1` probes and the fuelled search is exact. -/
def pickCopyTitle (base : String) (titles : List String) : String :=
  pickCopyTitleAux base titles (titles.length + 1) 0

/-- Models `duplicateList`: appends a clone of the list at the end of the list order
and clones every item of the source list (in source order, with fresh ids and
timestamps), then normalizes the new list's container. -/
def duplicateList (d : Board) (listId newListId : String)
    (genItemId : Nat → String) (now : String) :
    Except String (Board × ListRec × Nat) :=
  match d.lists.find? (fun l => l.id == listId) with
  | none => .error "List not found"
  | some src =>
    let existingTitles := d.lists.map (fun l => (jsTrim l.title).toLower)
    let base := jsTrim (if src.title = "" then "Untitled list" else src.title)
    let title := pickCopyTitle base existingTitles
    let order := ((d.lists.map (·.order)).foldr max (-1)) + 1
    let list : ListRec :=
      { id := newListId, projectId := d.project.id, title := title,
        description := src.description, order := order, createdAt := now,
        updatedAt := now }
    let srcItems := insertionSortB (fun a b => decide (a.order ≤ b.order))
      (d.items.filter (fun it => it.listId == some src.id))
    let copies := mapIdx2 (fun k it =>
      ({ id := genItemId k, projectId := d.project.id, listId := some newListId,
         label := it.label, description := it.description, order := it.order,
         createdAt := now, updatedAt := now } : Item)) 0 srcItems
    .ok
      ({ project := { d.project with updatedAt := now },
         lists := d.lists ++ [list],
         items := normalizeItemOrders (d.items ++ copies) (some newListId) },
       list, srcItems.length)

/-- Models `reorderLists`: `new Map(lists.map(l => [l.id, l]))` keeps the last list
for a duplicated id; `forEach` over the input assigns each named id's
representative the (last) input index as order; then the whole set is
normalized and a sorted copy is returned. -/
def reorderEntry (lists : List ListRec) (ids : List String) (now : String)
    (p : Nat × ListRec) : ListRec :=
  match lastIdxOf p.2.id (lists.map (·.id)), lastIdxOf p.2.id ids with
  | some q, some k =>
    if q = p.1 then { p.2 with order := (k : Int), updatedAt := now } else p.2
  | _, _ => p.2

def reorderLists (d : Board) (ids : List String) (now : String) :
    Board × List ListRec :=
  let assigned := (enum2 0 d.lists).map (reorderEntry d.lists ids now)
  let lists2 := normalizeListOrders assigned
  ({ project := { d.project with updatedAt := now }, lists := lists2,
     items := d.items },
   insertionSortB listLe lists2)

/-- Models `createItem`: validates the trimmed label; a truthy (non-null, non-empty)
`listId` must name an existing list; appends an item with the container's
`max(-1, ...orders) + 1`. -/
def createItem (d : Board) (listId : Option String)
    (label description newId now : String) : Except String (Board × Item) :=
  if jsTrim label = "" then .error "Item label is required"
  else
    let listCheck : Except String Unit :=
      match listId with
      | some s =>
        if s = "" then .ok ()
        else match d.lists.find? (fun l => l.id == s) with
          | none => .error "List not found"
          | some _ => .ok ()
      | none => .ok ()
    match listCheck with
    | .error e => .error e
    | .ok _ =>
      let order :=
        (((d.items.filter (fun i => i.listId == listId)).map (·.order)).foldr
          max (-1)) + 1
      let item : Item :=
        { id := newId, projectId := d.project.id, listId := listId,
          label := jsTrim label, description := jsTrim description,
          order := order, createdAt := now, updatedAt := now }
      .ok
        ({ project := { d.project with updatedAt := now }, lists := d.lists,
           items := d.items ++ [item] }, item)

/-- Models `updateItem`: finds the item by id, trims present patch fields, rejects an
empty label, assigns the patch and stamps timestamps. -/
def updateItem (d : Board) (itemId : String) (plabel pdescription : Option String)
    (now : String) : Except String (Board × Item) :=
  match d.items.find? (fun i => i.id == itemId) with
  | none => .error "Item not found"
  | some it =>
    let tl := plabel.map jsTrim
    let td := pdescription.map jsTrim
    if tl = some "" then .error "Item label is required"
    else
      let upd := fun (x : Item) =>
        { x with
            label := tl.getD x.label,
            description := td.getD x.description,
            updatedAt := now }
      .ok
        ({ project := { d.project with updatedAt := now }, lists := d.lists,
           items := updateFirst (fun x => x.id == itemId) upd d.items }, upd it)

/-- Models `deleteItem`: removes the item and normalizes only its former container. -/
def deleteItem (d : Board) (itemId : String) (now : String) :
    Except String Board :=
  match d.items.find? (fun i => i.id == itemId) with
  | none => .error "Item not found"
  | some item =>
    let items1 := d.items.filter (fun i => !(i.id == itemId))
    .ok
      { project := { d.project with updatedAt := now }, lists := d.lists,
        items := normalizeItemOrders items1 item.listId }

/-- Models `Number.MAX_SAFE_INTEGER`, the sentinel order used by `moveItem`. -/
def sentinelOrder : Int := 9007199254740991

/-- Models `moveItem`: re-homes the item to the destination with a sentinel order,
collects the destination members (excluding the moved item, restricted to the
document's project id), sorts them, splices the item in at the clamped index,
renumbers the destination positionally, and finally normalizes the source
container when it differs. -/
def moveItem (d : Board) (projectId itemId : String) (toListId : Option String)
    (toIndex : Int) (now : String) : Except String (Board × Item) :=
  match d.items.find? (fun i => i.id == itemId) with
  | none => .error "Item not found"
  | some item =>
    let listCheck : Except String Unit :=
      match toListId with
      | some s =>
        if s = "" then .ok ()
        else match d.lists.find? (fun l => l.id == s) with
          | none => .error "List not found"
          | some _ => .ok ()
      | none => .ok ()
    match listCheck with
    | .error e => .error e
    | .ok _ =>
      let fromListId := item.listId
      let item1 : Item :=
        { item with
            listId := toListId,
            order := sentinelOrder,
            updatedAt := now }
      let items1 := updateFirst (fun i => i.id == itemId) (fun _ => item1) d.items
      let p0 := (idxFind (fun i => i.id == itemId) d.items).getD 0
      let destPairs := insertionSortB itemOrderLe
        ((enum2 0 items1).filter (fun p =>
          p.2.projectId == projectId && p.2.listId == toListId &&
            !(p.2.id == item.id)))
      let insertAt := (clampInt toIndex 0 (destPairs.length : Int)).toNat
      let spliced := spliceIn insertAt (p0, item1) destPairs
      let items2 := assignIdxOrders
        (fun k it => { it with order := (k : Int), updatedAt := now })
        spliced (enum2 0 items1)
      let items3 :=
        if fromListId ≠ toListId then normalizeItemOrders items2 fromListId
        else items2
      .ok
        ({ project := { d.project with updatedAt := now }, lists := d.lists,
           items := items3 }, { item1 with order := (insertAt : Int) })

/-! ### Document codec: `coerceProjectFile`

The untyped JSON input of `coerceProjectFile` is modelled by records of
optional fields: `none` stands for a missing / `null` / non-coercible value
(for `order`, also for a non-finite number, since
`Number.isFinite(Number(x))` gates the value).  Minted UUIDs come from the
explicit parameters `genP` (project id) and `genL`/`genI` (per-index list and
item ids). -/

/-- The JS `a ?? b` null-coalescing operator on optionals. -/
def orO (a b : Option α) : Option α :=
  match a with
  | some x => some x
  | none => b

structure RawProject where
  id : Option String
  title : Option String
  description : Option String
  createdAt : Option String
  updatedAt : Option String
  deriving DecidableEq

structure RawList where
  id : Option String
  title : Option String
  description : Option String
  order : Option Int
  createdAt : Option String
  updatedAt : Option String
  deriving DecidableEq

structure RawItem where
  id : Option String
  listId : Option String
  label : Option String
  description : Option String
  order : Option Int
  createdAt : Option String
  updatedAt : Option String
  deriving DecidableEq

structure RawBoard where
  project : Option RawProject
  lists : Option (List RawList)
  items : Option (List RawItem)
  deriving DecidableEq

/-- The item comparator of `coerceProjectFile`: group key `listId ?? ""`
(string comparison), then `order`, then `updatedAt`. -/
def itemCoerceLe (a b : Item) : Bool :=
  let ak := a.listId.getD ""
  let bk := b.listId.getD ""
  if ak ≠ bk then decide (ak < bk)
  else if a.order ≠ b.order then decide (a.order < b.order)
  else decide (a.updatedAt ≤ b.updatedAt)

/-- One list record of `coerceProjectFile` (at array index `idx`). -/
def coerceListAt (projectId now : String) (genL : Nat → String)
    (idx : Nat) (l : RawList) : ListRec :=
  let t := jsTrim (l.title.getD "")
  { id := l.id.getD (genL idx),
    projectId := projectId,
    title := if t = "" then "List " ++ natStr (idx + 1) else t,
    description := l.description.getD "",
    order := l.order.getD (idx : Int),
    createdAt := l.createdAt.getD now,
    updatedAt := (orO l.updatedAt l.createdAt).getD now }

/-- One item record of `coerceProjectFile` (at array index `idx`). -/
def coerceItemAt (projectId now : String) (genI : Nat → String)
    (idx : Nat) (it : RawItem) : Item :=
  let t := jsTrim (it.label.getD "")
  { id := it.id.getD (genI idx),
    projectId := projectId,
    listId := it.listId,
    label := if t = "" then "Item " ++ natStr (idx + 1) else t,
    description := it.description.getD "",
    order := it.order.getD (idx : Int),
    createdAt := it.createdAt.getD now,
    updatedAt := (orO it.updatedAt it.createdAt).getD now }

/-- The referential fix of `coerceProjectFile`: a truthy (non-null, non-empty)
`listId` that names no known list is forced to `null`. -/
def refFixItem (listIds : List String) (it : Item) : Item :=
  match it.listId with
  | some s =>
    if s ≠ "" ∧ ¬ (s ∈ listIds) then { it with listId := none } else it
  | none => it

/-- The project record of `coerceProjectFile`. -/
def coerceProjectRec (input : RawBoard) (projectId now : String) : Project :=
  let ptitle := jsTrim ((input.project.bind (·.title)).getD "")
  { id := projectId,
    title := if ptitle = "" then "Untitled project" else ptitle,
    description := (input.project.bind (·.description)).getD "",
    createdAt := (input.project.bind (·.createdAt)).getD now,
    updatedAt := (orO (input.project.bind (·.updatedAt))
      (input.project.bind (·.createdAt))).getD now }

/-- Models `JsonDb.coerceProjectFile`. -/
def coerceProjectFile (input : RawBoard) (hint : Option String) (now : String)
    (genP : String) (genL genI : Nat → String) : Board :=
  let projectId := (orO (input.project.bind (·.id)) hint).getD genP
  let normalizedLists :=
    mapIdx2 (coerceListAt projectId now genL) 0 (input.lists.getD [])
  let normalizedItems :=
    mapIdx2 (coerceItemAt projectId now genI) 0 (input.items.getD [])
  let listIds := normalizedLists.map (·.id)
  { project := coerceProjectRec input projectId now,
    lists := insertionSortB listLe normalizedLists,
    items := insertionSortB itemCoerceLe
      (normalizedItems.map (refFixItem listIds)) }

/-- Serialize-then-reparse of a canonical document: every field is present. -/
def projectToRaw (p : Project) : RawProject :=
  { id := some p.id, title := some p.title, description := some p.description,
    createdAt := some p.createdAt, updatedAt := some p.updatedAt }

def listToRaw (l : ListRec) : RawList :=
  { id := some l.id, title := some l.title, description := some l.description,
    order := some l.order, createdAt := some l.createdAt,
    updatedAt := some l.updatedAt }

def itemToRaw (it : Item) : RawItem :=
  { id := some it.id, listId := it.listId, label := some it.label,
    description := some it.description, order := some it.order,
    createdAt := some it.createdAt, updatedAt := some it.updatedAt }

def boardToRaw (b : Board) : RawBoard :=
  { project := some (projectToRaw b.project),
    lists := some (b.lists.map listToRaw),
    items := some (b.items.map itemToRaw) }

/-! ### The mutation queue (`writeQueue` + `mutateProject`) -/

/-- Server state for one project: the stored document (`none` = no file) and
the settled state of the promise held in `writeQueue` — `none` when
fulfilled, `some e` when rejected with reason `e`. -/
structure ServerState where
  disk : Option Board
  queueErr : Option String
  deriving DecidableEq

/-- Models `JsonDb.mutateProject`: `this.writeQueue = this.writeQueue.then(closure)`
followed by `await this.writeQueue`.  Promise semantics: `.then(onFulfilled)`
on a rejected promise does not run `onFulfilled` and yields a promise rejected
with the same reason.  When the closure does run it loads the document (throws
NotFound when absent), applies the mutation function, and writes the result
back only on success. -/
def mutateProject (s : ServerState) (fn : Board → Except String Board) :
    ServerState × Except String Unit :=
  match s.queueErr with
  | some e => (s, .error e)
  | none =>
    match s.disk with
    | none =>
      ({ disk := s.disk, queueErr := some "Project not found" },
       .error "Project not found")
    | some d =>
      match fn d with
      | .error e => ({ disk := s.disk, queueErr := some e }, .error e)
      | .ok d2 => ({ disk := some d2, queueErr := none }, .ok ())

/-! ### The projects directory (for `importProjectJsonText`) -/

/-- The `data/projects` directory: one document file per project id. -/
abbrev Files := List (String × Board)

/-- Models `readProjectFile`-style existence lookup by project id. -/
def lookupFile : Files → String → Option Board
  | [], _ => none
  | (k, b) :: t, pid => if k = pid then some b else lookupFile t pid

/-- Models `writeProjectFile`: create or overwrite the file named by the id. -/
def insertFile (fs : Files) (pid : String) (b : Board) : Files :=
  if (lookupFile fs pid).isSome then
    fs.map (fun kv => if kv.1 = pid then (pid, b) else kv)
  else fs ++ [(pid, b)]

/-- Rewrite the project id into the project record and the `projectId` of
every list and item (the collision branch of `importOne`). -/
def retargetBoard (b : Board) (pid : String) : Board :=
  { project := { b.project with id := pid },
    lists := b.lists.map (fun l => { l with projectId := pid }),
    items := b.items.map (fun it => { it with projectId := pid }) }

/-- Models `importOne` of `importProjectJsonText` for a single-project payload:
coerce to canonical shape; if a file with the coerced project id already
exists, mint a fresh id (`freshId`, from `crypto.randomUUID()`) and retarget
the document; persist; return the id imported under. -/
def importOne (fs : Files) (raw : RawBoard) (now : String)
    (genP : String) (genL genI : Nat → String) (freshId : String) :
    Files × String :=
  let coerced := coerceProjectFile raw none now genP genL genI
  match lookupFile fs coerced.project.id with
  | some _ =>
    (insertFile fs freshId (retargetBoard coerced freshId), freshId)
  | none => (insertFile fs coerced.project.id coerced, coerced.project.id)

/-! ### Persistence micro-model (for atomicity of writes) -/

/-- Models `writeProjectFile` persists with a single `fs.writeFile` call: the file is
opened with the `w` flag (truncate) and the bytes are then written.  A reader
interleaved with the write can observe the old content, the truncated empty
file, or a proper prefix of the new content. -/
def writeProjectFileStates (oldC newC : String) : List String :=
  [oldC, ""] ++ (List.range (newC.length + 1)).map
    (fun k => String.mk (newC.data.take k))

/-- File states observable under the atomic write-then-rename replace that the
specification stipulates: only complete old or complete new content. -/
def atomicReplaceStates (oldC newC : String) : List String :=
  [oldC, newC]

/-! ### Shared concrete documents for witnesses -/

def sampleProject : Project :=
  { id := "P", title := "P", description := "", createdAt := "t0",
    updatedAt := "t0" }

def sampleList (i : String) (o : Int) : ListRec :=
  { id := i, projectId := "P", title := i, description := "", order := o,
    createdAt := "t0", updatedAt := "t0" }

def sampleItem (i : String) (lid : Option String) (o : Int) : Item :=
  { id := i, projectId := "P", listId := lid, label := i, description := "",
    order := o, createdAt := "t0", updatedAt := "t0" }

/-- Project `P` with lists `Doing` (order 0) and `Done` (order 1), items
`A` (order 0) and `B` (order 1) in `Doing`. -/
def sampleBoard : Board :=
  { project := sampleProject,
    lists := [sampleList "Doing" 0, sampleList "Done" 1],
    items := [sampleItem "A" (some "Doing") 0, sampleItem "B" (some "Doing") 1] }

/-- The closure body enqueued by an `updateItem` call whose patch has a
whitespace-only label: it throws the validation error. -/
def failingUpdateClosure (b : Board) : Except String Board :=
  (updateItem b "A" (some " ") none "t1").map (·.1)

/-- The closure body enqueued by a subsequent valid `createItem` call. -/
def okCreateClosure (b : Board) : Except String Board :=
  (createItem b none "New item" "" "C" "t2").map (·.1)

/-! ### Claim C2 -/

/-- C2 (queue release on error) fails on the code: `mutateProject` chains with
`writeQueue.then(closure)`, so after `failingUpdateClosure` rejects the queue
promise, the next enqueued closure (`okCreateClosure`, which would succeed on
the stored document) never runs its load-modify-write cycle: the disk still
holds the original document and the second caller receives the first
mutation's error. -/
theorem C2_queue_poisoned_after_error :
    (mutateProject { disk := some sampleBoard, queueErr := none }
        failingUpdateClosure).2 = .error "Item label is required" ∧
    (okCreateClosure sampleBoard).isOk = true ∧
    (mutateProject (mutateProject { disk := some sampleBoard, queueErr := none }
        failingUpdateClosure).1 okCreateClosure).1.disk = some sampleBoard ∧
    (mutateProject (mutateProject { disk := some sampleBoard, queueErr := none }
        failingUpdateClosure).1 okCreateClosure).2 =
      .error "Item label is required" := by
  refine ⟨rfl, rfl, rfl, rfl⟩

/-! ### Claim C3 -/

/-- C3 (atomicity on error): when the mutation function passed to
`mutateProject` throws, `writeProjectFile` is never reached, so the stored
document is exactly what it was before the operation began (this also covers
the case of a queue already rejected, where the closure is skipped
entirely). -/
theorem C3_error_leaves_disk_unchanged (s : ServerState) (d : Board)
    (fn : Board → Except String Board) (e : String)
    (hdisk : s.disk = some d) (hfn : fn d = .error e) :
    (mutateProject s fn).1.disk = some d := by
  cases hq : s.queueErr with
  | some e2 => simp [mutateProject, hq, hdisk]
  | none => simp [mutateProject, hq, hdisk, hfn]

theorem C3_witness :
    (mutateProject { disk := some sampleBoard, queueErr := none }
      failingUpdateClosure).1.disk = some sampleBoard :=
  C3_error_leaves_disk_unchanged _ sampleBoard failingUpdateClosure
    "Item label is required" rfl rfl

/-! ### Claim C8 -/

/-- C8 (atomic persistence) fails on the code: `writeProjectFile` performs a
plain `writeFile` (truncate then write), so a reader interleaved with the
write can observe the truncated empty file, which is neither the complete old
bytes nor the complete new bytes; the write-then-rename replace required by
the spec would only expose the two complete contents. -/
theorem C8_plain_write_not_atomic :
    "" ∈ writeProjectFileStates "OLD" "NEW" ∧ "" ≠ "OLD" ∧ "" ≠ "NEW" ∧
    ∀ s ∈ atomicReplaceStates "OLD" "NEW", s = "OLD" ∨ s = "NEW" := by
  refine ⟨by decide, by decide, by decide, by decide⟩

/-! ### Claim C7 -/

theorem lookupFile_cons (k : String) (v : Board) (t : Files) (pid : String) :
    lookupFile ((k, v) :: t) pid = if k = pid then some v else lookupFile t pid :=
  rfl

theorem lookupFile_overwrite (fs : Files) (pid : String) (b : Board) :
    (lookupFile fs pid).isSome →
    lookupFile (fs.map (fun kv => if kv.1 = pid then (pid, b) else kv)) pid =
      some b := by
  induction fs with
  | nil => intro h; simp [lookupFile] at h
  | cons kv t ih =>
    intro h
    obtain ⟨k, v⟩ := kv
    by_cases hk : k = pid
    · subst hk
      rw [List.map_cons]
      have hkv : (if (k, v).1 = k then (k, b) else (k, v)) = (k, b) := by simp
      rw [hkv, lookupFile_cons, if_pos rfl]
    · rw [List.map_cons]
      have hkv : (if (k, v).1 = pid then (pid, b) else (k, v)) = (k, v) := by
        simp [hk]
      rw [hkv, lookupFile_cons, if_neg hk]
      apply ih
      rw [lookupFile_cons, if_neg hk] at h
      exact h

theorem lookupFile_overwrite_other (fs : Files) (pid : String) (b : Board)
    (pid' : String) (hne : pid' ≠ pid) :
    lookupFile (fs.map (fun kv => if kv.1 = pid then (pid, b) else kv)) pid' =
      lookupFile fs pid' := by
  induction fs with
  | nil => rfl
  | cons kv t ih =>
    obtain ⟨k, v⟩ := kv
    by_cases hk : k = pid
    · subst hk
      rw [List.map_cons]
      have hkv : (if (k, v).1 = k then (k, b) else (k, v)) = (k, b) := by simp
      rw [hkv, lookupFile_cons, lookupFile_cons,
        if_neg (fun he => hne he.symm), if_neg (fun he => hne he.symm)]
      exact ih
    · rw [List.map_cons]
      have hkv : (if (k, v).1 = pid then (pid, b) else (k, v)) = (k, v) := by
        simp [hk]
      rw [hkv, lookupFile_cons, lookupFile_cons]
      by_cases hk' : k = pid'
      · rw [if_pos hk', if_pos hk']
      · rw [if_neg hk', if_neg hk']
        exact ih

theorem lookupFile_append_single (fs : Files) (pid : String) (b : Board)
    (pid' : String) :
    lookupFile (fs ++ [(pid, b)]) pid' =
      match lookupFile fs pid' with
      | some x => some x
      | none => if pid = pid' then some b else none := by
  induction fs with
  | nil => rfl
  | cons kv t ih =>
    obtain ⟨k, v⟩ := kv
    by_cases hk : k = pid'
    · simp [lookupFile_cons, hk]
    · rw [List.cons_append, lookupFile_cons, if_neg hk, ih,
        lookupFile_cons, if_neg hk]

theorem lookupFile_insertFile_self (fs : Files) (pid : String) (b : Board) :
    lookupFile (insertFile fs pid b) pid = some b := by
  unfold insertFile
  by_cases h : (lookupFile fs pid).isSome
  · rw [if_pos h]
    exact lookupFile_overwrite fs pid b h
  · rw [if_neg h, lookupFile_append_single]
    have hnone : lookupFile fs pid = none := Option.not_isSome_iff_eq_none.1 h
    rw [hnone]
    simp

theorem lookupFile_insertFile_other (fs : Files) (pid : String) (b : Board)
    (pid' : String) (hne : pid' ≠ pid) :
    lookupFile (insertFile fs pid b) pid' = lookupFile fs pid' := by
  unfold insertFile
  by_cases h : (lookupFile fs pid).isSome
  · rw [if_pos h]
    exact lookupFile_overwrite_other fs pid b pid' hne
  · rw [if_neg h, lookupFile_append_single]
    cases hl : lookupFile fs pid' with
    | some x => rfl
    | none =>
      simp only []
      rw [if_neg (fun he => hne he.symm)]

/-- C7 (no-overwrite import): when the coerced payload's project id collides
with a stored file and the minted UUID is fresh, `importOne` persists the
retargeted document under the fresh id, stamps the fresh id into the project
record and into the `projectId` of every list and item, and leaves the
colliding project's stored document untouched. -/
theorem C7_import_never_overwrites (fs : Files) (raw : RawBoard)
    (now genP : String) (genL genI : Nat → String) (freshId : String)
    (b0 : Board)
    (hcollide : lookupFile fs
      (coerceProjectFile raw none now genP genL genI).project.id = some b0)
    (hfresh : lookupFile fs freshId = none) :
    (importOne fs raw now genP genL genI freshId).2 = freshId ∧
    lookupFile (importOne fs raw now genP genL genI freshId).1
      (coerceProjectFile raw none now genP genL genI).project.id = some b0 ∧
    lookupFile (importOne fs raw now genP genL genI freshId).1 freshId =
      some (retargetBoard (coerceProjectFile raw none now genP genL genI)
        freshId) ∧
    (retargetBoard (coerceProjectFile raw none now genP genL genI)
      freshId).project.id = freshId ∧
    (∀ l ∈ (retargetBoard (coerceProjectFile raw none now genP genL genI)
      freshId).lists, l.projectId = freshId) ∧
    (∀ it ∈ (retargetBoard (coerceProjectFile raw none now genP genL genI)
      freshId).items, it.projectId = freshId) := by
  have hne : (coerceProjectFile raw none now genP genL genI).project.id ≠
      freshId := by
    intro he
    rw [he, hfresh] at hcollide
    cases hcollide
  have himp : importOne fs raw now genP genL genI freshId =
      (insertFile fs freshId (retargetBoard
        (coerceProjectFile raw none now genP genL genI) freshId), freshId) := by
    simp only [importOne]
    rw [hcollide]
  rw [himp]
  refine ⟨rfl, ?_, ?_, rfl, ?_, ?_⟩
  · rw [lookupFile_insertFile_other _ _ _ _ hne]
    exact hcollide
  · exact lookupFile_insertFile_self _ _ _
  · intro l hl
    unfold retargetBoard at hl
    rcases List.mem_map.1 hl with ⟨l0, _, rfl⟩
    rfl
  · intro it hit
    unfold retargetBoard at hit
    rcases List.mem_map.1 hit with ⟨it0, _, rfl⟩
    rfl

def importFs0 : Files := [("P", sampleBoard)]

def rawCollideProject : RawProject :=
  { id := some "P", title := some "T", description := some "",
    createdAt := some "t0", updatedAt := some "t0" }

/-- A single-project import payload whose project id collides with the stored
project `P`. -/
def rawCollide : RawBoard :=
  { project := some rawCollideProject, lists := some [], items := some [] }

theorem C7_witness :
    (importOne importFs0 rawCollide "tn" "g" (fun _ => "gl") (fun _ => "gi")
      "F").2 = "F" ∧
    lookupFile (importOne importFs0 rawCollide "tn" "g" (fun _ => "gl")
      (fun _ => "gi") "F").1 "P" = some sampleBoard := by
  have h := C7_import_never_overwrites importFs0 rawCollide "tn" "g"
    (fun _ => "gl") (fun _ => "gi") "F" sampleBoard (by decide) (by decide)
  exact ⟨h.1, h.2.1⟩

/-! ### Claim C10 -/

theorem updateFirst_spec (p : α → Bool) (f : α → α) (l : List α) (a : α)
    (ha : l.find? p = some a) :
    ∃ j0, l.get? j0 = some a ∧ p a = true ∧
      (updateFirst p f l).length = l.length ∧
      (updateFirst p f l).get? j0 = some (f a) ∧
      ∀ j, j ≠ j0 → (updateFirst p f l).get? j = l.get? j := by
  induction l with
  | nil => cases ha
  | cons b t ih =>
    by_cases hb : p b = true
    · have hab : a = b := by
        rw [List.find?_cons_of_pos _ hb] at ha
        exact (Option.some.inj ha).symm
      subst hab
      have hcons : updateFirst p f (a :: t) = f a :: t := by
        simp only [updateFirst]
        rw [if_pos hb]
      refine ⟨0, rfl, hb, ?_, ?_, ?_⟩
      · rw [hcons]; rfl
      · rw [hcons]; rfl
      · intro j hj
        match j with
        | 0 => exact absurd rfl hj
        | j + 1 => rw [hcons]; rfl
    · have hat : t.find? p = some a := by
        rw [List.find?_cons_of_neg _ hb] at ha
        exact ha
      rcases ih hat with ⟨j0, hget, hpa, hlen, hset, hoth⟩
      have hcons : updateFirst p f (b :: t) = b :: updateFirst p f t := by
        simp only [updateFirst]
        rw [if_neg hb]
      refine ⟨j0 + 1, ?_, hpa, ?_, ?_, ?_⟩
      · simpa using hget
      · rw [hcons]
        simpa using hlen
      · rw [hcons]
        simpa using hset
      · intro j hj
        match j with
        | 0 => rw [hcons]; rfl
        | j + 1 =>
          rw [hcons]
          have : j ≠ j0 := by omega
          simpa using hoth j this

/-- C10 (update frame): a successful `updateProject` / `updateList` /
`updateItem` with a title/description (label/description) patch changes only
the patched text fields and `updatedAt` of the target record plus the
project's `updatedAt`; the target's `id`, `createdAt`, `order`, `projectId`
and (for items) `listId` are untouched — visible in the record-update
literals — and every other record of the document is unchanged. -/
theorem C10_update_frame (d : Board) (targetId : String)
    (pt pd : Option String) (now : String) :
    (∀ d' p', updateProject d pt pd now = .ok (d', p') →
      d'.lists = d.lists ∧ d'.items = d.items ∧
      d'.project =
        { d.project with
            title := (pt.map jsTrim).getD d.project.title,
            description := (pd.map jsTrim).getD d.project.description,
            updatedAt := now }) ∧
    (∀ d' l', updateList d targetId pt pd now = .ok (d', l') →
      d'.items = d.items ∧
      d'.project = { d.project with updatedAt := now } ∧
      d'.lists.length = d.lists.length ∧
      ∃ j0 l0, d.lists.get? j0 = some l0 ∧ l0.id = targetId ∧
        d'.lists.get? j0 = some
          { l0 with
              title := (pt.map jsTrim).getD l0.title,
              description := (pd.map jsTrim).getD l0.description,
              updatedAt := now } ∧
        ∀ j, j ≠ j0 → d'.lists.get? j = d.lists.get? j) ∧
    (∀ d' i', updateItem d targetId pt pd now = .ok (d', i') →
      d'.lists = d.lists ∧
      d'.project = { d.project with updatedAt := now } ∧
      d'.items.length = d.items.length ∧
      ∃ j0 i0, d.items.get? j0 = some i0 ∧ i0.id = targetId ∧
        d'.items.get? j0 = some
          { i0 with
              label := (pt.map jsTrim).getD i0.label,
              description := (pd.map jsTrim).getD i0.description,
              updatedAt := now } ∧
        ∀ j, j ≠ j0 → d'.items.get? j = d.items.get? j) := by
  refine ⟨?_, ?_, ?_⟩
  · intro d' p' h
    simp only [updateProject] at h
    by_cases hv : pt.map jsTrim = some ""
    · rw [if_pos hv] at h
      cases h
    · rw [if_neg hv] at h
      cases h
      exact ⟨rfl, rfl, rfl⟩
  · intro d' l' h
    cases hf : d.lists.find? (fun l => l.id == targetId) with
    | none =>
      simp only [updateList, hf] at h
      cases h
    | some l0 =>
      simp only [updateList, hf] at h
      by_cases hv : pt.map jsTrim = some ""
      · rw [if_pos hv] at h
        cases h
      · rw [if_neg hv] at h
        cases h
        rcases updateFirst_spec (fun l => l.id == targetId)
          (fun x =>
            { x with
                title := (pt.map jsTrim).getD x.title,
                description := (pd.map jsTrim).getD x.description,
                updatedAt := now }) d.lists l0 hf with
          ⟨j0, hget, hp, hlen, hset, hoth⟩
        exact ⟨rfl, rfl, hlen, j0, l0, hget, beq_iff_eq.1 hp, hset, hoth⟩
  · intro d' i' h
    cases hf : d.items.find? (fun i => i.id == targetId) with
    | none =>
      simp only [updateItem, hf] at h
      cases h
    | some i0 =>
      simp only [updateItem, hf] at h
      by_cases hv : pt.map jsTrim = some ""
      · rw [if_pos hv] at h
        cases h
      · rw [if_neg hv] at h
        cases h
        rcases updateFirst_spec (fun i => i.id == targetId)
          (fun x =>
            { x with
                label := (pt.map jsTrim).getD x.label,
                description := (pd.map jsTrim).getD x.description,
                updatedAt := now }) d.items i0 hf with
          ⟨j0, hget, hp, hlen, hset, hoth⟩
        exact ⟨rfl, rfl, hlen, j0, i0, hget, beq_iff_eq.1 hp, hset, hoth⟩

theorem C10_witness :
    ∃ d' i', updateItem sampleBoard "A" (some " New ") none "t1" = .ok (d', i')
      ∧ d'.items.length = sampleBoard.items.length :=
  ⟨_, _, rfl, ((C10_update_frame sampleBoard "A" (some " New ") none
    "t1").2.2 _ _ rfl).2.2.1⟩

/-! ### Claim C4 -/

def rawBadList : RawList :=
  { id := some "L", title := some "L", description := some "",
    order := some 5, createdAt := some "t0", updatedAt := some "t0" }

def rawBadItem : RawItem :=
  { id := some "i", listId := some "", label := some "x",
    description := some "", order := some 0, createdAt := some "t0",
    updatedAt := some "t0" }

/-- A hand-edited single-project payload: one list with `order = 5`, one item
with `listId = ""`. -/
def rawBad : RawBoard :=
  { project := some rawCollideProject, lists := some [rawBadList],
    items := some [rawBadItem] }

def c4Board : Board :=
  coerceProjectFile rawBad none "tn" "g" (fun _ => "gl") (fun _ => "gi")

/-- C4 fails on the code: `coerceProjectFile` never renumbers order values, so
the coerced `rawBad` keeps the list order `5` (the list container is not
`0..n-1`), and the empty-string `listId` slips past the falsy
`it.listId && !listIds.has(...)` guard, so the item's `listId` is neither
`null` nor any list's id. -/
theorem C4_counterexample :
    ¬ (denseOrders (c4Board.lists.map (·.order)) ∧
       ∀ it ∈ c4Board.items, it.listId = none ∨
         ∃ l ∈ c4Board.lists, it.listId = some l.id) := by
  decide

theorem refFixItem_cases (listIds : List String) (it : Item) :
    (refFixItem listIds it).listId = none ∨
    (refFixItem listIds it).listId = some "" ∨
    ∃ s ∈ listIds, (refFixItem listIds it).listId = some s := by
  cases hl : it.listId with
  | none =>
    left
    simp [refFixItem, hl]
  | some s =>
    by_cases hc : s ≠ "" ∧ ¬ (s ∈ listIds)
    · left
      have hfix : refFixItem listIds it = { it with listId := none } := by
        simp only [refFixItem, hl, if_pos hc]
      rw [hfix]
    · have hfix : refFixItem listIds it = it := by
        simp only [refFixItem, hl, if_neg hc]
      by_cases hs : s = ""
      · right; left
        rw [hfix, hl, hs]
      · right; right
        push_neg at hc
        exact ⟨s, hc hs, by rw [hfix, hl]⟩

/-- C4 amended: coercion establishes the referential invariant up to the
empty-string escape — every coerced item's `listId` is `null`, the empty
string, or the id of a list of the document — while order values are
preserved as given (containers are sorted by order but not renumbered), so
the dense-ordering half of the claim does not hold. -/
theorem C4_amended_referential (input : RawBoard) (hint : Option String)
    (now genP : String) (genL genI : Nat → String) :
    ∀ it ∈ (coerceProjectFile input hint now genP genL genI).items,
      it.listId = none ∨ it.listId = some "" ∨
        ∃ l ∈ (coerceProjectFile input hint now genP genL genI).lists,
          it.listId = some l.id := by
  intro it hit
  simp only [coerceProjectFile] at hit
  have hit2 := (insertionSortB_perm itemCoerceLe _).mem_iff.1 hit
  rcases List.mem_map.1 hit2 with ⟨it0, hit0, rfl⟩
  rcases refFixItem_cases _ it0 with h | h | ⟨s, hs, h⟩
  · exact Or.inl h
  · exact Or.inr (Or.inl h)
  · refine Or.inr (Or.inr ?_)
    rcases List.mem_map.1 hs with ⟨l, hl, rfl⟩
    refine ⟨l, ?_, h⟩
    simp only [coerceProjectFile]
    exact (insertionSortB_perm listLe _).mem_iff.2 hl

def c4Item : Item :=
  c4Board.items.headD (sampleItem "z" none 0)

theorem C4_amended_witness :
    c4Item.listId = none ∨ c4Item.listId = some "" ∨
      ∃ l ∈ c4Board.lists, c4Item.listId = some l.id :=
  C4_amended_referential rawBad none "tn" "g" (fun _ => "gl") (fun _ => "gi")
    c4Item (by decide)

/-! ### Claim C6 (counterexample) -/

/-- C6 fails on the code: on `sampleBoard` (lists `Doing` at order 0, `Done`
at order 1, array sorted by order as a loaded document is),
`reorderLists(["Done"])` assigns `Done` order 0, which ties with `Doing`'s
untouched order 0; the stable in-place sort keeps `Doing` first, so after
renumbering the named list `Done` ends up second — not "first, in the order
given" as the claim requires. -/
theorem C6_counterexample :
    (reorderLists sampleBoard ["Done"] "t1").2.map (·.id) = ["Doing", "Done"]
      ∧ (["Doing", "Done"] : List String) ≠ ["Done", "Doing"] := by
  decide

/-! ### Supporting lemmas for the ordering engine -/

theorem mapCongr (f g : α → β) (l : List α) (h : ∀ a ∈ l, f a = g a) :
    l.map f = l.map g := by
  induction l with
  | nil => rfl
  | cons a t ih =>
    simp only [List.map_cons]
    rw [h a (List.mem_cons_self a t), ih (fun b hb => h b (List.mem_cons_of_mem a hb))]

theorem filterCongr (p q : α → Bool) (l : List α) (h : ∀ a ∈ l, p a = q a) :
    l.filter p = l.filter q := by
  induction l with
  | nil => rfl
  | cons a t ih =>
    simp only [List.filter_cons]
    rw [h a (List.mem_cons_self a t),
      ih (fun b hb => h b (List.mem_cons_of_mem a hb))]

theorem idxFind_eq_none_of_not_mem_fst (s : List (Nat × α)) (x : Nat)
    (hx : x ∉ s.map Prod.fst) : idxFind (fun q => q.1 == x) s = none := by
  induction s with
  | nil => rfl
  | cons a t ih =>
    simp only [List.map_cons, List.mem_cons, not_or] at hx
    have ha : (a.1 == x) = false := by
      rw [beq_eq_false_iff_ne]
      exact fun he => hx.1 he.symm
    simp only [idxFind, ha, Bool.false_eq_true, if_false]
    rw [ih hx.2]
    rfl

theorem enum2_fst_inj (l : List α) :
    ∀ n p q, p ∈ enum2 n l → q ∈ enum2 n l → p.1 = q.1 → p = q := by
  induction l with
  | nil => intro n p q hp; cases hp
  | cons a t ih =>
    intro n p q hp hq hfst
    simp only [enum2, List.mem_cons] at hp hq
    rcases hp with rfl | hp
    · rcases hq with rfl | hq
      · rfl
      · have := enum2_fst_ge t (n + 1) q hq
        omega
    · rcases hq with rfl | hq
      · have := enum2_fst_ge t (n + 1) p hp
        omega
      · exact ih (n + 1) p q hp hq hfst

theorem enum2_get? (l : List α) :
    ∀ n k, (enum2 n l).get? k = (l.get? k).map (fun a => (n + k, a)) := by
  induction l with
  | nil => intro n k; rfl
  | cons a t ih =>
    intro n k
    cases k with
    | zero => simp [enum2]
    | succ k =>
      show (enum2 (n + 1) t).get? k = (t.get? k).map (fun a => (n + (k + 1), a))
      rw [ih (n + 1) k]
      have : ∀ b : α, (n + 1 + k, b) = (n + (k + 1), b) := by
        intro b
        rw [Nat.add_right_comm, Nat.add_assoc]
      cases t.get? k with
      | none => rfl
      | some b => simp [this b]

theorem mem_enum2_zero_iff (l : List α) (p : Nat × α) :
    p ∈ enum2 0 l ↔ l.get? p.1 = some p.2 := by
  constructor
  · intro hp
    rcases List.mem_iff_get?.1 hp with ⟨k, hk⟩
    rw [enum2_get? l 0 k] at hk
    cases hl : l.get? k with
    | none => rw [hl] at hk; cases hk
    | some b =>
      rw [hl] at hk
      have : (0 + k, b) = p := Option.some.inj hk
      rw [← this]
      simpa using hl
  · intro hp
    apply List.mem_iff_get?.2
    refine ⟨p.1, ?_⟩
    rw [enum2_get? l 0 p.1, hp]
    simp

theorem nodup_map_get?_ne (g : α → β) (l : List α) (hnd : (l.map g).Nodup)
    (i j : Nat) (x y : α) (hi : l.get? i = some x) (hj : l.get? j = some y)
    (hij : i ≠ j) : g x ≠ g y := by
  intro he
  have hgi : (l.map g).get? i = some (g x) := by
    rw [List.get?_map, hi]
    rfl
  have hgj : (l.map g).get? j = some (g y) := by
    rw [List.get?_map, hj]
    rfl
  have hlen : i < (l.map g).length := by
    have := List.get?_eq_some.1 hgi
    exact this.choose
  apply hij
  apply List.get?_inj hlen hnd
  rw [hgi, hgj, he]

theorem updateFirst_idxFind_spec (p : α → Bool) (f : α → α) (l : List α)
    (a : α) (ha : l.find? p = some a) :
    ∃ j0, idxFind p l = some j0 ∧ l.get? j0 = some a ∧ p a = true ∧
      (updateFirst p f l).length = l.length ∧
      (updateFirst p f l).get? j0 = some (f a) ∧
      ∀ j, j ≠ j0 → (updateFirst p f l).get? j = l.get? j := by
  induction l with
  | nil => cases ha
  | cons b t ih =>
    by_cases hb : p b = true
    · have hab : a = b := by
        rw [List.find?_cons_of_pos _ hb] at ha
        exact (Option.some.inj ha).symm
      subst hab
      have hcons : updateFirst p f (a :: t) = f a :: t := by
        simp only [updateFirst]
        rw [if_pos hb]
      refine ⟨0, ?_, rfl, hb, ?_, ?_, ?_⟩
      · simp [idxFind, hb]
      · rw [hcons]; rfl
      · rw [hcons]; rfl
      · intro j hj
        match j with
        | 0 => exact absurd rfl hj
        | j + 1 => rw [hcons]; rfl
    · have hat : t.find? p = some a := by
        rw [List.find?_cons_of_neg _ hb] at ha
        exact ha
      rcases ih hat with ⟨j0, hidx, hget, hpa, hlen, hset, hoth⟩
      have hcons : updateFirst p f (b :: t) = b :: updateFirst p f t := by
        simp only [updateFirst]
        rw [if_neg hb]
      refine ⟨j0 + 1, ?_, ?_, hpa, ?_, ?_, ?_⟩
      · simp only [idxFind, hb, Bool.false_eq_true, if_false, hidx]
        rfl
      · simpa using hget
      · rw [hcons]
        simpa using hlen
      · rw [hcons]
        simpa using hset
      · intro j hj
        match j with
        | 0 => rw [hcons]; rfl
        | j + 1 =>
          rw [hcons]
          have hne : j ≠ j0 := by omega
          simpa using hoth j hne

theorem mapIdx2_length (f : Nat → α → β) (l : List α) :
    ∀ n, (mapIdx2 f n l).length = l.length := by
  induction l with
  | nil => intro n; rfl
  | cons a t ih => intro n; simp [mapIdx2, ih]

theorem mapIdx2_map (f : Nat → α → β) (g : β → γ) (l : List α) :
    ∀ n, (mapIdx2 f n l).map g = mapIdx2 (fun i a => g (f i a)) n l := by
  induction l with
  | nil => intro n; rfl
  | cons a t ih => intro n; simp [mapIdx2, ih]

theorem mapIdx2_constant (f : Nat → α → β) (g : α → β) (l : List α)
    (h : ∀ i a, f i a = g a) : ∀ n, mapIdx2 f n l = l.map g := by
  induction l with
  | nil => intro n; rfl
  | cons a t ih => intro n; simp [mapIdx2, h, ih]

theorem mapIdx2_range' (f : Nat → α → β) (v : Nat → β) (l : List α)
    (h : ∀ i a, f i a = v i) :
    ∀ n, mapIdx2 f n l = (List.range' n l.length).map v := by
  induction l with
  | nil => intro n; rfl
  | cons a t ih =>
    intro n
    rw [List.length_cons, List.range'_succ, List.map_cons]
    simp only [mapIdx2, h, ih]

/-! ### Generic facts about positional renumbering -/

theorem assignIdxOrders_map_field (upd : Nat → Item → Item)
    (sorted es : List (Nat × Item)) (g : Item → β)
    (hg : ∀ k it, g (upd k it) = g it) :
    (assignIdxOrders upd sorted es).map g = es.map (fun p => g p.2) := by
  unfold assignIdxOrders
  rw [List.map_map]
  apply mapCongr
  intro p hp
  simp only [Function.comp]
  cases idxFind (fun q => q.1 == p.1) sorted with
  | none => rfl
  | some k => exact hg k p.2

theorem assignIdxOrders_length (upd : Nat → Item → Item)
    (sorted es : List (Nat × Item)) :
    (assignIdxOrders upd sorted es).length = es.length := by
  unfold assignIdxOrders
  simp

/-- Core renumbering fact: filtering the renumbered items by a predicate whose
members are exactly the entries of `sorted` yields order values that are a
permutation of `0..sorted.length - 1`. -/
theorem assignIdxOrders_filter_dense (upd : Nat → Item → Item)
    (sorted es : List (Nat × Item)) (pr : Item → Bool)
    (hupd_pr : ∀ k it, pr (upd k it) = pr it)
    (hupd_ord : ∀ k it, (upd k it).order = (k : Int))
    (hmem : ∀ p ∈ es, pr p.2 = true → p ∈ sorted)
    (hmem2 : ∀ q ∈ sorted, q ∈ es ∧ pr q.2 = true)
    (hnd : (sorted.map Prod.fst).Nodup)
    (hndes : (es.map Prod.fst).Nodup) :
    denseOrders (((assignIdxOrders upd sorted es).filter pr).map (·.order)) := by
  have hstep1 : (assignIdxOrders upd sorted es).filter pr =
      (es.filter (fun p => pr p.2)).map (fun p =>
        match idxFind (fun q => q.1 == p.1) sorted with
        | some k => upd k p.2
        | none => p.2) := by
    unfold assignIdxOrders
    rw [filter_map_comm]
    congr 1
    apply filterCongr
    intro p hp
    cases idxFind (fun q => q.1 == p.1) sorted with
    | none => rfl
    | some k => exact hupd_pr k p.2
  have hmemsnodup : (es.filter (fun p => pr p.2)).Nodup := by
    have hesnodup : es.Nodup := List.Nodup.of_map _ hndes
    exact List.Nodup.filter _ hesnodup
  have hsortednodup : sorted.Nodup := List.Nodup.of_map _ hnd
  have hsame : ∀ q, q ∈ es.filter (fun p => pr p.2) ↔ q ∈ sorted := by
    intro q
    constructor
    · intro hq
      rcases List.mem_filter.1 hq with ⟨h1, h2⟩
      exact hmem q h1 h2
    · intro hq
      rcases hmem2 q hq with ⟨h1, h2⟩
      exact List.mem_filter.2 ⟨h1, h2⟩
  have hperm : (es.filter (fun p => pr p.2)).Perm sorted := by
    rw [List.perm_ext_iff_of_nodup hmemsnodup hsortednodup]
    exact hsame
  have hstep2 : ((es.filter (fun p => pr p.2)).map (fun p =>
      match idxFind (fun q => q.1 == p.1) sorted with
      | some k => upd k p.2
      | none => p.2)).map (·.order) =
      (es.filter (fun p => pr p.2)).map (fun p =>
        (((idxFind (fun q => q.1 == p.1) sorted).getD 0 : Nat) : Int)) := by
    rw [List.map_map]
    apply mapCongr
    intro p hp
    have hpin : p ∈ sorted := (hsame p).1 hp
    have hsome : (idxFind (fun q => q.1 == p.1) sorted).isSome :=
      idxFind_isSome_of_mem _ _ p hpin (by simp)
    cases hf : idxFind (fun q => q.1 == p.1) sorted with
    | none => rw [hf] at hsome; cases hsome
    | some k =>
      simp only [Function.comp, hf]
      rw [hupd_ord k p.2]
      rfl
  have hstep3 : ((es.filter (fun p => pr p.2)).map (fun p =>
      (((idxFind (fun q => q.1 == p.1) sorted).getD 0 : Nat) : Int))).Perm
      (intsUpTo sorted.length) := by
    have hmap := hperm.map (fun p =>
      (((idxFind (fun q => q.1 == p.1) sorted).getD 0 : Nat) : Int))
    refine hmap.trans ?_
    have hr := map_idxFind_eq_range sorted hnd
    have : sorted.map (fun p =>
        (((idxFind (fun q => q.1 == p.1) sorted).getD 0 : Nat) : Int)) =
        (sorted.map (fun p => (idxFind (fun q => q.1 == p.1) sorted).getD 0)).map
          (fun k : Nat => (k : Int)) := by
      rw [List.map_map]
      rfl
    rw [this, hr]
    exact List.Perm.refl _
  have hlen : (((assignIdxOrders upd sorted es).filter pr).map (·.order)).length
      = sorted.length := by
    rw [hstep1, List.length_map, List.length_map]
    exact hperm.length_eq
  unfold denseOrders
  rw [hlen, hstep1, hstep2]
  exact hstep3

/-- Entries whose predicate members never appear in `sorted` are returned
unchanged by the renumbering. -/
theorem assignIdxOrders_filter_untouched (upd : Nat → Item → Item)
    (sorted es : List (Nat × Item)) (pr : Item → Bool)
    (hupd_pr : ∀ k it, pr (upd k it) = pr it)
    (hdisj : ∀ p ∈ es, pr p.2 = true → p.1 ∉ sorted.map Prod.fst) :
    (assignIdxOrders upd sorted es).filter pr = (es.map Prod.snd).filter pr := by
  have hstep1 : (assignIdxOrders upd sorted es).filter pr =
      (es.filter (fun p => pr p.2)).map (fun p =>
        match idxFind (fun q => q.1 == p.1) sorted with
        | some k => upd k p.2
        | none => p.2) := by
    unfold assignIdxOrders
    rw [filter_map_comm]
    congr 1
    apply filterCongr
    intro p hp
    cases idxFind (fun q => q.1 == p.1) sorted with
    | none => rfl
    | some k => exact hupd_pr k p.2
  rw [hstep1]
  have hstep2 : (es.filter (fun p => pr p.2)).map (fun p =>
      match idxFind (fun q => q.1 == p.1) sorted with
      | some k => upd k p.2
      | none => p.2) = (es.filter (fun p => pr p.2)).map Prod.snd := by
    apply mapCongr
    intro p hp
    have hnone : idxFind (fun q => q.1 == p.1) sorted = none :=
      idxFind_eq_none_of_not_mem_fst sorted p.1
        (hdisj p (List.mem_filter.1 hp).1 (List.mem_filter.1 hp).2)
    rw [hnone]
  rw [hstep2, ← filter_map_comm]

/-! ### Facts about `normalizeItemOrders` and `normalizeListOrders` -/

theorem normalizeItemOrders_dense (items : List Item) (lid : Option String) :
    denseOrders (containerOrders (normalizeItemOrders items lid) lid) := by
  unfold normalizeItemOrders containerOrders
  apply assignIdxOrders_filter_dense
  · intro k it
    rfl
  · intro k it
    rfl
  · intro p hp hpr
    apply (insertionSortB_perm itemOrderLe _).mem_iff.2
    exact List.mem_filter.2 ⟨hp, hpr⟩
  · intro q hq
    have hq2 := (insertionSortB_perm itemOrderLe _).mem_iff.1 hq
    exact ⟨(List.mem_filter.1 hq2).1, (List.mem_filter.1 hq2).2⟩
  · have h1 : ((enum2 0 items).filter
        (fun p => p.2.listId == lid)).Sublist (enum2 0 items) :=
      List.filter_sublist _
    have h2 := h1.map Prod.fst
    have h3 := h2.nodup (enum2_fst_nodup items 0)
    have h4 := (insertionSortB_perm itemOrderLe
      ((enum2 0 items).filter (fun p => p.2.listId == lid))).map Prod.fst
    exact (h4.nodup_iff).2 h3
  · exact enum2_fst_nodup items 0

theorem normalizeItemOrders_map_field (items : List Item) (lid : Option String)
    (g : Item → β)
    (hg : ∀ (k : Int) (it : Item), g { it with order := k } = g it) :
    (normalizeItemOrders items lid).map g = items.map g := by
  unfold normalizeItemOrders
  rw [assignIdxOrders_map_field _ _ _ g (fun k it => hg (k : Int) it)]
  have : (enum2 0 items).map (fun p => g p.2) =
      ((enum2 0 items).map Prod.snd).map g := by
    rw [List.map_map]
    rfl
  rw [this, enum2_map_snd]

theorem normalizeItemOrders_filter_other (items : List Item)
    (lid lid2 : Option String) (hne : lid2 ≠ lid) :
    (normalizeItemOrders items lid).filter (fun i => i.listId == lid2) =
      items.filter (fun i => i.listId == lid2) := by
  unfold normalizeItemOrders
  have hdisj : ∀ p ∈ enum2 0 items, (fun i => i.listId == lid2) p.2 = true →
      p.1 ∉ (insertionSortB itemOrderLe
        ((enum2 0 items).filter (fun p => p.2.listId == lid))).map Prod.fst := by
    intro p hp hpr hin
    rcases List.mem_map.1 hin with ⟨q, hq, hfst⟩
    have hq2 := (insertionSortB_perm itemOrderLe _).mem_iff.1 hq
    have hq3 : q ∈ enum2 0 items := (List.mem_filter.1 hq2).1
    have hq4 : (q.2.listId == lid) = true := (List.mem_filter.1 hq2).2
    have heq : q = p := enum2_fst_inj items 0 q p hq3 hp hfst
    subst heq
    have h1 : q.2.listId = lid2 := beq_iff_eq.1 hpr
    have h2 : q.2.listId = lid := beq_iff_eq.1 hq4
    rw [h1] at h2
    exact hne h2
  have hres := assignIdxOrders_filter_untouched
    (fun k it => ({ it with order := (k : Int) } : Item))
    (insertionSortB itemOrderLe
      ((enum2 0 items).filter (fun p => p.2.listId == lid)))
    (enum2 0 items) (fun i => i.listId == lid2) (fun k it => rfl) hdisj
  rw [hres, enum2_map_snd]

theorem normalizeListOrders_orders (lists : List ListRec) :
    (normalizeListOrders lists).map (·.order) = intsUpTo lists.length := by
  unfold normalizeListOrders
  rw [mapIdx2_map]
  rw [mapIdx2_range' _ (fun i : Nat => (i : Int)) _ (fun i a => rfl) 0]
  rw [(insertionSortB_perm listLe lists).length_eq]
  rw [intsUpTo, List.range_eq_range']

theorem normalizeListOrders_dense (lists : List ListRec) :
    denseOrders ((normalizeListOrders lists).map (·.order)) := by
  rw [normalizeListOrders_orders]
  unfold denseOrders
  rw [length_intsUpTo]

theorem normalizeListOrders_length (lists : List ListRec) :
    (normalizeListOrders lists).length = lists.length := by
  unfold normalizeListOrders
  rw [mapIdx2_length]
  exact (insertionSortB_perm listLe lists).length_eq

theorem normalizeListOrders_map_field (lists : List ListRec) (g : ListRec → β)
    (hg : ∀ (k : Int) (l : ListRec), g { l with order := k } = g l) :
    ((normalizeListOrders lists).map g).Perm (lists.map g) := by
  unfold normalizeListOrders
  rw [mapIdx2_map]
  rw [mapIdx2_constant _ g _ (fun i a => hg (i : Int) a) 0]
  exact (insertionSortB_perm listLe lists).map g

/-! ### The document invariant -/

/-- Well-formedness of a stored document: dense list orders, dense item
orders in every container, unique record ids, consistent `projectId`
foreign keys, and `listId` references that are null, empty (the coercion
escape) or an existing list id. -/
structure WellFormed (d : Board) : Prop where
  denseLists : denseOrders (d.lists.map (·.order))
  denseItems : ∀ lid : Option String, denseOrders (containerOrders d.items lid)
  nodupListIds : (d.lists.map (·.id)).Nodup
  nodupItemIds : (d.items.map (·.id)).Nodup
  listProj : ∀ l ∈ d.lists, l.projectId = d.project.id
  itemProj : ∀ it ∈ d.items, it.projectId = d.project.id
  validListIds : ∀ it ∈ d.items, it.listId = none ∨ it.listId = some "" ∨
    ∃ l ∈ d.lists, it.listId = some l.id

theorem containerOrders_of_not_mem (items : List Item) (lid : Option String)
    (h : lid ∉ items.map (·.listId)) : containerOrders items lid = [] := by
  unfold containerOrders
  have : items.filter (fun i => i.listId == lid) = [] := by
    apply List.filter_eq_nil.2
    intro it hit hbeq
    exact h (List.mem_map.2 ⟨it, hit, beq_iff_eq.1 hbeq⟩)
  rw [this]
  rfl

/-- Executable well-formedness check (the unbounded container quantifier is
reduced to the listIds that occur). -/
def wellFormedCheck (d : Board) : Bool :=
  decide (denseOrders (d.lists.map (·.order))) &&
  ((d.items.map (·.listId)).all
    (fun lid => decide (denseOrders (containerOrders d.items lid)))) &&
  decide ((d.lists.map (·.id)).Nodup) &&
  decide ((d.items.map (·.id)).Nodup) &&
  d.lists.all (fun l => l.projectId == d.project.id) &&
  d.items.all (fun it => it.projectId == d.project.id) &&
  d.items.all (fun it => it.listId == (none : Option String) ||
    it.listId == some "" || d.lists.any (fun l => it.listId == some l.id))

theorem wellFormed_of_check (d : Board) (h : wellFormedCheck d = true) :
    WellFormed d := by
  unfold wellFormedCheck at h
  simp only [Bool.and_eq_true, Bool.or_eq_true, List.all_eq_true,
    List.any_eq_true, decide_eq_true_eq, beq_iff_eq] at h
  obtain ⟨⟨⟨⟨⟨⟨h1, h2⟩, h3⟩, h4⟩, h5⟩, h6⟩, h7⟩ := h
  refine ⟨h1, ?_, h3, h4, h5, h6, ?_⟩
  · intro lid
    by_cases hmem : lid ∈ d.items.map (·.listId)
    · exact h2 lid hmem
    · rw [containerOrders_of_not_mem d.items lid hmem]
      exact denseOrders_nil
  · intro it hit
    rcases h7 it hit with h8 | h8
    · rcases h8 with h8 | h8
      · exact Or.inl h8
      · exact Or.inr (Or.inl h8)
    · rcases h8 with ⟨l, hl, he⟩
      exact Or.inr (Or.inr ⟨l, hl, he⟩)

/-! ### Invariant preservation, operation by operation -/

theorem mem_updateFirst (p : α → Bool) (f : α → α) (l : List α) (y : α)
    (hy : y ∈ updateFirst p f l) : y ∈ l ∨ ∃ x ∈ l, y = f x := by
  induction l with
  | nil => cases hy
  | cons b t ih =>
    by_cases hb : p b = true
    · have : updateFirst p f (b :: t) = f b :: t := by
        simp only [updateFirst]
        rw [if_pos hb]
      rw [this] at hy
      rcases List.mem_cons.1 hy with rfl | hy
      · exact Or.inr ⟨b, List.mem_cons_self b t, rfl⟩
      · exact Or.inl (List.mem_cons_of_mem b hy)
    · have : updateFirst p f (b :: t) = b :: updateFirst p f t := by
        simp only [updateFirst]
        rw [if_neg hb]
      rw [this] at hy
      rcases List.mem_cons.1 hy with rfl | hy
      · exact Or.inl (List.mem_cons_self y t)
      · rcases ih hy with h | ⟨x, hx, rfl⟩
        · exact Or.inl (List.mem_cons_of_mem b h)
        · exact Or.inr ⟨x, List.mem_cons_of_mem b hx, rfl⟩

theorem wf_createList (d : Board) (title description newId now : String)
    (d2 : Board) (l : ListRec) (hwf : WellFormed d)
    (h : createList d title description newId now = .ok (d2, l))
    (hfresh : newId ∉ d.lists.map (·.id)) : WellFormed d2 := by
  simp only [createList] at h
  by_cases hv : jsTrim title = ""
  · rw [if_pos hv] at h
    cases h
  · rw [if_neg hv] at h
    cases h
    refine ⟨?_, hwf.denseItems, ?_, hwf.nodupItemIds, ?_, hwf.itemProj, ?_⟩
    · rw [List.map_append]
      have hmax := denseOrders_foldrMax _ hwf.denseLists
      have hlen : (d.lists.map (·.order)).length = d.lists.length := by simp
      have hval : ((d.lists.map (·.order)).foldr max (-1)) + 1 =
          ((d.lists.map (·.order)).length : Int) := by
        rw [hmax]
        ring
      have := denseOrders_append _ hwf.denseLists
      simpa [hval] using this
    · rw [List.map_append]
      apply List.Nodup.append hwf.nodupListIds
      · exact List.nodup_singleton _
      · intro x hx hx2
        rcases List.mem_singleton.1 hx2 with rfl
        exact hfresh hx
    · intro l2 hl2
      rcases List.mem_append.1 hl2 with hl2 | hl2
      · exact hwf.listProj l2 hl2
      · rcases List.mem_singleton.1 hl2 with rfl
        rfl
    · intro it hit
      rcases hwf.validListIds it hit with h | h | ⟨l2, hl2, he⟩
      · exact Or.inl h
      · exact Or.inr (Or.inl h)
      · exact Or.inr (Or.inr ⟨l2, List.mem_append_left _ hl2, he⟩)

theorem wf_updateList (d : Board) (listId : String) (pt pd : Option String)
    (now : String) (d2 : Board) (l : ListRec) (hwf : WellFormed d)
    (h : updateList d listId pt pd now = .ok (d2, l)) : WellFormed d2 := by
  cases hf : d.lists.find? (fun x => x.id == listId) with
  | none => simp only [updateList, hf] at h; cases h
  | some l0 =>
    simp only [updateList, hf] at h
    by_cases hv : pt.map jsTrim = some ""
    · rw [if_pos hv] at h
      cases h
    · rw [if_neg hv] at h
      cases h
      have hord : (updateFirst (fun x => x.id == listId)
          (fun x : ListRec =>
            { x with
                title := (pt.map jsTrim).getD x.title,
                description := (pd.map jsTrim).getD x.description,
                updatedAt := now }) d.lists).map
          (·.order) = d.lists.map (·.order) :=
        updateFirst_map_eq (fun x => x.id == listId)
          (fun x : ListRec =>
            { x with
                title := (pt.map jsTrim).getD x.title,
                description := (pd.map jsTrim).getD x.description,
                updatedAt := now })
          (fun x => x.order) (fun a => rfl) d.lists
      have hid : (updateFirst (fun x => x.id == listId)
          (fun x : ListRec =>
            { x with
                title := (pt.map jsTrim).getD x.title,
                description := (pd.map jsTrim).getD x.description,
                updatedAt := now }) d.lists).map
          (·.id) = d.lists.map (·.id) :=
        updateFirst_map_eq (fun x => x.id == listId)
          (fun x : ListRec =>
            { x with
                title := (pt.map jsTrim).getD x.title,
                description := (pd.map jsTrim).getD x.description,
                updatedAt := now })
          (fun x => x.id) (fun a => rfl) d.lists
      refine ⟨?_, hwf.denseItems, ?_, hwf.nodupItemIds, ?_, hwf.itemProj, ?_⟩
      · rw [hord]
        exact hwf.denseLists
      · rw [hid]
        exact hwf.nodupListIds
      · intro l2 hl2
        rcases mem_updateFirst _ _ _ _ hl2 with hm | ⟨x, hx, rfl⟩
        · exact hwf.listProj l2 hm
        · exact hwf.listProj x hx
      · intro it hit
        rcases hwf.validListIds it hit with hc | hc | ⟨l2, hl2, he⟩
        · exact Or.inl hc
        · exact Or.inr (Or.inl hc)
        · refine Or.inr (Or.inr ?_)
          have hmm : l2.id ∈ d.lists.map (·.id) :=
            List.mem_map.2 ⟨l2, hl2, rfl⟩
          rw [← hid] at hmm
          rcases List.mem_map.1 hmm with ⟨l3, hl3, hideq⟩
          exact ⟨l3, hl3, by rw [he, hideq]⟩

theorem containerOrders_congr (items' items : List Item)
    (h : items'.map (fun i => (i.listId, i.order)) =
         items.map (fun i => (i.listId, i.order))) (lid : Option String) :
    containerOrders items' lid = containerOrders items lid := by
  induction items generalizing items' with
  | nil =>
    cases items' with
    | nil => rfl
    | cons a t => cases h
  | cons b t ih =>
    cases items' with
    | nil => cases h
    | cons a t' =>
      simp only [List.map_cons, List.cons.injEq] at h
      obtain ⟨hpair, htail⟩ := h
      have hlid : a.listId = b.listId := congrArg Prod.fst hpair
      have hord : a.order = b.order := congrArg Prod.snd hpair
      have htl := ih t' htail
      unfold containerOrders at htl ⊢
      simp only [List.filter_cons, hlid]
      by_cases hc : (b.listId == lid) = true
      · simp only [hc, if_true, List.map_cons, hord, htl]
      · simp only [hc, if_false, Bool.false_eq_true, htl]

theorem wf_updateItem (d : Board) (itemId : String) (pl pd : Option String)
    (now : String) (d2 : Board) (it0 : Item) (hwf : WellFormed d)
    (h : updateItem d itemId pl pd now = .ok (d2, it0)) : WellFormed d2 := by
  cases hf : d.items.find? (fun x => x.id == itemId) with
  | none => simp only [updateItem, hf] at h; cases h
  | some i0 =>
    simp only [updateItem, hf] at h
    by_cases hv : pl.map jsTrim = some ""
    · rw [if_pos hv] at h
      cases h
    · rw [if_neg hv] at h
      cases h
      have hpair : (updateFirst (fun x => x.id == itemId)
          (fun x : Item =>
            { x with
                label := (pl.map jsTrim).getD x.label,
                description := (pd.map jsTrim).getD x.description,
                updatedAt := now }) d.items).map
          (fun i => (i.listId, i.order)) =
          d.items.map (fun i => (i.listId, i.order)) :=
        updateFirst_map_eq (fun x => x.id == itemId)
          (fun x : Item =>
            { x with
                label := (pl.map jsTrim).getD x.label,
                description := (pd.map jsTrim).getD x.description,
                updatedAt := now })
          (fun i => (i.listId, i.order)) (fun a => rfl) d.items
      have hid : (updateFirst (fun x => x.id == itemId)
          (fun x : Item =>
            { x with
                label := (pl.map jsTrim).getD x.label,
                description := (pd.map jsTrim).getD x.description,
                updatedAt := now }) d.items).map
          (·.id) = d.items.map (·.id) :=
        updateFirst_map_eq (fun x => x.id == itemId)
          (fun x : Item =>
            { x with
                label := (pl.map jsTrim).getD x.label,
                description := (pd.map jsTrim).getD x.description,
                updatedAt := now })
          (fun x => x.id) (fun a => rfl) d.items
      refine ⟨hwf.denseLists, ?_, hwf.nodupListIds, ?_, hwf.listProj, ?_, ?_⟩
      · intro lid
        rw [containerOrders_congr _ _ hpair lid]
        exact hwf.denseItems lid
      · rw [hid]
        exact hwf.nodupItemIds
      · intro it hit
        rcases mem_updateFirst _ _ _ _ hit with hm | ⟨x, hx, rfl⟩
        · exact hwf.itemProj it hm
        · exact hwf.itemProj x hx
      · intro it hit
        rcases mem_updateFirst _ _ _ _ hit with hm | ⟨x, hx, rfl⟩
        · exact hwf.validListIds it hm
        · exact hwf.validListIds x hx

theorem mem_mapIdx2 (f : Nat → α → β) (l : List α) (y : β) :
    ∀ n, y ∈ mapIdx2 f n l → ∃ i a, a ∈ l ∧ y = f i a := by
  induction l with
  | nil => intro n hy; cases hy
  | cons b t ih =>
    intro n hy
    rcases List.mem_cons.1 hy with rfl | hy
    · exact ⟨n, b, List.mem_cons_self b t, rfl⟩
    · rcases ih (n + 1) hy with ⟨i, a, ha, rfl⟩
      exact ⟨i, a, List.mem_cons_of_mem b ha, rfl⟩

theorem mem_mapIdx2_from (f : Nat → α → β) (l : List α) (y : β) :
    ∀ n, y ∈ mapIdx2 f n l → ∃ i, n ≤ i ∧ ∃ a ∈ l, y = f i a := by
  induction l with
  | nil => intro n hy; cases hy
  | cons b t ih =>
    intro n hy
    rcases List.mem_cons.1 hy with rfl | hy
    · exact ⟨n, Nat.le_refl n, b, List.mem_cons_self b t, rfl⟩
    · rcases ih (n + 1) hy with ⟨i, hi, a, ha, rfl⟩
      exact ⟨i, Nat.le_of_succ_le hi, a, List.mem_cons_of_mem b ha, rfl⟩

theorem mem_assignIdxOrders (upd : Nat → Item → Item)
    (sorted es : List (Nat × Item)) (y : Item)
    (hy : y ∈ assignIdxOrders upd sorted es) :
    ∃ p ∈ es, y = p.2 ∨ ∃ k, y = upd k p.2 := by
  unfold assignIdxOrders at hy
  rcases List.mem_map.1 hy with ⟨p, hp, he⟩
  refine ⟨p, hp, ?_⟩
  cases hf : idxFind (fun q => q.1 == p.1) sorted with
  | none =>
    rw [hf] at he
    exact Or.inl he.symm
  | some k =>
    rw [hf] at he
    exact Or.inr ⟨k, he.symm⟩

theorem mem_normalizeItemOrders (items : List Item) (lid : Option String)
    (y : Item) (hy : y ∈ normalizeItemOrders items lid) :
    ∃ x ∈ items, y.id = x.id ∧ y.listId = x.listId ∧
      y.projectId = x.projectId := by
  unfold normalizeItemOrders at hy
  rcases mem_assignIdxOrders _ _ _ _ hy with ⟨p, hp, hcase⟩
  have hx : p.2 ∈ items := by
    have h2 : p.2 ∈ (enum2 0 items).map Prod.snd :=
      List.mem_map.2 ⟨p, hp, rfl⟩
    rw [enum2_map_snd] at h2
    exact h2
  refine ⟨p.2, hx, ?_⟩
  rcases hcase with rfl | ⟨k, rfl⟩
  · exact ⟨rfl, rfl, rfl⟩
  · exact ⟨rfl, rfl, rfl⟩

theorem mem_normalizeListOrders (lists : List ListRec) (y : ListRec)
    (hy : y ∈ normalizeListOrders lists) :
    ∃ x ∈ lists, y.id = x.id ∧ y.projectId = x.projectId := by
  unfold normalizeListOrders at hy
  rcases mem_mapIdx2 _ _ _ _ hy with ⟨i, a, ha, rfl⟩
  have hx : a ∈ lists := (insertionSortB_perm listLe lists).mem_iff.1 ha
  exact ⟨a, hx, rfl, rfl⟩

theorem filter_congr_except (pr : α → Bool) :
    ∀ (l l' : List α), l'.length = l.length →
    (∀ j x' x, l'.get? j = some x' → l.get? j = some x →
      (pr x' = false ∧ pr x = false) ∨ x' = x) →
    l'.filter pr = l.filter pr := by
  intro l
  induction l with
  | nil =>
    intro l' hlen _
    cases l' with
    | nil => rfl
    | cons a t => cases hlen
  | cons b t ih =>
    intro l' hlen h
    cases l' with
    | nil => cases hlen
    | cons a t' =>
      have h0 := h 0 a b rfl rfl
      have htail := ih t' (by simpa using hlen)
        (fun j x' x hx' hx => h (j + 1) x' x (by simpa using hx')
          (by simpa using hx))
      simp only [List.filter_cons]
      rcases h0 with ⟨ha, hb⟩ | rfl
      · rw [ha, hb]
        simpa using htail
      · rw [htail]

theorem map_eq_of_get? (g : α → β) :
    ∀ (l l' : List α), l'.length = l.length →
    (∀ j x' x, l'.get? j = some x' → l.get? j = some x → g x' = g x) →
    l'.map g = l.map g := by
  intro l
  induction l with
  | nil =>
    intro l' hlen _
    cases l' with
    | nil => rfl
    | cons a t => cases hlen
  | cons b t ih =>
    intro l' hlen h
    cases l' with
    | nil => cases hlen
    | cons a t' =>
      have h0 := h 0 a b rfl rfl
      have htail := ih t' (by simpa using hlen)
        (fun j x' x hx' hx => h (j + 1) x' x (by simpa using hx')
          (by simpa using hx))
      simp only [List.map_cons]
      rw [h0, htail]

theorem denseOrders_perm (l l' : List Int) (hp : l.Perm l')
    (h : denseOrders l) : denseOrders l' := by
  unfold denseOrders at h ⊢
  rw [← hp.length_eq]
  exact hp.symm.trans h

theorem containerOrders_filterMap (items : List Item) (lid : Option String) :
    containerOrders items lid =
      (items.map (fun i => (i.listId, i.order))).filterMap
        (fun q => if q.1 == lid then some q.2 else none) := by
  induction items with
  | nil => rfl
  | cons b t ih =>
    unfold containerOrders at ih ⊢
    simp only [List.filter_cons, List.map_cons, List.filterMap_cons]
    by_cases hc : (b.listId == lid) = true
    · simp only [hc, if_true, List.map_cons]
      rw [ih]
    · simp only [hc, if_false, Bool.false_eq_true]
      rw [ih]

theorem containerOrders_perm_of_pairs (items' items : List Item)
    (h : (items'.map (fun i => (i.listId, i.order))).Perm
         (items.map (fun i => (i.listId, i.order)))) (lid : Option String) :
    (containerOrders items' lid).Perm (containerOrders items lid) := by
  rw [containerOrders_filterMap, containerOrders_filterMap]
  exact h.filterMap _

theorem refFixItem_eq_self (listIds : List String) (it : Item)
    (h : it.listId = none ∨ it.listId = some "" ∨
      ∃ s ∈ listIds, it.listId = some s) :
    refFixItem listIds it = it := by
  rcases h with h | h | ⟨s, hs, he⟩
  · simp [refFixItem, h]
  · simp [refFixItem, h]
  · simp only [refFixItem, he]
    rw [if_neg]
    intro hc
    exact hc.2 hs

theorem wf_appendItem (d : Board) (it : Item) (now : String) (hwf : WellFormed d)
    (hid : it.id ∉ d.items.map (·.id))
    (hproj : it.projectId = d.project.id)
    (hvalid : it.listId = none ∨ it.listId = some "" ∨
      ∃ l ∈ d.lists, it.listId = some l.id)
    (hord : it.order =
      (((d.items.filter (fun i => i.listId == it.listId)).map (·.order)).foldr
        max (-1)) + 1) :
    WellFormed
      { project := { d.project with updatedAt := now },
        lists := d.lists, items := d.items ++ [it] } := by
  refine ⟨hwf.denseLists, ?_, hwf.nodupListIds, ?_, hwf.listProj, ?_, ?_⟩
  · intro lid
    show denseOrders (containerOrders (d.items ++ [it]) lid)
    have hfsplit : containerOrders (d.items ++ [it]) lid =
        containerOrders d.items lid ++
          ([it].filter (fun i => i.listId == lid)).map (·.order) := by
      unfold containerOrders
      rw [List.filter_append, List.map_append]
    by_cases hc : (it.listId == lid) = true
    · have hlid : it.listId = lid := beq_iff_eq.1 hc
      have hfl : [it].filter (fun i => i.listId == lid) = [it] := by
        simp [List.filter, hc]
      have hmax := denseOrders_foldrMax (containerOrders d.items lid)
        (hwf.denseItems lid)
      have hordc : it.order = (containerOrders d.items lid).foldr max (-1)
          + 1 := by
        rw [hord, hlid]
        rfl
      have h3 : it.order = ((containerOrders d.items lid).length : Int) := by
        rw [hordc, hmax]
        ring
      rw [hfsplit, hfl, List.map_singleton, h3]
      exact denseOrders_append _ (hwf.denseItems lid)
    · have hfl : [it].filter (fun i => i.listId == lid) = [] := by
        simp only [List.filter]
        rw [Bool.of_not_eq_true hc]
      rw [hfsplit, hfl]
      simp only [List.map_nil, List.append_nil]
      exact hwf.denseItems lid
  · rw [List.map_append]
    refine List.Nodup.append hwf.nodupItemIds (List.nodup_singleton _) ?_
    intro x hx hx2
    rcases List.mem_singleton.1 hx2 with rfl
    exact hid hx
  · intro it2 hit2
    rcases List.mem_append.1 hit2 with h | h
    · exact hwf.itemProj it2 h
    · rcases List.mem_singleton.1 h with rfl
      exact hproj
  · intro it2 hit2
    rcases List.mem_append.1 hit2 with h | h
    · exact hwf.validListIds it2 h
    · rcases List.mem_singleton.1 h with rfl
      exact hvalid

theorem wf_createItem (d : Board) (listId : Option String)
    (label description newId now : String) (d2 : Board) (it : Item)
    (hwf : WellFormed d)
    (h : createItem d listId label description newId now = .ok (d2, it))
    (hfresh : newId ∉ d.items.map (·.id)) : WellFormed d2 := by
  cases listId with
  | none =>
    simp only [createItem] at h
    by_cases hv : jsTrim label = ""
    · rw [if_pos hv] at h; cases h
    · rw [if_neg hv] at h
      cases h
      refine wf_appendItem d _ now hwf ?_ ?_ ?_ ?_
      · exact hfresh
      · rfl
      · exact Or.inl rfl
      · rfl
  | some s =>
    simp only [createItem] at h
    by_cases hv : jsTrim label = ""
    · rw [if_pos hv] at h; cases h
    · rw [if_neg hv] at h
      by_cases hs : s = ""
      · rw [if_pos hs] at h
        cases h
        refine wf_appendItem d _ now hwf ?_ ?_ ?_ ?_
        · exact hfresh
        · rfl
        · refine Or.inr (Or.inl ?_)
          show some s = some ""
          rw [hs]
        · rfl
      · rw [if_neg hs] at h
        cases hfind : d.lists.find? (fun l => l.id == s) with
        | none => rw [hfind] at h; cases h
        | some l0 =>
          rw [hfind] at h
          cases h
          refine wf_appendItem d _ now hwf ?_ ?_ ?_ ?_
          · exact hfresh
          · rfl
          · refine Or.inr (Or.inr ⟨l0, List.mem_of_find?_eq_some hfind, ?_⟩)
            have hps := List.find?_some hfind
            show some s = some l0.id
            rw [beq_iff_eq.1 hps]
          · rfl

theorem filter_erase_other (items : List Item) (itemId : String) (item0 : Item)
    (hfind : items.find? (fun i => i.id == itemId) = some item0)
    (hnd : (items.map (·.id)).Nodup) (lid : Option String)
    (hne : lid ≠ item0.listId) :
    (items.filter (fun i => !(i.id == itemId))).filter
      (fun i => i.listId == lid) = items.filter (fun i => i.listId == lid) := by
  rw [List.filter_filter]
  apply filterCongr
  intro x hx
  by_cases hc : (x.listId == lid) = true
  · rw [hc]
    have hxne : (x.id == itemId) = false := by
      rw [beq_eq_false_iff_ne]
      intro he
      have h0 : item0 ∈ items := List.mem_of_find?_eq_some hfind
      have h1 := List.find?_some hfind
      have h2 : x.id = item0.id := by
        rw [he, beq_iff_eq.1 h1]
      have h3 : x = item0 :=
        List.inj_on_of_nodup_map hnd hx h0 h2
      apply hne
      rw [← h3]
      exact (beq_iff_eq.1 hc).symm
    rw [hxne]
    rfl
  · rw [Bool.of_not_eq_true hc]
    rfl

theorem wf_deleteItem (d : Board) (itemId now : String) (d2 : Board)
    (hwf : WellFormed d)
    (h : deleteItem d itemId now = .ok d2) : WellFormed d2 := by
  cases hf : d.items.find? (fun i => i.id == itemId) with
  | none => simp only [deleteItem, hf] at h; cases h
  | some item0 =>
    simp only [deleteItem, hf] at h
    cases h
    have hids : (normalizeItemOrders
        (d.items.filter (fun i => !(i.id == itemId))) item0.listId).map (·.id)
        = (d.items.filter (fun i => !(i.id == itemId))).map (·.id) :=
      normalizeItemOrders_map_field _ _ _ (fun k x => rfl)
    refine ⟨hwf.denseLists, ?_, hwf.nodupListIds, ?_, hwf.listProj, ?_, ?_⟩
    · intro lid
      by_cases hc : lid = item0.listId
      · subst hc
        exact normalizeItemOrders_dense _ _
      · unfold containerOrders
        rw [normalizeItemOrders_filter_other _ _ _ hc,
          filter_erase_other d.items itemId item0 hf hwf.nodupItemIds lid hc]
        exact hwf.denseItems lid
    · rw [hids]
      have hsub : ((d.items.filter (fun i => !(i.id == itemId))).map
          (·.id)).Sublist (d.items.map (·.id)) :=
        (List.filter_sublist _).map _
      exact hsub.nodup hwf.nodupItemIds
    · intro it2 hit2
      rcases mem_normalizeItemOrders _ _ _ hit2 with ⟨x, hx, _, _, hproj2⟩
      rw [hproj2]
      exact hwf.itemProj x (List.mem_filter.1 hx).1
    · intro it2 hit2
      rcases mem_normalizeItemOrders _ _ _ hit2 with ⟨x, hx, _, hlid2, _⟩
      rw [hlid2]
      exact hwf.validListIds x (List.mem_filter.1 hx).1

/-- Pointwise maps that preserve container membership and order leave a
container's order list unchanged. -/
theorem containerOrders_map_of_pair (f : Item → Item) (lid : Option String)
    (hpair : ∀ it : Item, ((f it).listId == lid) = (it.listId == lid) ∧
      (f it).order = it.order) :
    ∀ items : List Item,
      containerOrders (items.map f) lid = containerOrders items lid := by
  intro items
  induction items with
  | nil => rfl
  | cons b t ih =>
    unfold containerOrders at ih ⊢
    simp only [List.map_cons, List.filter_cons, (hpair b).1]
    by_cases hc : (b.listId == lid) = true
    · simp only [hc, if_true, List.map_cons, (hpair b).2, ih]
    · simp only [hc, if_false, Bool.false_eq_true, ih]

/-- After `deleteList` moves a list's items to Loose, no item points at the
deleted list any more. -/
theorem nullify_filter_self (listId now : String) (items : List Item) :
    (items.map (fun it =>
        if it.listId == some listId
        then { it with listId := none, updatedAt := now } else it)).filter
      (fun i => i.listId == some listId) = [] := by
  rw [List.filter_eq_nil_iff]
  intro x hx
  rcases List.mem_map.1 hx with ⟨y, hy, rfl⟩
  by_cases hc : (y.listId == some listId) = true
  · rw [if_pos hc]
    intro hh
    simp at hh
  · rw [if_neg hc]
    exact hc

theorem wf_deleteList (d : Board) (listId now : String) (d2 : Board)
    (hwf : WellFormed d)
    (h : deleteList d listId now = .ok d2) : WellFormed d2 := by
  cases hf : d.lists.find? (fun l => l.id == listId) with
  | none => simp only [deleteList, hf] at h; cases h
  | some l0 =>
    simp only [deleteList, hf] at h
    cases h
    have hlperm := normalizeListOrders_map_field
      (d.lists.filter (fun l => !(l.id == listId))) (fun l => l.id)
      (fun k l => rfl)
    refine ⟨?_, ?_, ?_, ?_, ?_, ?_, ?_⟩
    · exact normalizeListOrders_dense _
    · intro lid
      by_cases hn : lid = none
      · subst hn
        exact normalizeItemOrders_dense _ none
      · have hstep : containerOrders (normalizeItemOrders
            (d.items.map (fun it =>
              if it.listId == some listId
              then { it with listId := none, updatedAt := now } else it))
            none) lid = containerOrders
            (d.items.map (fun it =>
              if it.listId == some listId
              then { it with listId := none, updatedAt := now } else it))
            lid := by
          unfold containerOrders
          rw [normalizeItemOrders_filter_other _ none lid hn]
        rw [hstep]
        by_cases hd : lid = some listId
        · subst hd
          unfold containerOrders
          rw [nullify_filter_self]
          exact denseOrders_nil
        · have hpair : ∀ it : Item,
              (((if (it.listId == some listId) = true
                then ({ it with listId := none, updatedAt := now } : Item)
                else it)).listId == lid) = (it.listId == lid) ∧
              ((if (it.listId == some listId) = true
                then ({ it with listId := none, updatedAt := now } : Item)
                else it)).order = it.order := by
            intro it
            by_cases hc : (it.listId == some listId) = true
            · rw [if_pos hc]
              refine ⟨?_, rfl⟩
              have h1 : ((none : Option String) == lid) = false := by
                rw [beq_eq_false_iff_ne]
                exact fun he => hn he.symm
              have h2 : (it.listId == lid) = false := by
                rw [beq_eq_false_iff_ne]
                intro he
                apply hd
                rw [← he]
                exact beq_iff_eq.1 hc
              show ((none : Option String) == lid) = (it.listId == lid)
              rw [h1, h2]
            · rw [if_neg hc]
              exact ⟨rfl, rfl⟩
          rw [containerOrders_map_of_pair _ lid hpair d.items]
          exact hwf.denseItems lid
    · refine (hlperm.nodup_iff).2 ?_
      exact ((List.filter_sublist _).map _).nodup hwf.nodupListIds
    · have hids : (normalizeItemOrders
          (d.items.map (fun it =>
            if it.listId == some listId
            then { it with listId := none, updatedAt := now } else it))
          none).map (fun i => i.id) =
          (d.items.map (fun it =>
            if it.listId == some listId
            then { it with listId := none, updatedAt := now } else it)).map
            (fun i => i.id) :=
        normalizeItemOrders_map_field _ _ _ (fun k x => rfl)
      rw [hids, List.map_map]
      have hsame : d.items.map ((fun i => i.id) ∘ (fun it =>
          if it.listId == some listId
          then ({ it with listId := none, updatedAt := now } : Item) else it)) =
          d.items.map (fun i => i.id) := by
        apply mapCongr
        intro x hx
        show (if (x.listId == some listId) = true
            then ({ x with listId := none, updatedAt := now } : Item)
            else x).id = x.id
        by_cases hc : (x.listId == some listId) = true
        · rw [if_pos hc]
        · rw [if_neg hc]
      rw [hsame]
      exact hwf.nodupItemIds
    · intro l hl
      rcases mem_normalizeListOrders _ _ hl with ⟨x, hx, _, hproj⟩
      rw [hproj]
      exact hwf.listProj x (List.mem_filter.1 hx).1
    · intro it hit
      rcases mem_normalizeItemOrders _ _ _ hit with ⟨x, hx, _, _, hproj⟩
      rcases List.mem_map.1 hx with ⟨y, hy, rfl⟩
      rw [hproj]
      show (if (y.listId == some listId) = true
          then ({ y with listId := none, updatedAt := now } : Item)
          else y).projectId = d.project.id
      by_cases hc : (y.listId == some listId) = true
      · rw [if_pos hc]
        exact hwf.itemProj y hy
      · rw [if_neg hc]
        exact hwf.itemProj y hy
    · intro it hit
      rcases mem_normalizeItemOrders _ _ _ hit with ⟨x, hx, _, hlid, _⟩
      rcases List.mem_map.1 hx with ⟨y, hy, rfl⟩
      have hxy : it.listId = (if (y.listId == some listId) = true
          then ({ y with listId := none, updatedAt := now } : Item)
          else y).listId := hlid
      by_cases hc : (y.listId == some listId) = true
      · refine Or.inl ?_
        rw [hxy, if_pos hc]
      · rw [if_neg hc] at hxy
        rcases hwf.validListIds y hy with h0 | h0 | ⟨l, hl, h0⟩
        · exact Or.inl (hxy.trans h0)
        · exact Or.inr (Or.inl (hxy.trans h0))
        · have hlne : (l.id == listId) = false := by
            rw [beq_eq_false_iff_ne]
            intro he
            apply hc
            rw [h0, he]
            exact beq_self_eq_true _
          have hl1 : l ∈ d.lists.filter (fun l2 => !(l2.id == listId)) := by
            refine List.mem_filter.2 ⟨hl, ?_⟩
            rw [hlne]
            rfl
          have hxid : l.id ∈ (normalizeListOrders
              (d.lists.filter (fun l2 => !(l2.id == listId)))).map
              (fun l2 => l2.id) :=
            hlperm.mem_iff.2 (List.mem_map.2 ⟨l, hl1, rfl⟩)
          rcases List.mem_map.1 hxid with ⟨l2, hl2, hid2⟩
          refine Or.inr (Or.inr ⟨l2, hl2, ?_⟩)
          rw [hxy, h0, ← hid2]

/-- Whatever the two index lookups yield, a reorder entry only ever changes
`order` and `updatedAt`. -/
theorem reorderEntry_fields (lists : List ListRec) (ids : List String)
    (now : String) (p : Nat × ListRec) (g : ListRec → β)
    (hg : ∀ (k : Int) (l : ListRec),
      g { l with order := k, updatedAt := now } = g l) :
    g (reorderEntry lists ids now p) = g p.2 := by
  unfold reorderEntry
  cases lastIdxOf p.2.id (lists.map (·.id)) with
  | none => rfl
  | some q =>
    cases lastIdxOf p.2.id ids with
    | none => rfl
    | some k =>
      show g (if q = p.1
          then ({ p.2 with order := (k : Int), updatedAt := now } : ListRec)
          else p.2) = g p.2
      by_cases hq : q = p.1
      · rw [if_pos hq]
        exact hg (k : Int) p.2
      · rw [if_neg hq]

theorem wf_reorderLists (d : Board) (ids : List String) (now : String)
    (hwf : WellFormed d) : WellFormed (reorderLists d ids now).1 := by
  show WellFormed
    { project := { d.project with updatedAt := now },
      lists := normalizeListOrders
        ((enum2 0 d.lists).map (reorderEntry d.lists ids now)),
      items := d.items }
  have hids : ((enum2 0 d.lists).map (reorderEntry d.lists ids now)).map
      (fun l => l.id) = d.lists.map (fun l => l.id) := by
    rw [List.map_map]
    have h1 : (enum2 0 d.lists).map
        ((fun l => l.id) ∘ reorderEntry d.lists ids now) =
        (enum2 0 d.lists).map (fun p => p.2.id) :=
      mapCongr _ _ _ (fun p hp =>
        reorderEntry_fields d.lists ids now p (fun l => l.id)
          (fun k l => rfl))
    have h2 : (enum2 0 d.lists).map (fun p : Nat × ListRec => p.2.id) =
        ((enum2 0 d.lists).map Prod.snd).map (fun l => l.id) := by
      rw [List.map_map]
      rfl
    rw [h1, h2, enum2_map_snd]
  have hlperm := normalizeListOrders_map_field
    ((enum2 0 d.lists).map (reorderEntry d.lists ids now)) (fun l => l.id)
    (fun k l => rfl)
  refine ⟨?_, ?_, ?_, ?_, ?_, ?_, ?_⟩
  · exact normalizeListOrders_dense _
  · intro lid
    exact hwf.denseItems lid
  · refine (hlperm.nodup_iff).2 ?_
    rw [hids]
    exact hwf.nodupListIds
  · exact hwf.nodupItemIds
  · intro l hl
    rcases mem_normalizeListOrders _ _ hl with ⟨x, hx, _, hproj⟩
    rcases List.mem_map.1 hx with ⟨p, hp, rfl⟩
    rw [hproj, reorderEntry_fields d.lists ids now p (fun l2 => l2.projectId)
      (fun k l2 => rfl)]
    have hm : p.2 ∈ d.lists := by
      have h2 : p.2 ∈ (enum2 0 d.lists).map Prod.snd :=
        List.mem_map.2 ⟨p, hp, rfl⟩
      rw [enum2_map_snd] at h2
      exact h2
    exact hwf.listProj p.2 hm
  · exact hwf.itemProj
  · intro it hit
    rcases hwf.validListIds it hit with h0 | h0 | ⟨l, hl, h0⟩
    · exact Or.inl h0
    · exact Or.inr (Or.inl h0)
    · have hin : l.id ∈ ((enum2 0 d.lists).map
          (reorderEntry d.lists ids now)).map (fun l2 => l2.id) := by
        rw [hids]
        exact List.mem_map.2 ⟨l, hl, rfl⟩
      have hin2 : l.id ∈ (normalizeListOrders ((enum2 0 d.lists).map
          (reorderEntry d.lists ids now))).map (fun l2 => l2.id) :=
        hlperm.mem_iff.2 hin
      rcases List.mem_map.1 hin2 with ⟨l2, hl2, hid2⟩
      refine Or.inr (Or.inr ⟨l2, hl2, ?_⟩)
      rw [h0, ← hid2]

theorem denseOrders_snoc_max (l : List Int) (x : Int) (h : denseOrders l)
    (hx : x = l.foldr max (-1) + 1) : denseOrders (l ++ [x]) := by
  have hmax := denseOrders_foldrMax l h
  have h3 : x = (l.length : Int) := by
    rw [hx, hmax]
    ring
  rw [h3]
  exact denseOrders_append l h

theorem containerOrders_normalize_other (items : List Item)
    (lid0 lid : Option String) (hne : lid ≠ lid0) :
    containerOrders (normalizeItemOrders items lid0) lid =
      containerOrders items lid := by
  unfold containerOrders
  rw [normalizeItemOrders_filter_other items lid0 lid hne]

theorem containerOrders_append_none (items extra : List Item)
    (lid : Option String)
    (hextra : ∀ x ∈ extra, (x.listId == lid) = false) :
    containerOrders (items ++ extra) lid = containerOrders items lid := by
  unfold containerOrders
  rw [List.filter_append]
  have h1 : extra.filter (fun i => i.listId == lid) = [] := by
    rw [List.filter_eq_nil_iff]
    intro a ha hcontra
    rw [hextra a ha] at hcontra
    cases hcontra
  rw [h1, List.append_nil]

theorem nodup_ids_normalizeItemOrders (items : List Item) (lid : Option String)
    (h : (items.map (fun i => i.id)).Nodup) :
    ((normalizeItemOrders items lid).map (fun i => i.id)).Nodup := by
  rw [normalizeItemOrders_map_field items lid (fun i => i.id)
    (fun k x => rfl)]
  exact h

/-- The clones minted by `duplicateList` carry the generated ids in index
order. -/
theorem dup_copies_ids (pid newListId now : String) (genItemId : Nat → String)
    (srcItems : List Item) :
    (mapIdx2 (fun k it =>
      ({ id := genItemId k, projectId := pid, listId := some newListId,
         label := it.label, description := it.description, order := it.order,
         createdAt := now, updatedAt := now } : Item)) 0 srcItems).map
      (fun i => i.id) = (List.range' 0 srcItems.length).map genItemId := by
  rw [mapIdx2_map]
  rw [mapIdx2_range' _ genItemId _ (fun i a => rfl) 0]

theorem wf_duplicateList (d : Board) (listId newListId : String)
    (genItemId : Nat → String) (now : String) (d2 : Board) (l0 : ListRec)
    (n : Nat) (hwf : WellFormed d)
    (h : duplicateList d listId newListId genItemId now = .ok (d2, l0, n))
    (hfreshL : newListId ∉ d.lists.map (·.id))
    (hfreshI : ∀ k, k < n → genItemId k ∉ d.items.map (·.id))
    (hinj : ∀ k1, k1 < n → ∀ k2, k2 < n →
      genItemId k1 = genItemId k2 → k1 = k2) : WellFormed d2 := by
  cases hf : d.lists.find? (fun l => l.id == listId) with
  | none => simp only [duplicateList, hf] at h; cases h
  | some src =>
    simp only [duplicateList, hf] at h
    cases h
    refine ⟨?_, ?_, ?_, ?_, ?_, ?_, ?_⟩
    · rw [List.map_append, List.map_singleton]
      exact denseOrders_snoc_max _ _ hwf.denseLists rfl
    · intro lid
      by_cases hn : lid = some newListId
      · subst hn
        exact normalizeItemOrders_dense _ _
      · rw [containerOrders_normalize_other _ _ _ hn,
          containerOrders_append_none]
        · exact hwf.denseItems lid
        · intro x hx
          rcases mem_mapIdx2 _ _ _ _ hx with ⟨i, a, ha, rfl⟩
          show ((some newListId : Option String) == lid) = false
          rw [beq_eq_false_iff_ne]
          exact fun he => hn he.symm
    · rw [List.map_append]
      refine List.Nodup.append hwf.nodupListIds (List.nodup_singleton _) ?_
      intro x hx hx2
      rcases List.mem_singleton.1 hx2 with rfl
      exact hfreshL hx
    · apply nodup_ids_normalizeItemOrders
      rw [List.map_append, dup_copies_ids, ← List.range_eq_range']
      refine List.Nodup.append hwf.nodupItemIds ?_ ?_
      · refine List.Nodup.map_on ?_ (List.nodup_range _)
        intro x hx y hy he
        exact hinj x (List.mem_range.1 hx) y (List.mem_range.1 hy) he
      · intro x hx hx2
        rcases List.mem_map.1 hx2 with ⟨k, hk, rfl⟩
        exact hfreshI k (List.mem_range.1 hk) hx
    · intro l hl
      rcases List.mem_append.1 hl with hml | hml
      · exact hwf.listProj l hml
      · rcases List.mem_singleton.1 hml with rfl
        rfl
    · intro it hit
      rcases mem_normalizeItemOrders _ _ _ hit with ⟨x, hx, _, _, hproj⟩
      rw [hproj]
      rcases List.mem_append.1 hx with hmx | hmx
      · exact hwf.itemProj x hmx
      · rcases mem_mapIdx2 _ _ _ _ hmx with ⟨i, a, ha, rfl⟩
        rfl
    · intro it hit
      rcases mem_normalizeItemOrders _ _ _ hit with ⟨x, hx, _, hlid, _⟩
      rcases List.mem_append.1 hx with hmx | hmx
      · rcases hwf.validListIds x hmx with h0 | h0 | ⟨l, hl, h0⟩
        · exact Or.inl (hlid.trans h0)
        · exact Or.inr (Or.inl (hlid.trans h0))
        · exact Or.inr (Or.inr
            ⟨l, List.mem_append.2 (Or.inl hl), hlid.trans h0⟩)
      · rcases mem_mapIdx2 _ _ _ _ hmx with ⟨i, a, ha, rfl⟩
        refine Or.inr (Or.inr
          ⟨_, List.mem_append.2 (Or.inr (List.mem_singleton.2 rfl)), ?_⟩)
        exact hlid

theorem updateFirst_map_eq_of_p (p : α → Bool) (f : α → α) (g : α → β)
    (hg : ∀ a, p a = true → g (f a) = g a) (l : List α) :
    (updateFirst p f l).map g = l.map g := by
  induction l with
  | nil => rfl
  | cons a t ih =>
    unfold updateFirst
    by_cases h : p a = true
    · rw [if_pos h]
      simp [hg a h]
    · rw [if_neg h]
      simp [ih]

/-- Invariant preservation for the body of `moveItem`, with every
intermediate value of the source bound to a name by an equation. -/
theorem wf_move_assembled (d : Board) (itemId : String)
    (toListId : Option String) (now : String) (item item1 : Item)
    (items1 : List Item) (p0 insertAt : Nat)
    (destPairs spliced : List (Nat × Item)) (items2 : List Item)
    (hwf : WellFormed d)
    (hfind : d.items.find? (fun i => i.id == itemId) = some item)
    (hitem1 : item1 =
      { item with
          listId := toListId, order := sentinelOrder, updatedAt := now })
    (hitems1 : items1 = updateFirst (fun i => i.id == itemId)
      (fun _ => item1) d.items)
    (hp0 : p0 = (idxFind (fun i => i.id == itemId) d.items).getD 0)
    (hdest : destPairs = insertionSortB itemOrderLe
      ((enum2 0 items1).filter (fun p =>
        p.2.projectId == d.project.id && p.2.listId == toListId &&
          !(p.2.id == item.id))))
    (hspliced : spliced = spliceIn insertAt (p0, item1) destPairs)
    (hitems2 : items2 = assignIdxOrders
      (fun k it => { it with order := (k : Int), updatedAt := now })
      spliced (enum2 0 items1))
    (hvalid : toListId = none ∨ toListId = some "" ∨
      ∃ l ∈ d.lists, toListId = some l.id) :
    WellFormed
      { project := { d.project with updatedAt := now },
        lists := d.lists,
        items := if item.listId ≠ toListId
          then normalizeItemOrders items2 item.listId else items2 } := by
  have h_item_mem : item ∈ d.items := List.mem_of_find?_eq_some hfind
  rcases updateFirst_idxFind_spec (fun i => i.id == itemId) (fun _ => item1)
    d.items item hfind with ⟨j0, hidx, hget, hpa, hlen0, hset0, hoth0⟩
  have hset : items1.get? j0 = some item1 := by
    rw [hitems1]
    exact hset0
  have hoth : ∀ j, j ≠ j0 → items1.get? j = d.items.get? j := by
    intro j hj
    rw [hitems1]
    exact hoth0 j hj
  have hp0j : p0 = j0 := by
    rw [hp0, hidx]
    rfl
  subst hp0j
  have h_item_id : item.id = itemId := beq_iff_eq.1 hpa
  have h_item1_id : item1.id = item.id := by rw [hitem1]
  have h_item1_listId : item1.listId = toListId := by rw [hitem1]
  have h_item1_proj : item1.projectId = item.projectId := by rw [hitem1]
  have hids1 : items1.map (fun i => i.id) = d.items.map (fun i => i.id) := by
    rw [hitems1]
    refine updateFirst_map_eq_of_p _ _ _ ?_ d.items
    intro a ha
    show item1.id = a.id
    rw [h_item1_id, h_item_id]
    exact (beq_iff_eq.1 ha).symm
  have K1 : (p0, item1) ∈ enum2 0 items1 :=
    (mem_enum2_zero_iff items1 (p0, item1)).2 hset
  have K2 : ∀ p ∈ enum2 0 items1, p.1 = p0 → p = (p0, item1) := by
    intro p hp hfst
    exact enum2_fst_inj items1 0 p (p0, item1) hp K1 hfst
  have K3 : ∀ p ∈ enum2 0 items1, p.2.id = item.id → p = (p0, item1) := by
    intro p hp hid
    by_cases hj : p.1 = p0
    · exact K2 p hp hj
    · exfalso
      have hg := (mem_enum2_zero_iff _ _).1 hp
      rw [hoth p.1 hj] at hg
      exact nodup_map_get?_ne (fun i => i.id) d.items hwf.nodupItemIds
        p.1 p0 p.2 item hg hget hj hid
  have K4 : ∀ p ∈ enum2 0 items1, p.2.projectId = d.project.id := by
    intro p hp
    by_cases hj : p.1 = p0
    · have h4 : p = (p0, item1) := K2 p hp hj
      rw [h4]
      show item1.projectId = d.project.id
      rw [h_item1_proj]
      exact hwf.itemProj item h_item_mem
    · have hg := (mem_enum2_zero_iff _ _).1 hp
      rw [hoth p.1 hj] at hg
      exact hwf.itemProj p.2 (List.get?_mem hg)
  have K6 : (item1.listId == toListId) = true := by
    rw [h_item1_listId]
    exact beq_self_eq_true _
  have hdp : ∀ q ∈ destPairs, q ∈ enum2 0 items1 ∧
      (q.2.listId == toListId) = true ∧ (q.2.id == item.id) = false := by
    intro q hq
    rw [hdest] at hq
    have hq2 := (insertionSortB_perm itemOrderLe _).mem_iff.1 hq
    have h1 := (List.mem_filter.1 hq2).1
    have h2 := (List.mem_filter.1 hq2).2
    rw [Bool.and_eq_true, Bool.and_eq_true] at h2
    refine ⟨h1, h2.1.2, ?_⟩
    have h3 := h2.2
    cases hcc : (q.2.id == item.id) with
    | false => rfl
    | true =>
      rw [hcc] at h3
      simp at h3
  have hdp0 : ∀ q ∈ destPairs, q.1 ≠ p0 := by
    intro q hq he
    have h3 := (hdp q hq).2.2
    have h4 : q = (p0, item1) := K2 q (hdp q hq).1 he
    rw [h4] at h3
    have h5 : (item1.id == item.id) = false := h3
    rw [h_item1_id] at h5
    rw [beq_self_eq_true] at h5
    cases h5
  have hsplnd : (spliced.map Prod.fst).Nodup := by
    rw [hspliced]
    have hperm := (spliceIn_perm insertAt (p0, item1) destPairs).map Prod.fst
    refine (hperm.nodup_iff).2 ?_
    rw [List.map_cons]
    refine List.nodup_cons.2 ⟨?_, ?_⟩
    · intro hmem
      rcases List.mem_map.1 hmem with ⟨q, hq, hfst⟩
      exact hdp0 q hq hfst
    · rw [hdest]
      have h5 := (insertionSortB_perm itemOrderLe
        ((enum2 0 items1).filter (fun p =>
          p.2.projectId == d.project.id && p.2.listId == toListId &&
            !(p.2.id == item.id)))).map Prod.fst
      refine (h5.nodup_iff).2 ?_
      exact ((List.filter_sublist _).map Prod.fst).nodup
        (enum2_fst_nodup items1 0)
  have hmemS : ∀ p ∈ enum2 0 items1, (p.2.listId == toListId) = true →
      p ∈ spliced := by
    intro p hp hpr
    rw [hspliced]
    apply (spliceIn_perm _ _ _).mem_iff.2
    by_cases hid : (p.2.id == item.id) = true
    · have h4 : p = (p0, item1) := K3 p hp (beq_iff_eq.1 hid)
      rw [h4]
      exact List.mem_cons_self _ _
    · apply List.mem_cons_of_mem
      rw [hdest]
      apply (insertionSortB_perm itemOrderLe _).mem_iff.2
      refine List.mem_filter.2 ⟨hp, ?_⟩
      rw [Bool.and_eq_true, Bool.and_eq_true]
      refine ⟨⟨?_, hpr⟩, ?_⟩
      · rw [beq_iff_eq]
        exact K4 p hp
      · rw [Bool.of_not_eq_true hid]
        rfl
  have hmem2S : ∀ q ∈ spliced, q ∈ enum2 0 items1 ∧
      (q.2.listId == toListId) = true := by
    intro q hq
    rw [hspliced] at hq
    have hq2 := (spliceIn_perm _ _ _).mem_iff.1 hq
    rcases List.mem_cons.1 hq2 with rfl | hq3
    · exact ⟨K1, K6⟩
    · exact ⟨(hdp q hq3).1, (hdp q hq3).2.1⟩
  have hdense2 : denseOrders (containerOrders items2 toListId) := by
    rw [hitems2]
    unfold containerOrders
    exact assignIdxOrders_filter_dense
      (fun k it => { it with order := (k : Int), updatedAt := now })
      spliced (enum2 0 items1) (fun i => i.listId == toListId)
      (fun k it => rfl) (fun k it => rfl) hmemS hmem2S hsplnd
      (enum2_fst_nodup items1 0)
  have huntouched : ∀ lid : Option String, lid ≠ toListId →
      lid ≠ item.listId →
      containerOrders items2 lid = containerOrders d.items lid := by
    intro lid h1 h2
    have hd1 : containerOrders items2 lid = containerOrders items1 lid := by
      have hdisj : ∀ p ∈ enum2 0 items1, (p.2.listId == lid) = true →
          p.1 ∉ spliced.map Prod.fst := by
        intro p hp hpr hmem
        rcases List.mem_map.1 hmem with ⟨q, hq, hfst⟩
        rw [hspliced] at hq
        have hq2 := (spliceIn_perm _ _ _).mem_iff.1 hq
        rcases List.mem_cons.1 hq2 with rfl | hq3
        · have h4 : p = (p0, item1) := K2 p hp (by rw [← hfst])
          rw [h4] at hpr
          have h5 : (item1.listId == lid) = true := hpr
          rw [h_item1_listId] at h5
          exact h1 (beq_iff_eq.1 h5).symm
        · have h6 := hdp q hq3
          have h7 : q = p := enum2_fst_inj items1 0 q p h6.1 hp hfst
          rw [h7] at h6
          have h8 := beq_iff_eq.1 h6.2.1
          have h9 := beq_iff_eq.1 hpr
          rw [h9] at h8
          exact h1 h8
      rw [hitems2]
      unfold containerOrders
      rw [assignIdxOrders_filter_untouched
        (fun k it => ({ it with order := (k : Int), updatedAt := now } : Item))
        spliced (enum2 0 items1) (fun i => i.listId == lid)
        (fun k it => rfl) hdisj, enum2_map_snd]
    have hd2 : containerOrders items1 lid = containerOrders d.items lid := by
      have hcond : ∀ (j : Nat) (x' x : Item),
          (updateFirst (fun i => i.id == itemId) (fun _ => item1)
            d.items).get? j = some x' → d.items.get? j = some x →
          ((x'.listId == lid) = false ∧ (x.listId == lid) = false) ∨
            x' = x := by
        intro j x' x hx' hx
        rw [← hitems1] at hx'
        by_cases hj : j = p0
        · subst hj
          rw [hset] at hx'
          rw [hget] at hx
          have hx'e : x' = item1 := (Option.some.inj hx').symm
          have hxe : x = item := (Option.some.inj hx).symm
          subst hx'e hxe
          left
          constructor
          · rw [h_item1_listId, beq_eq_false_iff_ne]
            exact fun he => h1 he.symm
          · rw [beq_eq_false_iff_ne]
            exact fun he => h2 he.symm
        · right
          rw [hoth j hj] at hx'
          rw [hx] at hx'
          exact (Option.some.inj hx').symm
      rw [hitems1]
      unfold containerOrders
      rw [filter_congr_except (fun i => i.listId == lid) d.items
        (updateFirst (fun i => i.id == itemId) (fun _ => item1) d.items)
        (updateFirst_length _ _ _) hcond]
    exact hd1.trans hd2
  have hids2 : items2.map (fun i => i.id) = d.items.map (fun i => i.id) := by
    rw [hitems2]
    rw [assignIdxOrders_map_field
      (fun k it => ({ it with order := (k : Int), updatedAt := now } : Item))
      spliced (enum2 0 items1) (fun i => i.id) (fun k it => rfl)]
    have h2 : (enum2 0 items1).map (fun p => p.2.id) =
        ((enum2 0 items1).map Prod.snd).map (fun i => i.id) := by
      rw [List.map_map]
      rfl
    rw [h2, enum2_map_snd]
    exact hids1
  have hproj2 : ∀ it ∈ items2, it.projectId = d.project.id := by
    intro it hit
    rw [hitems2] at hit
    rcases mem_assignIdxOrders _ _ _ _ hit with ⟨p, hp, hcase⟩
    have hpproj : p.2.projectId = d.project.id := K4 p hp
    rcases hcase with rfl | ⟨k, rfl⟩
    · exact hpproj
    · exact hpproj
  have hvalid2 : ∀ it ∈ items2, it.listId = none ∨ it.listId = some "" ∨
      ∃ l ∈ d.lists, it.listId = some l.id := by
    intro it hit
    rw [hitems2] at hit
    rcases mem_assignIdxOrders _ _ _ _ hit with ⟨p, hp, hcase⟩
    have hplid : p.2.listId = none ∨ p.2.listId = some "" ∨
        ∃ l ∈ d.lists, p.2.listId = some l.id := by
      by_cases hj : p.1 = p0
      · have h4 : p = (p0, item1) := K2 p hp hj
        rw [h4]
        show item1.listId = none ∨ item1.listId = some "" ∨
          ∃ l ∈ d.lists, item1.listId = some l.id
        rw [h_item1_listId]
        exact hvalid
      · have hg := (mem_enum2_zero_iff _ _).1 hp
        rw [hoth p.1 hj] at hg
        exact hwf.validListIds p.2 (List.get?_mem hg)
    rcases hcase with rfl | ⟨k, rfl⟩
    · exact hplid
    · exact hplid
  refine ⟨hwf.denseLists, ?_, hwf.nodupListIds, ?_, hwf.listProj, ?_, ?_⟩
  · intro lid
    by_cases hft : item.listId ≠ toListId
    · rw [if_pos hft]
      by_cases hsrc : lid = item.listId
      · subst hsrc
        exact normalizeItemOrders_dense _ _
      · rw [containerOrders_normalize_other _ _ _ hsrc]
        by_cases hdst : lid = toListId
        · subst hdst
          exact hdense2
        · rw [huntouched lid hdst hsrc]
          exact hwf.denseItems lid
    · rw [if_neg hft]
      have hft2 : item.listId = toListId := not_not.1 hft
      by_cases hdst : lid = toListId
      · subst hdst
        exact hdense2
      · rw [huntouched lid hdst (by rw [hft2]; exact hdst)]
        exact hwf.denseItems lid
  · by_cases hft : item.listId ≠ toListId
    · rw [if_pos hft]
      rw [normalizeItemOrders_map_field items2 item.listId (fun i => i.id)
        (fun k x => rfl), hids2]
      exact hwf.nodupItemIds
    · rw [if_neg hft, hids2]
      exact hwf.nodupItemIds
  · intro it hit
    by_cases hft : item.listId ≠ toListId
    · rw [if_pos hft] at hit
      rcases mem_normalizeItemOrders _ _ _ hit with ⟨x, hx, _, _, hpr⟩
      rw [hpr]
      exact hproj2 x hx
    · rw [if_neg hft] at hit
      exact hproj2 it hit
  · intro it hit
    by_cases hft : item.listId ≠ toListId
    · rw [if_pos hft] at hit
      rcases mem_normalizeItemOrders _ _ _ hit with ⟨x, hx, _, hlid, _⟩
      rw [hlid]
      exact hvalid2 x hx
    · rw [if_neg hft] at hit
      exact hvalid2 it hit

theorem wf_moveItem (d : Board) (projectId itemId : String)
    (toListId : Option String) (toIndex : Int) (now : String)
    (d2 : Board) (itret : Item) (hwf : WellFormed d)
    (hproj : projectId = d.project.id)
    (h : moveItem d projectId itemId toListId toIndex now = .ok (d2, itret)) :
    WellFormed d2 := by
  subst hproj
  cases hfind : d.items.find? (fun i => i.id == itemId) with
  | none => simp only [moveItem, hfind] at h; cases h
  | some item =>
    cases toListId with
    | none =>
      simp only [moveItem, hfind] at h
      cases h
      exact wf_move_assembled d itemId none now item _ _ _ _ _ _ _ hwf hfind
        rfl rfl rfl rfl rfl rfl (Or.inl rfl)
    | some s =>
      simp only [moveItem, hfind] at h
      by_cases hs : s = ""
      · rw [if_pos hs] at h
        cases h
        have hv : (some s : Option String) = none ∨
            (some s : Option String) = some "" ∨
            ∃ l ∈ d.lists, (some s : Option String) = some l.id := by
          refine Or.inr (Or.inl ?_)
          rw [hs]
        exact wf_move_assembled d itemId (some s) now item _ _ _ _ _ _ _ hwf
          hfind rfl rfl rfl rfl rfl rfl hv
      · rw [if_neg hs] at h
        cases hfl : d.lists.find? (fun l => l.id == s) with
        | none =>
          rw [hfl] at h
          cases h
        | some l0 =>
          rw [hfl] at h
          cases h
          have h1 := List.find?_some hfl
          have hv : (some s : Option String) = none ∨
              (some s : Option String) = some "" ∨
              ∃ l ∈ d.lists, (some s : Option String) = some l.id := by
            refine Or.inr (Or.inr ⟨l0, List.mem_of_find?_eq_some hfl, ?_⟩)
            rw [beq_iff_eq.1 h1]
          exact wf_move_assembled d itemId (some s) now item _ _ _ _ _ _ _
            hwf hfind rfl rfl rfl rfl rfl rfl hv

theorem wf_createProjectBoard (pid title description now : String) (d : Board)
    (h : createProjectBoard pid title description now = .ok d) :
    WellFormed d := by
  simp only [createProjectBoard] at h
  by_cases hv : jsTrim title = ""
  · rw [if_pos hv] at h
    cases h
  · rw [if_neg hv] at h
    cases h
    refine ⟨denseOrders_nil, ?_, List.nodup_nil, List.nodup_nil, ?_, ?_, ?_⟩
    · intro lid
      exact denseOrders_nil
    · intro l hl
      cases hl
    · intro it hit
      cases hit
    · intro it hit
      cases hit

/-- One mutation of the store, as dispatched by the API routes: each
constructor carries the success equation of the corresponding `db.ts`
operation plus the freshness facts guaranteed by `crypto.randomUUID()` and
the route wiring (`projectId` is the id of the loaded document). -/
inductive DbStep : Board → Board → Prop where
  | stepCreateList (d : Board) (title description newId now : String)
      (d2 : Board) (l : ListRec)
      (h : createList d title description newId now = .ok (d2, l))
      (hfresh : newId ∉ d.lists.map (·.id)) : DbStep d d2
  | stepUpdateList (d : Board) (listId : String) (pt pd : Option String)
      (now : String) (d2 : Board) (l : ListRec)
      (h : updateList d listId pt pd now = .ok (d2, l)) : DbStep d d2
  | stepDeleteList (d : Board) (listId now : String) (d2 : Board)
      (h : deleteList d listId now = .ok d2) : DbStep d d2
  | stepDuplicateList (d : Board) (listId newListId : String)
      (genItemId : Nat → String) (now : String) (d2 : Board) (l0 : ListRec)
      (n : Nat)
      (h : duplicateList d listId newListId genItemId now = .ok (d2, l0, n))
      (hfreshL : newListId ∉ d.lists.map (·.id))
      (hfreshI : ∀ k, k < n → genItemId k ∉ d.items.map (·.id))
      (hinj : ∀ k1, k1 < n → ∀ k2, k2 < n →
        genItemId k1 = genItemId k2 → k1 = k2) : DbStep d d2
  | stepReorderLists (d : Board) (ids : List String) (now : String) :
      DbStep d (reorderLists d ids now).1
  | stepCreateItem (d : Board) (listId : Option String)
      (label description newId now : String) (d2 : Board) (it : Item)
      (h : createItem d listId label description newId now = .ok (d2, it))
      (hfresh : newId ∉ d.items.map (·.id)) : DbStep d d2
  | stepUpdateItem (d : Board) (itemId : String) (pl pd : Option String)
      (now : String) (d2 : Board) (it : Item)
      (h : updateItem d itemId pl pd now = .ok (d2, it)) : DbStep d d2
  | stepDeleteItem (d : Board) (itemId now : String) (d2 : Board)
      (h : deleteItem d itemId now = .ok d2) : DbStep d d2
  | stepMoveItem (d : Board) (projectId itemId : String)
      (toListId : Option String) (toIndex : Int) (now : String)
      (d2 : Board) (itret : Item)
      (hproj : projectId = d.project.id)
      (h : moveItem d projectId itemId toListId toIndex now = .ok (d2, itret)) :
      DbStep d d2

/-- Documents reachable from a fresh `createProject` by any sequence of the
mutating operations of the claim. -/
inductive DbReachable : Board → Prop where
  | init (pid title description now : String) (d : Board)
      (h : createProjectBoard pid title description now = .ok d) :
      DbReachable d
  | step (d d2 : Board) (hd : DbReachable d) (hs : DbStep d d2) :
      DbReachable d2

theorem wf_of_step (d d2 : Board) (hwf : WellFormed d) (hs : DbStep d d2) :
    WellFormed d2 := by
  cases hs with
  | stepCreateList title description newId now d2 l h hfresh =>
    exact wf_createList d title description newId now d2 l hwf h hfresh
  | stepUpdateList listId pt pd now d2 l h =>
    exact wf_updateList d listId pt pd now d2 l hwf h
  | stepDeleteList listId now d2 h =>
    exact wf_deleteList d listId now d2 hwf h
  | stepDuplicateList listId newListId genItemId now d2 l0 n h hfL hfI hinj =>
    exact wf_duplicateList d listId newListId genItemId now d2 l0 n hwf h
      hfL hfI hinj
  | stepReorderLists ids now =>
    exact wf_reorderLists d ids now hwf
  | stepCreateItem listId label description newId now d2 it h hfresh =>
    exact wf_createItem d listId label description newId now d2 it hwf h hfresh
  | stepUpdateItem itemId pl pd now d2 it h =>
    exact wf_updateItem d itemId pl pd now d2 it hwf h
  | stepDeleteItem itemId now d2 h =>
    exact wf_deleteItem d itemId now d2 hwf h
  | stepMoveItem projectId itemId toListId toIndex now d2 itret hproj h =>
    exact wf_moveItem d projectId itemId toListId toIndex now d2 itret hwf
      hproj h

theorem wf_of_reachable (d : Board) (h : DbReachable d) : WellFormed d := by
  induction h with
  | init pid title description now d h =>
    exact wf_createProjectBoard pid title description now d h
  | step d d2 hd hs ih =>
    exact wf_of_step d d2 ih hs

/-! ### Claim C1: the dense-ordering invariant -/

/-- C1: for every document reachable from a freshly created project by any
sequence of `createList` / `updateList` / `deleteList` / `duplicateList` /
`reorderLists` / `createItem` / `updateItem` / `deleteItem` / `moveItem`
operations, the project's list container and every item container (each
list's items and the loose items) carry order values that are exactly
`0..n-1` up to permutation — no gaps, no duplicates. -/
theorem C1_dense_ordering (d : Board) (h : DbReachable d) :
    denseOrders (d.lists.map (·.order)) ∧
    ∀ lid : Option String, denseOrders (containerOrders d.items lid) :=
  ⟨(wf_of_reachable d h).denseLists, (wf_of_reachable d h).denseItems⟩

def wb0 : Board :=
  { project :=
      { id := "P", title := "T", description := "", createdAt := "t0",
        updatedAt := "t0" },
    lists := [], items := [] }

def wb1 : Board :=
  { project :=
      { id := "P", title := "T", description := "", createdAt := "t0",
        updatedAt := "t1" },
    lists := [{ id := "L1", projectId := "P", title := "A", description := "",
                order := 0, createdAt := "t1", updatedAt := "t1" }],
    items := [] }

def wb2 : Board :=
  { project :=
      { id := "P", title := "T", description := "", createdAt := "t0",
        updatedAt := "t2" },
    lists := [{ id := "L1", projectId := "P", title := "A", description := "",
                order := 0, createdAt := "t1", updatedAt := "t1" }],
    items := [{ id := "I1", projectId := "P", listId := some "L1",
                label := "X", description := "", order := 0, createdAt := "t2",
                updatedAt := "t2" }] }

def wb3 : Board :=
  { project :=
      { id := "P", title := "T", description := "", createdAt := "t0",
        updatedAt := "t3" },
    lists := [{ id := "L1", projectId := "P", title := "A", description := "",
                order := 0, createdAt := "t1", updatedAt := "t1" }],
    items := [{ id := "I1", projectId := "P", listId := none,
                label := "X", description := "", order := 0, createdAt := "t2",
                updatedAt := "t3" }] }

def wl1 : ListRec :=
  { id := "L1", projectId := "P", title := "A", description := "",
    order := 0, createdAt := "t1", updatedAt := "t1" }

def wi1 : Item :=
  { id := "I1", projectId := "P", listId := some "L1", label := "X",
    description := "", order := 0, createdAt := "t2", updatedAt := "t2" }

def wi2 : Item :=
  { id := "I1", projectId := "P", listId := none, label := "X",
    description := "", order := 0, createdAt := "t2", updatedAt := "t3" }

/-- A concrete reachable document — create project, create list, create item
in the list, move the item to Loose — witnessing C1's hypotheses. -/
theorem C1_witness :
    denseOrders (wb3.lists.map (·.order)) ∧
    ∀ lid : Option String, denseOrders (containerOrders wb3.items lid) :=
  C1_dense_ordering wb3
    (DbReachable.step wb2 wb3
      (DbReachable.step wb1 wb2
        (DbReachable.step wb0 wb1
          (DbReachable.init "P" "T" "" "t0" wb0 rfl)
          (DbStep.stepCreateList wb0 "A" "" "L1" "t1" wb1 wl1 rfl
            (by decide)))
        (DbStep.stepCreateItem wb1 (some "L1") "X" "" "I1" "t2" wb2 wi1 rfl
          (by decide)))
      (DbStep.stepMoveItem wb2 "P" "I1" none 0 "t3" wb3 wi2 rfl rfl))

/-! ### Claim C5: move correctness -/

theorem clampInt_toNat_le (x : Int) (n : Nat) :
    (clampInt x 0 (n : Int)).toNat ≤ n := by
  unfold clampInt
  omega

theorem clampInt_toNat_cast (x : Int) (n : Nat) :
    (((clampInt x 0 (n : Int)).toNat : Nat) : Int) = clampInt x 0 (n : Int) := by
  unfold clampInt
  omega

theorem enum2_filter_snd_length (l : List α) (prp : Nat × α → Bool)
    (pr : α → Bool) (hfac : ∀ p : Nat × α, prp p = pr p.2) :
    ∀ n, ((enum2 n l).filter prp).length = (l.filter pr).length := by
  induction l with
  | nil => intro n; rfl
  | cons a t ih =>
    intro n
    simp only [enum2, List.filter_cons, hfac (n, a)]
    by_cases h : pr a = true
    · simp only [h, if_true, List.length_cons, ih]
    · simp only [h, Bool.false_eq_true, if_false, ih]

/-- Result facts for the body of `moveItem`: the moved item is returned with
the clamped order, ends up a member of the stored document, the destination
is dense, and a distinct source container loses the item and is dense. -/
theorem move_core_facts (d : Board) (itemId : String)
    (toListId : Option String) (toIndex : Int) (now : String)
    (item item1 : Item) (items1 : List Item) (p0 insertAt : Nat)
    (destPairs spliced : List (Nat × Item)) (items2 : List Item) (d2 : Board)
    (hwf : WellFormed d)
    (hfind : d.items.find? (fun i => i.id == itemId) = some item)
    (hitem1 : item1 =
      { item with
          listId := toListId, order := sentinelOrder, updatedAt := now })
    (hitems1 : items1 = updateFirst (fun i => i.id == itemId)
      (fun _ => item1) d.items)
    (hp0 : p0 = (idxFind (fun i => i.id == itemId) d.items).getD 0)
    (hdest : destPairs = insertionSortB itemOrderLe
      ((enum2 0 items1).filter (fun p =>
        p.2.projectId == d.project.id && p.2.listId == toListId &&
          !(p.2.id == item.id))))
    (hins : insertAt = (clampInt toIndex 0 (destPairs.length : Int)).toNat)
    (hspliced : spliced = spliceIn insertAt (p0, item1) destPairs)
    (hitems2 : items2 = assignIdxOrders
      (fun k it => { it with order := (k : Int), updatedAt := now })
      spliced (enum2 0 items1))
    (hd2 : d2 =
      { project := { d.project with updatedAt := now },
        lists := d.lists,
        items := if item.listId ≠ toListId
          then normalizeItemOrders items2 item.listId else items2 }) :
    ({ item1 with order := (insertAt : Int) } : Item).id = item.id ∧
    ({ item1 with order := (insertAt : Int) } : Item).listId = toListId ∧
    ({ item1 with order := (insertAt : Int) } : Item).order =
      clampInt toIndex 0
        ((d.items.filter (fun i =>
          i.listId == toListId && !(i.id == itemId))).length : Int) ∧
    ({ item1 with order := (insertAt : Int) } : Item) ∈ d2.items ∧
    denseOrders (containerOrders d2.items toListId) ∧
    (item.listId ≠ toListId →
      (∀ y ∈ d2.items, y.listId = item.listId → y.id ≠ itemId) ∧
      denseOrders (containerOrders d2.items item.listId)) := by
  have h_item_mem : item ∈ d.items := List.mem_of_find?_eq_some hfind
  rcases updateFirst_idxFind_spec (fun i => i.id == itemId) (fun _ => item1)
    d.items item hfind with ⟨j0, hidx, hget, hpa, hlen0, hset0, hoth0⟩
  have hset : items1.get? j0 = some item1 := by
    rw [hitems1]
    exact hset0
  have hoth : ∀ j, j ≠ j0 → items1.get? j = d.items.get? j := by
    intro j hj
    rw [hitems1]
    exact hoth0 j hj
  have hp0j : p0 = j0 := by
    rw [hp0, hidx]
    rfl
  subst hp0j
  have h_item_id : item.id = itemId := beq_iff_eq.1 hpa
  have h_item1_id : item1.id = item.id := by rw [hitem1]
  have h_item1_listId : item1.listId = toListId := by rw [hitem1]
  have h_item1_proj : item1.projectId = item.projectId := by rw [hitem1]
  have K1 : (p0, item1) ∈ enum2 0 items1 :=
    (mem_enum2_zero_iff items1 (p0, item1)).2 hset
  have K2 : ∀ p ∈ enum2 0 items1, p.1 = p0 → p = (p0, item1) := by
    intro p hp hfst
    exact enum2_fst_inj items1 0 p (p0, item1) hp K1 hfst
  have K3 : ∀ p ∈ enum2 0 items1, p.2.id = item.id → p = (p0, item1) := by
    intro p hp hid
    by_cases hj : p.1 = p0
    · exact K2 p hp hj
    · exfalso
      have hg := (mem_enum2_zero_iff _ _).1 hp
      rw [hoth p.1 hj] at hg
      exact nodup_map_get?_ne (fun i => i.id) d.items hwf.nodupItemIds
        p.1 p0 p.2 item hg hget hj hid
  have K4 : ∀ p ∈ enum2 0 items1, p.2.projectId = d.project.id := by
    intro p hp
    by_cases hj : p.1 = p0
    · have h4 : p = (p0, item1) := K2 p hp hj
      rw [h4]
      show item1.projectId = d.project.id
      rw [h_item1_proj]
      exact hwf.itemProj item h_item_mem
    · have hg := (mem_enum2_zero_iff _ _).1 hp
      rw [hoth p.1 hj] at hg
      exact hwf.itemProj p.2 (List.get?_mem hg)
  have K6 : (item1.listId == toListId) = true := by
    rw [h_item1_listId]
    exact beq_self_eq_true _
  have hdp : ∀ q ∈ destPairs, q ∈ enum2 0 items1 ∧
      (q.2.listId == toListId) = true ∧ (q.2.id == item.id) = false := by
    intro q hq
    rw [hdest] at hq
    have hq2 := (insertionSortB_perm itemOrderLe _).mem_iff.1 hq
    have h1 := (List.mem_filter.1 hq2).1
    have h2 := (List.mem_filter.1 hq2).2
    rw [Bool.and_eq_true, Bool.and_eq_true] at h2
    refine ⟨h1, h2.1.2, ?_⟩
    have h3 := h2.2
    cases hcc : (q.2.id == item.id) with
    | false => rfl
    | true =>
      rw [hcc] at h3
      simp at h3
  have hdp0 : ∀ q ∈ destPairs, q.1 ≠ p0 := by
    intro q hq he
    have h3 := (hdp q hq).2.2
    have h4 : q = (p0, item1) := K2 q (hdp q hq).1 he
    rw [h4] at h3
    have h5 : (item1.id == item.id) = false := h3
    rw [h_item1_id] at h5
    rw [beq_self_eq_true] at h5
    cases h5
  have hsplnd : (spliced.map Prod.fst).Nodup := by
    rw [hspliced]
    have hperm := (spliceIn_perm insertAt (p0, item1) destPairs).map Prod.fst
    refine (hperm.nodup_iff).2 ?_
    rw [List.map_cons]
    refine List.nodup_cons.2 ⟨?_, ?_⟩
    · intro hmem
      rcases List.mem_map.1 hmem with ⟨q, hq, hfst⟩
      exact hdp0 q hq hfst
    · rw [hdest]
      have h5 := (insertionSortB_perm itemOrderLe
        ((enum2 0 items1).filter (fun p =>
          p.2.projectId == d.project.id && p.2.listId == toListId &&
            !(p.2.id == item.id)))).map Prod.fst
      refine (h5.nodup_iff).2 ?_
      exact ((List.filter_sublist _).map Prod.fst).nodup
        (enum2_fst_nodup items1 0)
  have hmemS : ∀ p ∈ enum2 0 items1, (p.2.listId == toListId) = true →
      p ∈ spliced := by
    intro p hp hpr
    rw [hspliced]
    apply (spliceIn_perm _ _ _).mem_iff.2
    by_cases hid : (p.2.id == item.id) = true
    · have h4 : p = (p0, item1) := K3 p hp (beq_iff_eq.1 hid)
      rw [h4]
      exact List.mem_cons_self _ _
    · apply List.mem_cons_of_mem
      rw [hdest]
      apply (insertionSortB_perm itemOrderLe _).mem_iff.2
      refine List.mem_filter.2 ⟨hp, ?_⟩
      rw [Bool.and_eq_true, Bool.and_eq_true]
      refine ⟨⟨?_, hpr⟩, ?_⟩
      · rw [beq_iff_eq]
        exact K4 p hp
      · rw [Bool.of_not_eq_true hid]
        rfl
  have hmem2S : ∀ q ∈ spliced, q ∈ enum2 0 items1 ∧
      (q.2.listId == toListId) = true := by
    intro q hq
    rw [hspliced] at hq
    have hq2 := (spliceIn_perm _ _ _).mem_iff.1 hq
    rcases List.mem_cons.1 hq2 with rfl | hq3
    · exact ⟨K1, K6⟩
    · exact ⟨(hdp q hq3).1, (hdp q hq3).2.1⟩
  have hdense2 : denseOrders (containerOrders items2 toListId) := by
    rw [hitems2]
    unfold containerOrders
    exact assignIdxOrders_filter_dense
      (fun k it => { it with order := (k : Int), updatedAt := now })
      spliced (enum2 0 items1) (fun i => i.listId == toListId)
      (fun k it => rfl) (fun k it => rfl) hmemS hmem2S hsplnd
      (enum2_fst_nodup items1 0)
  have hlen : destPairs.length = (d.items.filter (fun i =>
      i.listId == toListId && !(i.id == itemId))).length := by
    rw [hdest, (insertionSortB_perm itemOrderLe _).length_eq]
    rw [enum2_filter_snd_length items1
      (fun p => p.2.projectId == d.project.id && p.2.listId == toListId &&
        !(p.2.id == item.id))
      (fun i => i.projectId == d.project.id && i.listId == toListId &&
        !(i.id == item.id)) (fun p => rfl) 0]
    have hstep1 : items1.filter (fun i =>
        i.projectId == d.project.id && i.listId == toListId &&
          !(i.id == item.id)) = d.items.filter (fun i =>
        i.projectId == d.project.id && i.listId == toListId &&
          !(i.id == item.id)) := by
      have hcond : ∀ (j : Nat) (x' x : Item),
          (updateFirst (fun i => i.id == itemId) (fun _ => item1)
            d.items).get? j = some x' → d.items.get? j = some x →
          (((x'.projectId == d.project.id && x'.listId == toListId &&
            !(x'.id == item.id)) = false) ∧
           ((x.projectId == d.project.id && x.listId == toListId &&
            !(x.id == item.id)) = false)) ∨ x' = x := by
        intro j x' x hx' hx
        rw [← hitems1] at hx'
        by_cases hj : j = p0
        · subst hj
          rw [hset] at hx'
          rw [hget] at hx
          have hx'e : x' = item1 := (Option.some.inj hx').symm
          have hxe : x = item := (Option.some.inj hx).symm
          subst hx'e hxe
          left
          constructor
          · rw [h_item1_id, beq_self_eq_true]
            simp
          · rw [beq_self_eq_true]
            simp
        · right
          rw [hoth j hj] at hx'
          rw [hx] at hx'
          exact (Option.some.inj hx').symm
      rw [hitems1]
      exact filter_congr_except _ d.items _ (updateFirst_length _ _ _) hcond
    rw [hstep1]
    have hstep2 : d.items.filter (fun i =>
        i.projectId == d.project.id && i.listId == toListId &&
          !(i.id == item.id)) = d.items.filter (fun i =>
        i.listId == toListId && !(i.id == itemId)) := by
      apply filterCongr
      intro i hi
      have h1 : (i.projectId == d.project.id) = true := by
        rw [beq_iff_eq]
        exact hwf.itemProj i hi
      rw [h1, h_item_id, Bool.true_and]
    rw [hstep2]
  have hgo : ((insertAt : Nat) : Int) = clampInt toIndex 0
      ((d.items.filter (fun i =>
        i.listId == toListId && !(i.id == itemId))).length : Int) := by
    rw [hins, hlen]
    exact clampInt_toNat_cast toIndex _
  have hinsle : insertAt ≤ destPairs.length := by
    rw [hins]
    exact clampInt_toNat_le toIndex destPairs.length
  have hidxsp : idxFind (fun q => q.1 == p0) spliced = some insertAt := by
    rw [hspliced]
    exact idxFind_spliceIn_self destPairs p0 item1 insertAt hinsle hdp0
  have hXmem : ({ item1 with order := (insertAt : Int), updatedAt := now }
      : Item) ∈ items2 := by
    rw [hitems2]
    unfold assignIdxOrders
    refine List.mem_map.2 ⟨(p0, item1), K1, ?_⟩
    show (match idxFind (fun q => q.1 == p0) spliced with
      | some k => ({ item1 with order := (k : Int), updatedAt := now } : Item)
      | none => item1) =
      { item1 with order := (insertAt : Int), updatedAt := now }
    rw [hidxsp]
  have hXeq : ({ item1 with order := (insertAt : Int), updatedAt := now }
      : Item) = { item1 with order := (insertAt : Int) } := by
    rw [hitem1]
  have hX : ({ item1 with order := (insertAt : Int) } : Item) ∈ items2 :=
    hXeq ▸ hXmem
  have hXd2 : ({ item1 with order := (insertAt : Int) } : Item) ∈ d2.items := by
    have hgoal : ({ item1 with order := (insertAt : Int) } : Item) ∈
        (if item.listId ≠ toListId
          then normalizeItemOrders items2 item.listId else items2) := by
      by_cases hft : item.listId ≠ toListId
      · rw [if_pos hft]
        have hXl : (({ item1 with order := (insertAt : Int) }
            : Item).listId == toListId) = true := by
          show (item1.listId == toListId) = true
          exact K6
        have hf2 : (normalizeItemOrders items2 item.listId).filter
            (fun i => i.listId == toListId) =
            items2.filter (fun i => i.listId == toListId) :=
          normalizeItemOrders_filter_other items2 item.listId toListId
            (fun he => hft he.symm)
        have hXf : ({ item1 with order := (insertAt : Int) } : Item)
            ∈ items2.filter (fun i => i.listId == toListId) :=
          List.mem_filter.2 ⟨hX, hXl⟩
        rw [← hf2] at hXf
        exact List.mem_of_mem_filter hXf
      · rw [if_neg hft]
        exact hX
    rw [hd2]
    exact hgoal
  have hdenseD : denseOrders (containerOrders d2.items toListId) := by
    have hitems : d2.items = (if item.listId ≠ toListId
        then normalizeItemOrders items2 item.listId else items2) := by
      rw [hd2]
    rw [hitems]
    by_cases hft : item.listId ≠ toListId
    · rw [if_pos hft, containerOrders_normalize_other items2 item.listId
        toListId (fun he => hft he.symm)]
      exact hdense2
    · rw [if_neg hft]
      exact hdense2
  have hsrc : item.listId ≠ toListId →
      (∀ y ∈ d2.items, y.listId = item.listId → y.id ≠ itemId) ∧
      denseOrders (containerOrders d2.items item.listId) := by
    intro hft
    have hitems : d2.items = normalizeItemOrders items2 item.listId := by
      rw [hd2]
      show (if item.listId ≠ toListId
        then normalizeItemOrders items2 item.listId else items2) =
        normalizeItemOrders items2 item.listId
      rw [if_pos hft]
    constructor
    · intro y hy hylid hyid
      rw [hitems] at hy
      rcases mem_normalizeItemOrders _ _ _ hy with ⟨x, hx2, hyid2, hylid2, _⟩
      rw [hitems2] at hx2
      rcases mem_assignIdxOrders _ _ _ _ hx2 with ⟨p, hp, hcase⟩
      have hxid : x.id = p.2.id := by
        rcases hcase with rfl | ⟨k, rfl⟩
        · rfl
        · rfl
      have hxlid : x.listId = p.2.listId := by
        rcases hcase with rfl | ⟨k, rfl⟩
        · rfl
        · rfl
      have hpid : p.2.id = item.id := by
        rw [← hxid, ← hyid2, hyid, ← h_item_id]
      have h4 : p = (p0, item1) := K3 p hp hpid
      have h5 : p.2.listId = toListId := by
        rw [h4]
        exact h_item1_listId
      apply hft
      rw [← hylid, hylid2, hxlid]
      exact h5
    · rw [hitems]
      exact normalizeItemOrders_dense _ _
  refine ⟨?_, ?_, ?_, hXd2, hdenseD, hsrc⟩
  · show item1.id = item.id
    exact h_item1_id
  · show item1.listId = toListId
    exact h_item1_listId
  · show ((insertAt : Nat) : Int) = clampInt toIndex 0
      ((d.items.filter (fun i =>
        i.listId == toListId && !(i.id == itemId))).length : Int)
    exact hgo

/-- C5: on a well-formed document holding item X (found by id), a successful
`moveItem` to container `toListId` at index `toIndex` returns X re-homed to
`toListId` with order `clamp(toIndex, 0, len)` — `len` counting the
destination's members other than X — and that record is stored; since the
destination's orders are exactly `0..n-1`, the order value is X's position
among the destination members sorted by order; a distinct source container no
longer contains X and is also densely ordered. -/
theorem C5_move_correctness (d : Board) (itemId : String)
    (toListId : Option String) (toIndex : Int) (now : String)
    (d2 : Board) (itret item0 : Item) (hwf : WellFormed d)
    (hfind : d.items.find? (fun i => i.id == itemId) = some item0)
    (h : moveItem d d.project.id itemId toListId toIndex now
      = .ok (d2, itret)) :
    itret.id = item0.id ∧ itret.listId = toListId ∧
    itret.order = clampInt toIndex 0
      ((d.items.filter (fun i =>
        i.listId == toListId && !(i.id == itemId))).length : Int) ∧
    itret ∈ d2.items ∧
    denseOrders (containerOrders d2.items toListId) ∧
    (item0.listId ≠ toListId →
      (∀ y ∈ d2.items, y.listId = item0.listId → y.id ≠ itemId) ∧
      denseOrders (containerOrders d2.items item0.listId)) := by
  cases toListId with
  | none =>
    simp only [moveItem, hfind] at h
    cases h
    exact move_core_facts d itemId none toIndex now item0 _ _ _ _ _ _ _ _
      hwf hfind rfl rfl rfl rfl rfl rfl rfl rfl
  | some s =>
    simp only [moveItem, hfind] at h
    by_cases hs : s = ""
    · rw [if_pos hs] at h
      cases h
      exact move_core_facts d itemId (some s) toIndex now item0 _ _ _ _ _ _ _
        _ hwf hfind rfl rfl rfl rfl rfl rfl rfl rfl
    · rw [if_neg hs] at h
      cases hfl : d.lists.find? (fun l => l.id == s) with
      | none =>
        rw [hfl] at h
        cases h
      | some l0 =>
        rw [hfl] at h
        cases h
        exact move_core_facts d itemId (some s) toIndex now item0 _ _ _ _ _ _
          _ _ hwf hfind rfl rfl rfl rfl rfl rfl rfl rfl

/-- A concrete move of the only item of list L1 to the Loose container at the
out-of-range index 5, which clamps to position 0. -/
theorem C5_witness :
    wi2.id = wi1.id ∧ wi2.listId = none ∧
    wi2.order = clampInt 5 0
      ((wb2.items.filter (fun i =>
        i.listId == none && !(i.id == "I1"))).length : Int) ∧
    wi2 ∈ wb3.items ∧
    denseOrders (containerOrders wb3.items none) ∧
    (wi1.listId ≠ none →
      (∀ y ∈ wb3.items, y.listId = wi1.listId → y.id ≠ "I1") ∧
      denseOrders (containerOrders wb3.items wi1.listId)) :=
  C5_move_correctness wb2 "I1" none 5 "t3" wb3 wi2 wi1
    (wellFormed_of_check wb2 (by decide)) rfl rfl

/-! ### Claim C6: the reorderLists contract -/

theorem listLe_total : ∀ a b : ListRec,
    listLe a b = true ∨ listLe b a = true := by
  intro a b
  unfold listLe
  rcases le_total a.order b.order with h | h
  · exact Or.inl (decide_eq_true h)
  · exact Or.inr (decide_eq_true h)

theorem listLe_trans : ∀ a b c : ListRec, listLe a b = true →
    listLe b c = true → listLe a c = true := by
  intro a b c h1 h2
  unfold listLe at h1 h2 ⊢
  exact decide_eq_true (le_trans (of_decide_eq_true h1) (of_decide_eq_true h2))

theorem intsUpTo_pairwise (n : Nat) :
    List.Pairwise (fun a b : Int => a ≤ b) (intsUpTo n) := by
  unfold intsUpTo
  refine List.Pairwise.map (fun k : Nat => (k : Int))
    (fun a b hab => ?_) (List.pairwise_lt_range n)
  show ((a : Nat) : Int) ≤ ((b : Nat) : Int)
  exact_mod_cast Nat.le_of_lt hab

theorem intsUpTo_get? (n j : Nat) (h : j < n) :
    (intsUpTo n).get? j = some (j : Int) := by
  unfold intsUpTo
  rw [List.get?_map, List.get?_range h]
  rfl

theorem normalizeListOrders_sortedB (lists : List ListRec) :
    SortedB listLe (normalizeListOrders lists) := by
  have h2 : List.Pairwise (fun a b : Int => a ≤ b)
      ((normalizeListOrders lists).map (·.order)) := by
    rw [normalizeListOrders_orders]
    exact intsUpTo_pairwise _
  have h3 := (List.pairwise_map).1 h2
  exact h3.imp (fun hab => decide_eq_true hab)

theorem normalizeListOrders_map_eq (lists : List ListRec) (g : ListRec → β)
    (hg : ∀ (k : Int) (l : ListRec), g { l with order := k } = g l) :
    (normalizeListOrders lists).map g = (insertionSortB listLe lists).map g := by
  unfold normalizeListOrders
  rw [mapIdx2_map]
  exact mapIdx2_constant _ g _ (fun i a => hg (i : Int) a) 0

theorem reorder_assigned_ids (d : Board) (ids : List String) (now : String) :
    ((enum2 0 d.lists).map (reorderEntry d.lists ids now)).map
      (fun l => l.id) = d.lists.map (fun l => l.id) := by
  rw [List.map_map]
  have h1 : (enum2 0 d.lists).map
      ((fun l => l.id) ∘ reorderEntry d.lists ids now) =
      (enum2 0 d.lists).map (fun p => p.2.id) :=
    mapCongr _ _ _ (fun p hp =>
      reorderEntry_fields d.lists ids now p (fun l => l.id) (fun k l => rfl))
  have h2 : (enum2 0 d.lists).map (fun p : Nat × ListRec => p.2.id) =
      ((enum2 0 d.lists).map Prod.snd).map (fun l => l.id) := by
    rw [List.map_map]
    rfl
  rw [h1, h2, enum2_map_snd]

theorem idxFind_beq_nodup [BEq α] [LawfulBEq α] (l : List α) (hnd : l.Nodup) :
    ∀ (j : Nat) (x : α), l.get? j = some x →
      idxFind (fun b => b == x) l = some j := by
  induction l with
  | nil => intro j x h; cases h
  | cons a t ih =>
    intro j x h
    rcases List.nodup_cons.1 hnd with ⟨ha, ht⟩
    match j with
    | 0 =>
      have : a = x := Option.some.inj h
      subst this
      simp [idxFind]
    | j + 1 =>
      have hx : t.get? j = some x := h
      have hne : (a == x) = false := by
        rw [beq_eq_false_iff_ne]
        intro he
        subst he
        exact ha (List.get?_mem hx)
      simp only [idxFind, hne, Bool.false_eq_true, if_false]
      rw [ih ht j x hx]
      rfl

theorem lastIdxOf_nodup_get [BEq α] [LawfulBEq α] (l : List α) (hnd : l.Nodup)
    (j : Nat) (x : α) (h : l.get? j = some x) : lastIdxOf x l = some j := by
  have hj : j < l.length := by
    rcases List.get?_eq_some.1 h with ⟨hlt, _⟩
    exact hlt
  have hrev : l.reverse.get? (l.length - 1 - j) = some x := by
    rw [List.get?_reverse]
    · have : l.length - 1 - (l.length - 1 - j) = j := by omega
      rw [this]
      exact h
    · omega
  have hfind := idxFind_beq_nodup l.reverse (List.nodup_reverse.2 hnd)
    (l.length - 1 - j) x hrev
  unfold lastIdxOf
  rw [hfind]
  have : l.length - 1 - (l.length - 1 - j) = j := by omega
  rw [Option.map_some']
  rw [this]

theorem reorder_full_cover (d : Board) (ids : List String) (now : String)
    (hnd : ids.Nodup) (hperm : ids.Perm (d.lists.map (fun l => l.id))) :
    (normalizeListOrders ((enum2 0 d.lists).map
      (reorderEntry d.lists ids now))).map (fun l => l.id) = ids := by
  set A := (enum2 0 d.lists).map (reorderEntry d.lists ids now) with hAdef
  have hndl : (d.lists.map (fun l => l.id)).Nodup := (hperm.nodup_iff).1 hnd
  have hlen_ids : ids.length = d.lists.length := by
    rw [hperm.length_eq, List.length_map]
  have hA2 : ∀ x ∈ A, ∃ k, ids.get? k = some x.id ∧ x.order = (k : Int) := by
    intro x hx
    rw [hAdef] at hx
    rcases List.mem_map.1 hx with ⟨p, hp, rfl⟩
    have hg := (mem_enum2_zero_iff _ _).1 hp
    have hgid : (d.lists.map (fun l => l.id)).get? p.1 = some p.2.id := by
      rw [List.get?_map, hg]
      rfl
    have hlast1 : lastIdxOf p.2.id (d.lists.map (·.id)) = some p.1 :=
      lastIdxOf_nodup_get _ hndl p.1 p.2.id hgid
    have hpmem : p.2 ∈ d.lists := by
      have h2 : p.2 ∈ (enum2 0 d.lists).map Prod.snd :=
        List.mem_map.2 ⟨p, hp, rfl⟩
      rw [enum2_map_snd] at h2
      exact h2
    have hmemids : p.2.id ∈ ids := by
      apply hperm.mem_iff.2
      exact List.mem_map.2 ⟨p.2, hpmem, rfl⟩
    rcases List.mem_iff_get?.1 hmemids with ⟨k, hk⟩
    have hlast2 : lastIdxOf p.2.id ids = some k :=
      lastIdxOf_nodup_get ids hnd k p.2.id hk
    have hentry : reorderEntry d.lists ids now p =
        { p.2 with order := (k : Int), updatedAt := now } := by
      unfold reorderEntry
      rw [hlast1, hlast2]
      show (if p.1 = p.1
          then ({ p.2 with order := (k : Int), updatedAt := now } : ListRec)
          else p.2) =
        { p.2 with order := (k : Int), updatedAt := now }
      rw [if_pos rfl]
    refine ⟨k, ?_, ?_⟩
    · rw [hentry]
      exact hk
    · rw [hentry]
  have hmap1 : (A.map (fun l => l.id)).map
      (fun s => (((lastIdxOf s ids).getD 0 : Nat) : Int)) =
      A.map (fun l => l.order) := by
    conv_lhs => rw [List.map_map]
    apply mapCongr
    intro x hx
    rcases hA2 x hx with ⟨k, hk, hord⟩
    have hl2 : lastIdxOf x.id ids = some k :=
      lastIdxOf_nodup_get ids hnd k x.id hk
    show (((lastIdxOf x.id ids).getD 0 : Nat) : Int) = x.order
    rw [hl2, hord]
    rfl
  have hAids : A.map (fun l => l.id) = d.lists.map (fun l => l.id) := by
    rw [hAdef]
    exact reorder_assigned_ids d ids now
  have hmap3 : ids.map (fun s => (((lastIdxOf s ids).getD 0 : Nat) : Int)) =
      intsUpTo ids.length := by
    apply List.ext_get
    · rw [List.length_map, length_intsUpTo]
    · intro j h1 h2
      have hj : j < ids.length := by simpa using h1
      have hg : ids.get? j = some (ids.get ⟨j, hj⟩) := List.get?_eq_get hj
      have hl := lastIdxOf_nodup_get ids hnd j (ids.get ⟨j, hj⟩) hg
      simp only [List.get_eq_getElem, List.getElem_map]
      have hgl : ids[j] = ids.get ⟨j, hj⟩ := rfl
      rw [hgl, hl]
      show ((j : Nat) : Int) = (intsUpTo ids.length)[j]
      have h5 : (intsUpTo ids.length).get? j = some ((j : Nat) : Int) :=
        intsUpTo_get? ids.length j hj
      have h6 : j < (intsUpTo ids.length).length := by
        rw [length_intsUpTo]
        exact hj
      rw [List.get?_eq_get h6] at h5
      have h7 := Option.some.inj h5
      rw [← h7]
      rfl
  have hmap2 : (A.map (fun l => l.order)).Perm (intsUpTo ids.length) := by
    rw [← hmap1, hAids, ← hmap3]
    exact (hperm.symm).map _
  have hsorted := insertionSortB_sorted listLe listLe_total listLe_trans A
  have hsortp := insertionSortB_perm listLe A
  have hmapord : (insertionSortB listLe A).map (fun l => l.order) =
      intsUpTo ids.length := by
    have hp : ((insertionSortB listLe A).map (fun l => l.order)).Perm
        (intsUpTo ids.length) := (hsortp.map _).trans hmap2
    have hs1 : List.Pairwise (fun a b : Int => a ≤ b)
        ((insertionSortB listLe A).map (fun l => l.order)) := by
      refine (List.pairwise_map).2 ?_
      exact hsorted.imp (fun hab => of_decide_eq_true hab)
    exact List.eq_of_perm_of_sorted hp hs1 (intsUpTo_pairwise _)
  have hlenA : (insertionSortB listLe A).length = ids.length := by
    rw [hsortp.length_eq, hAdef, List.length_map, enum2_length, hlen_ids]
  rw [normalizeListOrders_map_eq A (fun l => l.id) (fun k l => rfl)]
  apply List.ext_get
  · rw [List.length_map, hlenA]
  · intro j h1 h2
    have hjlt : j < (insertionSortB listLe A).length := by simpa using h1
    have hjids : j < ids.length := by
      rw [← hlenA]
      exact hjlt
    have hmem : (insertionSortB listLe A).get ⟨j, hjlt⟩ ∈
        insertionSortB listLe A := List.get_mem _ _ _
    have hmem2 : (insertionSortB listLe A).get ⟨j, hjlt⟩ ∈ A :=
      hsortp.mem_iff.1 hmem
    rcases hA2 _ hmem2 with ⟨k, hk, hord⟩
    have hordj : ((insertionSortB listLe A).get ⟨j, hjlt⟩).order
        = (j : Int) := by
      have h5 : ((insertionSortB listLe A).map (fun l => l.order)).get? j =
          some ((j : Nat) : Int) := by
        rw [hmapord]
        exact intsUpTo_get? ids.length j hjids
      rw [List.get?_map, List.get?_eq_get hjlt] at h5
      exact Option.some.inj h5
    have hkj : k = j := by
      rw [hord] at hordj
      exact_mod_cast hordj
    rw [hkj] at hk
    rw [List.get?_eq_get hjids] at hk
    have hids2 := Option.some.inj hk
    simp only [List.get_eq_getElem, List.getElem_map]
    show ((insertionSortB listLe A).get ⟨j, hjlt⟩).id = ids.get ⟨j, hjids⟩
    rw [← hids2]

/-- C6 (amended): `reorderLists` never fails; it renumbers the whole list set
densely, preserves the multiset of list ids, leaves the items untouched, and
returns exactly the stored list array (which is sorted by the resulting
order); when the input ids are duplicate-free and name exactly the project's
lists, the resulting array realises the given order.  The original claim's
"named lists first, in the order given; omitted lists after them" does not
hold in general: a named list's order becomes its input index while omitted
lists keep their previous ranks, and the stable renumbering interleaves the
two (see the counterexample). -/
theorem C6_amended (d : Board) (ids : List String) (now : String) :
    denseOrders ((reorderLists d ids now).1.lists.map (·.order)) ∧
    ((reorderLists d ids now).1.lists.map (·.id)).Perm
      (d.lists.map (·.id)) ∧
    (reorderLists d ids now).2 = (reorderLists d ids now).1.lists ∧
    (reorderLists d ids now).1.items = d.items ∧
    (ids.Nodup → ids.Perm (d.lists.map (·.id)) →
      (reorderLists d ids now).1.lists.map (·.id) = ids) := by
  have hA : (reorderLists d ids now).1.lists =
      normalizeListOrders ((enum2 0 d.lists).map
        (reorderEntry d.lists ids now)) := rfl
  have hB : (reorderLists d ids now).2 =
      insertionSortB listLe (normalizeListOrders ((enum2 0 d.lists).map
        (reorderEntry d.lists ids now))) := rfl
  refine ⟨?_, ?_, ?_, ?_, ?_⟩
  · rw [hA]
    exact normalizeListOrders_dense _
  · rw [hA]
    have hlperm := normalizeListOrders_map_field
      ((enum2 0 d.lists).map (reorderEntry d.lists ids now)) (fun l => l.id)
      (fun k l => rfl)
    rw [reorder_assigned_ids d ids now] at hlperm
    exact hlperm
  · rw [hA, hB]
    exact insertionSortB_eq_self listLe _ (normalizeListOrders_sortedB _)
  · rfl
  · intro hnd hperm
    rw [hA]
    exact reorder_full_cover d ids now hnd hperm

/-- A full-cover reorder of the sample board: naming Done before Doing
makes the stored lists come out as Done, Doing, densely renumbered. -/
theorem C6_amended_witness :
    denseOrders ((reorderLists sampleBoard ["Done", "Doing"] "t1").1.lists.map
      (·.order)) ∧
    (reorderLists sampleBoard ["Done", "Doing"] "t1").1.lists.map (·.id) =
      ["Done", "Doing"] :=
  ⟨(C6_amended sampleBoard ["Done", "Doing"] "t1").1,
   (C6_amended sampleBoard ["Done", "Doing"] "t1").2.2.2.2 (by decide)
     (by decide)⟩

/-! ### Claim C9: idempotent coercion — string toolkit -/

theorem head?_append_of_ne_nil (x y : List α) (hx : x ≠ []) :
    (x ++ y).head? = x.head? := by
  cases x with
  | nil => exact absurd rfl hx
  | cons a t => rfl

theorem getLast?_append_right (w m : List α) (hm : m ≠ []) :
    (w ++ m).getLast? = m.getLast? := by
  rw [← List.head?_reverse, ← List.head?_reverse, List.reverse_append]
  apply head?_append_of_ne_nil
  intro hc
  apply hm
  have h2 := congrArg List.reverse hc
  simpa using h2

theorem mem_of_getLast? (l : List α) (a : α) (h : l.getLast? = some a) :
    a ∈ l := by
  rw [← List.head?_reverse] at h
  cases hr : l.reverse with
  | nil =>
    rw [hr] at h
    cases h
  | cons b u =>
    rw [hr] at h
    have hb : b = a := Option.some.inj h
    subst hb
    have hm : b ∈ l.reverse := by
      rw [hr]
      exact List.mem_cons_self _ _
    exact List.mem_reverse.1 hm

theorem dropWhile_head?_false (p : α → Bool) :
    ∀ (l : List α) (a : α), (l.dropWhile p).head? = some a → p a = false := by
  intro l
  induction l with
  | nil => intro a h; cases h
  | cons b u ih =>
    intro a h
    rw [List.dropWhile_cons] at h
    by_cases hb : p b = true
    · rw [if_pos hb] at h
      exact ih a h
    · rw [if_neg hb] at h
      have hba : b = a := Option.some.inj h
      subst hba
      exact Bool.of_not_eq_true hb

theorem jsTrimList_stable (l : List Char)
    (hhead : ∀ a, l.head? = some a → isWsChar a = false)
    (hlast : ∀ a, l.getLast? = some a → isWsChar a = false) :
    jsTrimList l = l := by
  unfold jsTrimList
  have h1 : l.dropWhile isWsChar = l := by
    cases l with
    | nil => rfl
    | cons a t =>
      have ha := hhead a rfl
      simp [List.dropWhile_cons, ha]
  rw [h1]
  have h2 : l.reverse.dropWhile isWsChar = l.reverse := by
    cases hr : l.reverse with
    | nil => rfl
    | cons b u =>
      have hb : l.getLast? = some b := by
        rw [← List.head?_reverse, hr]
        rfl
      have hbw := hlast b hb
      simp [List.dropWhile_cons, hbw]
  rw [h2, List.reverse_reverse]

theorem jsTrimList_head_false (l : List Char) (a : Char)
    (h : (jsTrimList l).head? = some a) : isWsChar a = false := by
  unfold jsTrimList at h
  rw [List.head?_reverse] at h
  have hmne : (l.dropWhile isWsChar).reverse.dropWhile isWsChar ≠ [] := by
    intro hc
    rw [hc] at h
    cases h
  have hsuf : (l.dropWhile isWsChar).reverse.dropWhile isWsChar <:+
      (l.dropWhile isWsChar).reverse := List.dropWhile_suffix _
  rcases hsuf with ⟨w, hw⟩
  have h2 : (l.dropWhile isWsChar).reverse.getLast? = some a := by
    rw [← hw, getLast?_append_right w _ hmne]
    exact h
  have h4 : (l.dropWhile isWsChar).reverse.getLast? =
      (l.dropWhile isWsChar).head? := by
    rw [← List.head?_reverse, List.reverse_reverse]
  rw [h4] at h2
  exact dropWhile_head?_false isWsChar l a h2

theorem jsTrimList_getLast_false (l : List Char) (a : Char)
    (h : (jsTrimList l).getLast? = some a) : isWsChar a = false := by
  unfold jsTrimList at h
  have h4 : ((l.dropWhile isWsChar).reverse.dropWhile isWsChar).reverse.getLast?
      = ((l.dropWhile isWsChar).reverse.dropWhile isWsChar).head? := by
    rw [← List.head?_reverse, List.reverse_reverse]
  rw [h4] at h
  exact dropWhile_head?_false isWsChar _ a h

theorem jsTrimList_idem (l : List Char) :
    jsTrimList (jsTrimList l) = jsTrimList l :=
  jsTrimList_stable _ (fun a h => jsTrimList_head_false l a h)
    (fun a h => jsTrimList_getLast_false l a h)

theorem jsTrim_eq_self (s : String) (h : jsTrimList s.data = s.data) :
    jsTrim s = s := by
  unfold jsTrim
  rw [h]

theorem jsTrim_idem (s : String) : jsTrim (jsTrim s) = jsTrim s := by
  apply jsTrim_eq_self
  show jsTrimList (jsTrimList s.data) = jsTrimList s.data
  exact jsTrimList_idem s.data

theorem digitChar_not_ws (d : Nat) : isWsChar (digitChar d) = false := by
  unfold digitChar
  repeat' split
  all_goals decide

theorem natDigitsAux_chars : ∀ (fuel n : Nat) (acc : List Char),
    (∀ c ∈ acc, isWsChar c = false) →
    ∀ c ∈ natDigitsAux fuel n acc, isWsChar c = false := by
  intro fuel
  induction fuel with
  | zero => intro n acc hacc c hc; exact hacc c hc
  | succ f ih =>
    intro n acc hacc c hc
    simp only [natDigitsAux] at hc
    by_cases hn : n < 10
    · rw [if_pos hn] at hc
      rcases List.mem_cons.1 hc with rfl | hc2
      · exact digitChar_not_ws _
      · exact hacc c hc2
    · rw [if_neg hn] at hc
      refine ih (n / 10) _ ?_ c hc
      intro c2 hc2
      rcases List.mem_cons.1 hc2 with rfl | hc3
      · exact digitChar_not_ws _
      · exact hacc c2 hc3

theorem natDigitsAux_ne_nil : ∀ (fuel n : Nat) (acc : List Char),
    acc ≠ [] → natDigitsAux fuel n acc ≠ [] := by
  intro fuel
  induction fuel with
  | zero => intro n acc h; exact h
  | succ f ih =>
    intro n acc h
    simp only [natDigitsAux]
    by_cases hn : n < 10
    · rw [if_pos hn]
      exact List.cons_ne_nil _ _
    · rw [if_neg hn]
      exact ih (n / 10) _ (List.cons_ne_nil _ _)

theorem natStr_ne_nil (n : Nat) : (natStr n).data ≠ [] := by
  show natDigitsAux (n + 1) n [] ≠ []
  simp only [natDigitsAux]
  by_cases hn : n < 10
  · rw [if_pos hn]
    exact List.cons_ne_nil _ _
  · rw [if_neg hn]
    exact natDigitsAux_ne_nil n (n / 10) _ (List.cons_ne_nil _ _)

theorem natStr_chars (n : Nat) :
    ∀ c ∈ (natStr n).data, isWsChar c = false := by
  intro c hc
  exact natDigitsAux_chars (n + 1) n []
    (fun c2 hc2 => absurd hc2 (List.not_mem_nil c2)) c hc

theorem jsTrim_prefix_digits (pre : String) (k : Nat)
    (hhead : ∀ a, pre.data.head? = some a → isWsChar a = false)
    (hpre : pre.data ≠ []) :
    jsTrim (pre ++ natStr k) = pre ++ natStr k := by
  apply jsTrim_eq_self
  show jsTrimList (pre.data ++ (natStr k).data) = pre.data ++ (natStr k).data
  apply jsTrimList_stable
  · intro a h
    rw [head?_append_of_ne_nil _ _ hpre] at h
    exact hhead a h
  · intro a h
    rw [getLast?_append_right pre.data (natStr k).data (natStr_ne_nil k)] at h
    exact natStr_chars k a (mem_of_getLast? _ a h)

theorem ne_empty_of_data_ne_nil (s : String) (h : s.data ≠ []) : s ≠ "" := by
  intro hc
  apply h
  rw [hc]

theorem pre_digits_ne_empty (pre : String) (k : Nat) (hpre : pre.data ≠ []) :
    pre ++ natStr k ≠ "" := by
  apply ne_empty_of_data_ne_nil
  show pre.data ++ (natStr k).data ≠ []
  intro hc
  rcases List.append_eq_nil.1 hc with ⟨h1, _⟩
  exact hpre h1

/-! ### Claim C9: the item comparator is a total preorder -/

theorem itemCoerceLe_iff (a b : Item) :
    itemCoerceLe a b = true ↔
      (a.listId.getD "" < b.listId.getD "") ∨
      (a.listId.getD "" = b.listId.getD "" ∧ a.order < b.order) ∨
      (a.listId.getD "" = b.listId.getD "" ∧ a.order = b.order ∧
        a.updatedAt ≤ b.updatedAt) := by
  unfold itemCoerceLe
  by_cases h1 : a.listId.getD "" ≠ b.listId.getD ""
  · rw [if_pos h1]
    constructor
    · intro h
      exact Or.inl (of_decide_eq_true h)
    · intro h
      rcases h with h | ⟨he, _⟩ | ⟨he, _⟩
      · exact decide_eq_true h
      · exact absurd he h1
      · exact absurd he h1
  · rw [if_neg h1]
    have he : a.listId.getD "" = b.listId.getD "" := not_ne_iff.1 h1
    by_cases h2 : a.order ≠ b.order
    · rw [if_pos h2]
      constructor
      · intro h
        exact Or.inr (Or.inl ⟨he, of_decide_eq_true h⟩)
      · intro h
        rcases h with h | ⟨_, ho⟩ | ⟨_, ho, _⟩
        · rw [he] at h
          exact absurd h (lt_irrefl _)
        · exact decide_eq_true ho
        · exact absurd ho h2
    · rw [if_neg h2]
      have ho : a.order = b.order := not_ne_iff.1 h2
      constructor
      · intro h
        exact Or.inr (Or.inr ⟨he, ho, of_decide_eq_true h⟩)
      · intro h
        rcases h with h | ⟨_, h3⟩ | ⟨_, _, h3⟩
        · rw [he] at h
          exact absurd h (lt_irrefl _)
        · rw [ho] at h3
          exact absurd h3 (lt_irrefl _)
        · exact decide_eq_true h3

theorem itemCoerceLe_total : ∀ a b : Item,
    itemCoerceLe a b = true ∨ itemCoerceLe b a = true := by
  intro a b
  rw [itemCoerceLe_iff, itemCoerceLe_iff]
  rcases lt_trichotomy (a.listId.getD "") (b.listId.getD "") with h | h | h
  · exact Or.inl (Or.inl h)
  · rcases lt_trichotomy a.order b.order with h2 | h2 | h2
    · exact Or.inl (Or.inr (Or.inl ⟨h, h2⟩))
    · rcases le_total a.updatedAt b.updatedAt with h3 | h3
      · exact Or.inl (Or.inr (Or.inr ⟨h, h2, h3⟩))
      · exact Or.inr (Or.inr (Or.inr ⟨h.symm, h2.symm, h3⟩))
    · exact Or.inr (Or.inr (Or.inl ⟨h.symm, h2⟩))
  · exact Or.inr (Or.inl h)

theorem itemCoerceLe_trans : ∀ a b c : Item, itemCoerceLe a b = true →
    itemCoerceLe b c = true → itemCoerceLe a c = true := by
  intro a b c hab hbc
  rw [itemCoerceLe_iff] at hab hbc ⊢
  rcases hab with h1 | ⟨e1, h1⟩ | ⟨e1, e2, h1⟩
  · rcases hbc with h2 | ⟨f1, h2⟩ | ⟨f1, f2, h2⟩
    · exact Or.inl (lt_trans h1 h2)
    · left
      rw [← f1]
      exact h1
    · left
      rw [← f1]
      exact h1
  · rcases hbc with h2 | ⟨f1, h2⟩ | ⟨f1, f2, h2⟩
    · left
      rw [e1]
      exact h2
    · exact Or.inr (Or.inl ⟨e1.trans f1, lt_trans h1 h2⟩)
    · refine Or.inr (Or.inl ⟨e1.trans f1, ?_⟩)
      rw [← f2]
      exact h1
  · rcases hbc with h2 | ⟨f1, h2⟩ | ⟨f1, f2, h2⟩
    · left
      rw [e1]
      exact h2
    · refine Or.inr (Or.inl ⟨e1.trans f1, ?_⟩)
      rw [e2]
      exact h2
    · exact Or.inr (Or.inr ⟨e1.trans f1, e2.trans f2, le_trans h1 h2⟩)

/-! ### Claim C9: second-pass stability of the coercion stages -/

theorem mapIdx2_map_fuse (f : Nat → β → γ) (h : α → β) (l : List α) :
    ∀ n, mapIdx2 f n (l.map h) = mapIdx2 (fun i a => f i (h a)) n l := by
  induction l with
  | nil => intro n; rfl
  | cons a t ih => intro n; simp [mapIdx2, ih]

theorem mapIdx2_congr_id (f : Nat → α → α) (l : List α)
    (h : ∀ i a, a ∈ l → f i a = a) : ∀ n, mapIdx2 f n l = l := by
  induction l with
  | nil => intro n; rfl
  | cons a t ih =>
    intro n
    simp only [mapIdx2]
    rw [h n a (List.mem_cons_self a t),
      ih (fun i b hb => h i b (List.mem_cons_of_mem a hb)) (n + 1)]

theorem title_default_facts (p deft : String) (hd1 : jsTrim deft = deft)
    (hd2 : deft ≠ "") :
    jsTrim (if jsTrim p = "" then deft else jsTrim p) =
      (if jsTrim p = "" then deft else jsTrim p) ∧
    (if jsTrim p = "" then deft else jsTrim p) ≠ "" := by
  by_cases hc : jsTrim p = ""
  · rw [if_pos hc]
    exact ⟨hd1, hd2⟩
  · rw [if_neg hc]
    exact ⟨jsTrim_idem p, hc⟩

theorem refFixItem_valid (listIds : List String) (it : Item) :
    (refFixItem listIds it).listId = none ∨
    (refFixItem listIds it).listId = some "" ∨
    ∃ s ∈ listIds, (refFixItem listIds it).listId = some s := by
  cases hl : it.listId with
  | none =>
    have hfix : refFixItem listIds it = it := by
      simp only [refFixItem, hl]
    rw [hfix, hl]
    exact Or.inl rfl
  | some s =>
    by_cases hc : s ≠ "" ∧ ¬(s ∈ listIds)
    · have hfix : refFixItem listIds it = { it with listId := none } := by
        simp only [refFixItem, hl, if_pos hc]
      rw [hfix]
      exact Or.inl rfl
    · have hfix : refFixItem listIds it = it := by
        simp only [refFixItem, hl, if_neg hc]
      rw [hfix, hl]
      simp only [not_and_or, not_not, not_ne_iff] at hc
      rcases hc with hc | hc
      · exact Or.inr (Or.inl (by rw [hc]))
      · exact Or.inr (Or.inr ⟨s, hc, rfl⟩)

theorem refFixItem_keeps (listIds : List String) (it : Item) :
    (refFixItem listIds it).projectId = it.projectId ∧
    (refFixItem listIds it).label = it.label := by
  cases hl : it.listId with
  | none =>
    have hfix : refFixItem listIds it = it := by
      simp only [refFixItem, hl]
    rw [hfix]
    exact ⟨rfl, rfl⟩
  | some s =>
    by_cases hc : s ≠ "" ∧ ¬(s ∈ listIds)
    · have hfix : refFixItem listIds it = { it with listId := none } := by
        simp only [refFixItem, hl, if_pos hc]
      rw [hfix]
      exact ⟨rfl, rfl⟩
    · have hfix : refFixItem listIds it = it := by
        simp only [refFixItem, hl, if_neg hc]
      rw [hfix]
      exact ⟨rfl, rfl⟩

theorem coerceProjectRec_second (input : RawBoard) (bp : Project)
    (hinp : input.project = some (projectToRaw bp))
    (h1 : jsTrim bp.title = bp.title) (h2 : bp.title ≠ "") (now2 : String) :
    coerceProjectRec input bp.id now2 = bp := by
  unfold coerceProjectRec
  rw [hinp]
  show ({ id := bp.id,
          title := if jsTrim bp.title = "" then "Untitled project"
            else jsTrim bp.title,
          description := bp.description,
          createdAt := bp.createdAt,
          updatedAt := bp.updatedAt } : Project) = bp
  rw [h1, if_neg h2]

theorem coerceListAt_second (pid now2 : String) (genL2 : Nat → String)
    (idx : Nat) (l : ListRec) (hproj : l.projectId = pid)
    (h1 : jsTrim l.title = l.title) (h2 : l.title ≠ "") :
    coerceListAt pid now2 genL2 idx (listToRaw l) = l := by
  unfold coerceListAt listToRaw
  show ({ id := l.id,
          projectId := pid,
          title := if jsTrim l.title = "" then "List " ++ natStr (idx + 1)
            else jsTrim l.title,
          description := l.description,
          order := l.order,
          createdAt := l.createdAt,
          updatedAt := l.updatedAt } : ListRec) = l
  rw [h1, if_neg h2, ← hproj]

theorem coerceItemAt_second (pid now2 : String) (genI2 : Nat → String)
    (idx : Nat) (it : Item) (hproj : it.projectId = pid)
    (h1 : jsTrim it.label = it.label) (h2 : it.label ≠ "") :
    coerceItemAt pid now2 genI2 idx (itemToRaw it) = it := by
  unfold coerceItemAt itemToRaw
  show ({ id := it.id,
          projectId := pid,
          listId := it.listId,
          label := if jsTrim it.label = "" then "Item " ++ natStr (idx + 1)
            else jsTrim it.label,
          description := it.description,
          order := it.order,
          createdAt := it.createdAt,
          updatedAt := it.updatedAt } : Item) = it
  rw [h1, if_neg h2, ← hproj]

theorem coerce_second_pass (bp : Project) (bl : List ListRec) (bi : List Item)
    (hpt1 : jsTrim bp.title = bp.title) (hpt2 : bp.title ≠ "")
    (hlists : ∀ l ∈ bl, l.projectId = bp.id ∧
      jsTrim l.title = l.title ∧ l.title ≠ "")
    (hitems : ∀ it ∈ bi, it.projectId = bp.id ∧
      jsTrim it.label = it.label ∧ it.label ≠ "" ∧
      (it.listId = none ∨ it.listId = some "" ∨
        ∃ s ∈ bl.map (fun l => l.id), it.listId = some s))
    (hsortedL : SortedB listLe bl) (hsortedI : SortedB itemCoerceLe bi)
    (hint2 : Option String) (now2 genP2 : String) (genL2 genI2 : Nat → String) :
    coerceProjectFile (boardToRaw ⟨bp, bl, bi⟩) hint2 now2 genP2 genL2 genI2 =
      ⟨bp, bl, bi⟩ := by
  show ({ project := coerceProjectRec (boardToRaw ⟨bp, bl, bi⟩) bp.id now2,
          lists := insertionSortB listLe
            (mapIdx2 (coerceListAt bp.id now2 genL2) 0 (bl.map listToRaw)),
          items := insertionSortB itemCoerceLe
            ((mapIdx2 (coerceItemAt bp.id now2 genI2) 0
              (bi.map itemToRaw)).map
              (refFixItem ((mapIdx2 (coerceListAt bp.id now2 genL2) 0
                (bl.map listToRaw)).map (·.id)))) } : Board) = ⟨bp, bl, bi⟩
  have hnormL : mapIdx2 (coerceListAt bp.id now2 genL2) 0 (bl.map listToRaw)
      = bl := by
    rw [mapIdx2_map_fuse]
    refine mapIdx2_congr_id _ _ ?_ 0
    intro i a ha
    exact coerceListAt_second bp.id now2 genL2 i a (hlists a ha).1
      (hlists a ha).2.1 (hlists a ha).2.2
  have hnormI : mapIdx2 (coerceItemAt bp.id now2 genI2) 0 (bi.map itemToRaw)
      = bi := by
    rw [mapIdx2_map_fuse]
    refine mapIdx2_congr_id _ _ ?_ 0
    intro i a ha
    exact coerceItemAt_second bp.id now2 genI2 i a (hitems a ha).1
      (hitems a ha).2.1 (hitems a ha).2.2.1
  rw [hnormL, hnormI]
  have hrefl : bi.map (refFixItem (bl.map (·.id))) = bi := by
    have h1 : bi.map (refFixItem (bl.map (·.id))) = bi.map id :=
      mapCongr _ _ _ (fun it hit =>
        refFixItem_eq_self _ _ (hitems it hit).2.2.2)
    rw [h1, List.map_id]
  rw [hrefl]
  rw [insertionSortB_eq_self listLe bl hsortedL,
    insertionSortB_eq_self itemCoerceLe bi hsortedI]
  rw [coerceProjectRec_second (boardToRaw ⟨bp, bl, bi⟩) bp rfl hpt1 hpt2 now2]

theorem coerce_proj_title_facts (input : RawBoard) (pid now : String) :
    jsTrim (coerceProjectRec input pid now).title =
      (coerceProjectRec input pid now).title ∧
    (coerceProjectRec input pid now).title ≠ "" :=
  title_default_facts ((input.project.bind (·.title)).getD "")
    "Untitled project" (by decide) (by decide)

theorem list_default_head (a : Char)
    (h : ("List " : String).data.head? = some a) : isWsChar a = false := by
  have ha : 'L' = a := Option.some.inj h
  subst ha
  decide

theorem item_default_head (a : Char)
    (h : ("Item " : String).data.head? = some a) : isWsChar a = false := by
  have ha : 'I' = a := Option.some.inj h
  subst ha
  decide

theorem coerceListAt_facts (pid now : String) (genL : Nat → String)
    (idx : Nat) (rl : RawList) :
    (coerceListAt pid now genL idx rl).projectId = pid ∧
    jsTrim (coerceListAt pid now genL idx rl).title =
      (coerceListAt pid now genL idx rl).title ∧
    (coerceListAt pid now genL idx rl).title ≠ "" :=
  ⟨rfl,
   (title_default_facts (rl.title.getD "") ("List " ++ natStr (idx + 1))
     (jsTrim_prefix_digits "List " (idx + 1) list_default_head (by decide))
     (pre_digits_ne_empty "List " (idx + 1) (by decide))).1,
   (title_default_facts (rl.title.getD "") ("List " ++ natStr (idx + 1))
     (jsTrim_prefix_digits "List " (idx + 1) list_default_head (by decide))
     (pre_digits_ne_empty "List " (idx + 1) (by decide))).2⟩

theorem coerceItemAt_facts (pid now : String) (genI : Nat → String)
    (idx : Nat) (ri : RawItem) :
    (coerceItemAt pid now genI idx ri).projectId = pid ∧
    jsTrim (coerceItemAt pid now genI idx ri).label =
      (coerceItemAt pid now genI idx ri).label ∧
    (coerceItemAt pid now genI idx ri).label ≠ "" :=
  ⟨rfl,
   (title_default_facts (ri.label.getD "") ("Item " ++ natStr (idx + 1))
     (jsTrim_prefix_digits "Item " (idx + 1) item_default_head (by decide))
     (pre_digits_ne_empty "Item " (idx + 1) (by decide))).1,
   (title_default_facts (ri.label.getD "") ("Item " ++ natStr (idx + 1))
     (jsTrim_prefix_digits "Item " (idx + 1) item_default_head (by decide))
     (pre_digits_ne_empty "Item " (idx + 1) (by decide))).2⟩

theorem coerce_lists_facts (X : RawBoard) (hint : Option String)
    (now genP : String) (genL genI : Nat → String) :
    ∀ l ∈ (coerceProjectFile X hint now genP genL genI).lists,
      l.projectId = (coerceProjectFile X hint now genP genL genI).project.id ∧
      jsTrim l.title = l.title ∧ l.title ≠ "" := by
  intro l hl
  have hl2 := (insertionSortB_perm listLe _).mem_iff.1 hl
  rcases mem_mapIdx2 _ _ _ _ hl2 with ⟨i, a, ha, rfl⟩
  exact coerceListAt_facts _ now genL i a

theorem coerce_items_facts (X : RawBoard) (hint : Option String)
    (now genP : String) (genL genI : Nat → String) :
    ∀ it ∈ (coerceProjectFile X hint now genP genL genI).items,
      it.projectId = (coerceProjectFile X hint now genP genL genI).project.id ∧
      jsTrim it.label = it.label ∧ it.label ≠ "" ∧
      (it.listId = none ∨ it.listId = some "" ∨
        ∃ s ∈ (coerceProjectFile X hint now genP genL genI).lists.map
          (fun l => l.id), it.listId = some s) := by
  intro it hit
  have hit2 := (insertionSortB_perm itemCoerceLe _).mem_iff.1 hit
  rcases List.mem_map.1 hit2 with ⟨x, hx, rfl⟩
  rcases mem_mapIdx2 _ _ _ _ hx with ⟨i, a, ha, rfl⟩
  refine ⟨?_, ?_, ?_, ?_⟩
  · rw [(refFixItem_keeps _ _).1]
    exact (coerceItemAt_facts _ now genI i a).1
  · rw [(refFixItem_keeps _ _).2]
    exact (coerceItemAt_facts _ now genI i a).2.1
  · rw [(refFixItem_keeps _ _).2]
    exact (coerceItemAt_facts _ now genI i a).2.2
  · rcases refFixItem_valid _ (coerceItemAt _ now genI i a) with h | h |
      ⟨s, hs, h⟩
    · exact Or.inl h
    · exact Or.inr (Or.inl h)
    · refine Or.inr (Or.inr ⟨s, ?_, h⟩)
      exact ((insertionSortB_perm listLe _).map (fun l => l.id)).mem_iff.2 hs

/-- C9: the coercion is idempotent — running `coerceProjectFile` on the
serialize-then-reparse image of an already-coerced document returns that
document unchanged, whatever fresh timestamp, hint and id generators the
second run is given (every field being present, they are never consulted). -/
theorem C9_idempotent_coercion (X : RawBoard) (hint : Option String)
    (now genP : String) (genL genI : Nat → String) (hint2 : Option String)
    (now2 genP2 : String) (genL2 genI2 : Nat → String) :
    coerceProjectFile
      (boardToRaw (coerceProjectFile X hint now genP genL genI))
      hint2 now2 genP2 genL2 genI2 =
      coerceProjectFile X hint now genP genL genI :=
  coerce_second_pass
    (coerceProjectFile X hint now genP genL genI).project
    (coerceProjectFile X hint now genP genL genI).lists
    (coerceProjectFile X hint now genP genL genI).items
    (coerce_proj_title_facts X _ now).1
    (coerce_proj_title_facts X _ now).2
    (coerce_lists_facts X hint now genP genL genI)
    (coerce_items_facts X hint now genP genL genI)
    (insertionSortB_sorted listLe listLe_total listLe_trans _)
    (insertionSortB_sorted itemCoerceLe itemCoerceLe_total itemCoerceLe_trans _)
    hint2 now2 genP2 genL2 genI2
